import Mathlib

/-!
# gncdu: the concurrent scan engine

A shallow embedding of `scan/file_data.go`, `scan/fs.go`, `scan/pool.go`,
`scan/scan.go` and of the delete handler of `ui/pages.go`.

* Pointers to `FileData` are addresses of type `Addr`; the heap maps an address
  to the object stored there.  The `k`-th object created while the directory
  at address `a` is expanded is stored at `a ++ [k]`; the root is stored at `[]`.
* `int32` and `int64` values are integers kept in range by `wrap32` and `wrap64`;
  Go's `int` is taken to be 64 bits wide.
* The file system is static.  An `os.FileInfo` is a `FileInfo` value, which for a
  directory also carries the listing that `readDir` returns for its path.
* Mutexes, `sync.Once` and the wait group are not represented: every step of the
  pool is atomic, and the goroutine started by `SetChildren` is taken to have run.
-/

namespace Gncdu

/-! ## Machine integers -/

/-- The value of an integer stored in an `int32`. -/
def wrap32 (x : Int) : Int := (x + 2147483648) % 4294967296 - 2147483648

/-- The value of an integer stored in an `int64` (and in an `int`). -/
def wrap64 (x : Int) : Int :=
  (x + 9223372036854775808) % 18446744073709551616 - 9223372036854775808

/-- Modelled from the spec: the constant `MB` is declared outside the scanned
sources; the virtual entity is named `<Files smaller than {threshold/MB}MB>` and a
threshold of one megabyte gives `<Files smaller than 1MB>`. -/
def MB : Int := 1048576

/-! ## The file system -/

/-- An `os.FileInfo` of a static file system: a non-directory, a directory whose
listing can be read, or a directory whose listing cannot be read. -/
inductive FileInfo where
  | file (name : String) (size : Int)
  | dir (name : String) (size : Int) (entries : List FileInfo)
  | noread (name : String) (size : Int)

/-- `FileInfo.Name()`. -/
def FileInfo.Name : FileInfo → String
  | .file n _ => n
  | .dir n _ _ => n
  | .noread n _ => n

/-- `FileInfo.Size()`. -/
def FileInfo.Size : FileInfo → Int
  | .file _ s => s
  | .dir _ s _ => s
  | .noread _ s => s

/-- `FileInfo.IsDir()`. -/
def FileInfo.IsDir : FileInfo → Bool
  | .file _ _ => false
  | .dir _ _ _ => true
  | .noread _ _ => true

/-- `readDir(path)` (fs.go) for the path of an entity whose stat result is `info`:
the listing, or `none` when `os.Open` or `Readdir` fails.  A path whose stat
failed (`info = none`) cannot be opened either. -/
def readDir : Option FileInfo → Option (List FileInfo)
  | some (.dir _ _ es) => some es
  | _ => none

/-! ## Tree entities (file_data.go) -/

/-- A pointer to a `FileData`. -/
abbrev Addr := List Nat

/-- The struct `FileData` (without its mutex and its `sync.Once`). -/
structure FileData where
  Parent : Option Addr
  name : String
  isDir : Bool
  size : Int
  Children : List Addr
  count : Int
  info : Option FileInfo
  isVirtual : Bool

/-- The heap of `FileData` objects. -/
abbrev Heap := Addr → Option FileData

/-- Store an object at an address. -/
def Heap.set (h : Heap) (a : Addr) (d : FileData) : Heap :=
  fun b => if b = a then some d else h b

/-- The heap with no object. -/
def Heap.empty : Heap := fun _ => none

/-- `newRootFileData(dir)`; `stat` is the result of `os.Stat(dir)`. -/
def newRootFileData (dir : String) (stat : Option FileInfo) : FileData :=
  match stat with
  | none =>
    { Parent := none, name := dir, isDir := true, size := 0, Children := [],
      count := 0, info := none, isVirtual := false }
  | some info =>
    { Parent := none, name := dir, isDir := true, size := info.Size, Children := [],
      count := 0, info := some info, isVirtual := false }

/-- `newFileData(parent, name, isDir, size)`. -/
def newFileData (parent : Option Addr) (name : String) (isDir : Bool) (size : Int) :
    FileData :=
  { Parent := parent, name := name, isDir := isDir, size := size, Children := [],
    count := -1, info := none, isVirtual := false }

/-- `FileData.Root()`. -/
def FileData.Root (d : FileData) : Bool := d.info.isNone

/-- `FileData.Label()`. -/
def FileData.Label (d : FileData) : String :=
  if d.isVirtual then d.name
  else if d.Root then "/.."
  else if d.isDir then d.name ++ "/"
  else d.name

/-- `FileData.Name()`. -/
def FileData.Name (d : FileData) : String := d.name

/-- `FileData.IsDir()`. -/
def FileData.IsDir (d : FileData) : Bool := d.isDir

/-- The assignment `d.count = v` on the object at `a`. -/
def Heap.setCount (h : Heap) (a : Addr) (v : Int) : Heap :=
  match h a with
  | none => h
  | some d => h.set a { d with count := v }

/-- The assignment `d.size = v` on the object at `a`. -/
def Heap.setSize (h : Heap) (a : Addr) (v : Int) : Heap :=
  match h a with
  | none => h
  | some d => h.set a { d with size := v }

/-- The loop `for _, child := range d.Children` of `Count()`; `rec` is the
recursive call `child.Count()`.  The result is `none` when a child pointer is nil
or a recursive call does not return. -/
def countLoop (rec : Heap → Addr → Option (Int × Heap)) :
    List Addr → Int → Heap → Option (Int × Heap)
  | [], total, h => some (total, h)
  | c :: cs, total, h =>
    match h c with
    | none => none
    | some child =>
      if child.isVirtual then countLoop rec cs (wrap64 (total + child.count)) h
      else if child.IsDir then
        if child.count = -1 then
          match rec h c with
          | none => none
          | some (v, h1) => countLoop rec cs (wrap64 (wrap64 (total + 1) + v)) h1
        else countLoop rec cs (wrap64 (wrap64 (total + 1) + child.count)) h
      else countLoop rec cs (wrap64 (total + 1)) h

/-- `FileData.Count()` on the object at `a`: the returned value and the heap after
the call.  The first argument bounds the depth of the recursion. -/
def Count : Nat → Heap → Addr → Option (Int × Heap)
  | 0, _, _ => none
  | fuel + 1, h, a =>
    match h a with
    | none => none
    | some d =>
      if d.count ≠ -1 then some (d.count, h)
      else if d.isVirtual then some (d.count, h)
      else
        match countLoop (Count fuel) d.Children 0 h with
        | none => none
        | some (total, h1) => some (total, h1.setCount a (wrap32 total))

/-- The loop `for _, child := range d.Children` of `Size()`. -/
def sizeLoop (rec : Heap → Addr → Option (Int × Heap)) :
    List Addr → Int → Heap → Option (Int × Heap)
  | [], total, h => some (total, h)
  | c :: cs, total, h =>
    match h c with
    | none => none
    | some child =>
      if child.size = -1 then
        match rec h c with
        | none => none
        | some (v, h1) => sizeLoop rec cs (wrap64 (total + v)) h1
      else sizeLoop rec cs (wrap64 (total + child.size)) h

/-- `FileData.Size()` on the object at `a`: the returned value and the heap after
the call. -/
def Size : Nat → Heap → Addr → Option (Int × Heap)
  | 0, _, _ => none
  | fuel + 1, h, a =>
    match h a with
    | none => none
    | some d =>
      if d.size ≠ -1 then some (d.size, h)
      else if !d.IsDir then
        let total : Int := match d.info with
          | some i => i.Size
          | none => 0
        some (total, h.setSize a total)
      else
        match sizeLoop (Size fuel) d.Children 0 h with
        | none => none
        | some (total, h1) => some (total, h1.setSize a total)

/-- `FileData.SetChildren(children)` on the object at `a`, with the update of the
parent done. -/
def SetChildren (h : Heap) (a : Addr) (children : List Addr) : Heap :=
  match h a with
  | none => h
  | some d =>
    let h1 := h.set a { d with Children := children, size := -1, count := -1 }
    match d.Parent with
    | none => h1
    | some p =>
      match h1 p with
      | none => h1
      | some pd => h1.set p { pd with size := -1, count := -1 }

/-- The local variables of the first pass over a listing, with the heap and the
two progress totals it updates. -/
structure Pass where
  heap : Heap
  normalFiles : List Addr
  totalSmallSize : Int
  smallCount : Int
  dirCount : Int
  TotalSize : Int
  TotalItems : Int

/-- The virtual file made for the small files of the directory at `task`. -/
def virtualFile (task : Addr) (threshold totalSmallSize smallCount : Int) : FileData :=
  { Parent := some task,
    name := "<Files smaller than " ++ toString (Int.tdiv threshold MB) ++ "MB>",
    isDir := false, size := totalSmallSize, Children := [], count := smallCount,
    info := none, isVirtual := true }

/-- The loop "First pass: classify files" of `worker`. -/
def workerFirstPass (threshold : Int) (task : Addr) : List FileInfo → Pass → Pass
  | [], st => st
  | file :: files, st =>
    let items := wrap32 (st.TotalItems + 1)
    let size := file.Size
    let bytes := wrap64 (st.TotalSize + size)
    if !file.IsDir && size < threshold then
      workerFirstPass threshold task files
        { st with
          totalSmallSize := wrap64 (st.totalSmallSize + size),
          smallCount := wrap32 (st.smallCount + 1),
          TotalSize := bytes, TotalItems := items }
    else
      let child : FileData :=
        { Parent := some task, name := file.Name, isDir := file.IsDir, size := size,
          Children := [], count := -1, info := some file, isVirtual := false }
      let ptr : Addr := task ++ [st.normalFiles.length]
      workerFirstPass threshold task files
        { st with
          heap := st.heap.set ptr child,
          normalFiles := st.normalFiles ++ [ptr],
          dirCount := if child.IsDir then wrap32 (st.dirCount + 1) else st.dirCount,
          TotalSize := bytes, TotalItems := items }

/-- The body of `worker` from the first pass to the call of `SetChildren`: the
local variables and the heap at the time `task.SetChildren(normalFiles)` is
called. -/
def workerGroup (threshold : Int) (task : Addr) (files : List FileInfo)
    (heap : Heap) (totalSize totalItems : Int) : Pass :=
  let st := workerFirstPass threshold task files
    { heap := heap, normalFiles := [], totalSmallSize := 0, smallCount := 0,
      dirCount := 0, TotalSize := totalSize, TotalItems := totalItems }
  if st.smallCount > 0 then
    let ptr : Addr := task ++ [st.normalFiles.length]
    { st with
      heap := st.heap.set ptr
        (virtualFile task threshold st.totalSmallSize st.smallCount),
      normalFiles := st.normalFiles ++ [ptr] }
  else st

/-- The body of `worker` from the first pass to `task.SetChildren(normalFiles)`. -/
def workerExpand (threshold : Int) (task : Addr) (files : List FileInfo)
    (heap : Heap) (totalSize totalItems : Int) : Pass :=
  let st := workerGroup threshold task files heap totalSize totalItems
  { st with heap := SetChildren st.heap task st.normalFiles }

/-- The loop "First pass: classify files" of `processDir`. -/
def processDirFirstPass (threshold : Int) (dir : Addr) : List FileInfo → Pass → Pass
  | [], st => st
  | file :: files, st =>
    let items := wrap32 (st.TotalItems + 1)
    let size := file.Size
    let bytes := wrap64 (st.TotalSize + size)
    if !file.IsDir && size < threshold then
      processDirFirstPass threshold dir files
        { st with
          totalSmallSize := wrap64 (st.totalSmallSize + size),
          smallCount := wrap32 (st.smallCount + 1),
          TotalSize := bytes, TotalItems := items }
    else
      let child : FileData :=
        { Parent := some dir, name := file.Name, isDir := file.IsDir, size := size,
          Children := [], count := -1, info := some file, isVirtual := false }
      let ptr : Addr := dir ++ [st.normalFiles.length]
      processDirFirstPass threshold dir files
        { st with
          heap := st.heap.set ptr child,
          normalFiles := st.normalFiles ++ [ptr],
          dirCount := if child.IsDir then wrap32 (st.dirCount + 1) else st.dirCount,
          TotalSize := bytes, TotalItems := items }

/-- The body of `processDir` from the first pass to the call of `SetChildren`. -/
def processDirGroup (threshold : Int) (dir : Addr) (files : List FileInfo)
    (heap : Heap) (totalSize totalItems : Int) : Pass :=
  let st := processDirFirstPass threshold dir files
    { heap := heap, normalFiles := [], totalSmallSize := 0, smallCount := 0,
      dirCount := 0, TotalSize := totalSize, TotalItems := totalItems }
  if st.smallCount > 0 then
    let ptr : Addr := dir ++ [st.normalFiles.length]
    { st with
      heap := st.heap.set ptr
        (virtualFile dir threshold st.totalSmallSize st.smallCount),
      normalFiles := st.normalFiles ++ [ptr] }
  else st

/-- The body of `processDir` from the first pass to `dir.SetChildren(normalFiles)`. -/
def processDirExpand (threshold : Int) (dir : Addr) (files : List FileInfo)
    (heap : Heap) (totalSize totalItems : Int) : Pass :=
  let st := processDirGroup threshold dir files heap totalSize totalItems
  { st with heap := SetChildren st.heap dir st.normalFiles }

/-- The children for which `child.IsDir()` holds: the ones the loops over
`normalFiles` hand on.  The field `isDir` never changes, so the list is fixed
when the loop starts. -/
def subdirs (h : Heap) (normalFiles : List Addr) : List Addr :=
  normalFiles.filter fun c =>
    match h c with
    | some d => d.IsDir
    | none => false

/-- The control state of one worker goroutine. -/
inductive Worker where
  /-- At `for task := range p.taskChan`, waiting for a task. -/
  | idle
  /-- Left the loop; `wg.Done()` has run. -/
  | exited
  /-- Received `task`; `readDir` has not been called yet. -/
  | got (task : Addr)
  /-- In the loop over the subdirectories of its task: `pending` are the
  subdirectories not yet handed on, `tries` the failed attempts to enqueue the
  first of them, and `stack` the running activations of `processDir`, innermost
  first, each with the subdirectories it has still to process. -/
  | busy (pending : List Addr) (tries : Nat) (stack : List (List Addr))
  deriving DecidableEq

/-- The struct `ScanPool`, with the heap, the progress totals `TotalSize` and
`TotalItems`, and the control state of its workers.  `concurrency` is the number
of workers: the argument of `NewScanPool`, or `DefaultConcurrency()` when that
argument is not positive.  `panicked` records a run-time panic; `visited` is a
history variable: the directories on which `readDir` has been called, latest
first. -/
structure ScanPool where
  concurrency : Nat
  taskChan : List Addr
  closed : Bool
  taskCount : Int
  threshold : Int
  heap : Heap
  TotalSize : Int
  TotalItems : Int
  workers : List Worker
  panicked : Bool
  visited : List Addr

/-- Change the control state of worker `w`. -/
def ScanPool.setWorker (p : ScanPool) (w : Nat) (x : Worker) : ScanPool :=
  { p with workers := p.workers.set w x }

/-- `NewScanPool(concurrency, threshold)`. -/
def NewScanPool (concurrency : Nat) (threshold : Int) (heap : Heap) : ScanPool :=
  { concurrency := concurrency, taskChan := [], closed := false, taskCount := 1,
    threshold := threshold, heap := heap, TotalSize := 0, TotalItems := 0,
    workers := [], panicked := false, visited := [] }

/-- `ScanPool.Start()`: the workers are started and wait for a task. -/
def ScanPool.Start (p : ScanPool) : ScanPool :=
  { p with workers := List.replicate p.concurrency Worker.idle }

/-- `ScanPool.AddTask(task)`. -/
def ScanPool.AddTask (p : ScanPool) (task : Addr) : ScanPool :=
  { p with taskChan := p.taskChan ++ [task] }

/-- One iteration of the loop of `worker` from `readDir` to the start of the loop
over the subdirectories. -/
def ScanPool.workerBody (p : ScanPool) (w : Nat) (task : Addr) : ScanPool :=
  match p.heap task with
  | none => { p with panicked := true }
  | some d =>
    match readDir d.info with
    | none =>
      { p with taskCount := wrap32 (p.taskCount - 1),
               visited := task :: p.visited }.setWorker w Worker.idle
    | some files =>
      let st := workerExpand p.threshold task files p.heap p.TotalSize p.TotalItems
      let p1 := { p with heap := st.heap, TotalSize := st.TotalSize,
                         TotalItems := st.TotalItems, visited := task :: p.visited }
      if st.dirCount > 0 then
        { p1 with taskCount := wrap32 (p1.taskCount + st.dirCount) }.setWorker w
          (Worker.busy (subdirs st.heap st.normalFiles) 0 [])
      else p1.setWorker w (Worker.busy [] 0 [])

/-- The call `p.processDir(dir)` up to its loop over the subdirectories: the pool,
and the subdirectories the loop will process, or `none` when the call has
returned because the read failed. -/
def ScanPool.processDir (p : ScanPool) (dir : Addr) : ScanPool × Option (List Addr) :=
  match p.heap dir with
  | none => ({ p with panicked := true }, none)
  | some d =>
    match readDir d.info with
    | none =>
      ({ p with taskCount := wrap32 (p.taskCount - 1), visited := dir :: p.visited },
        none)
    | some files =>
      let st := processDirExpand p.threshold dir files p.heap p.TotalSize p.TotalItems
      let p1 := { p with heap := st.heap, TotalSize := st.TotalSize,
                         TotalItems := st.TotalItems, visited := dir :: p.visited }
      if st.dirCount > 0 then
        ({ p1 with taskCount := wrap32 (p1.taskCount + st.dirCount) },
          some (subdirs st.heap st.normalFiles))
      else (p1, some [])

/-- The last statement of `processDir`: `atomic.AddInt32(&p.taskCount, -1)`. -/
def ScanPool.processDirReturn (p : ScanPool) : ScanPool :=
  { p with taskCount := wrap32 (p.taskCount - 1) }

/-- The end of an iteration of `worker`: the counter is decremented and the
channel is closed when the counter has reached 0. -/
def ScanPool.workerFinish (p : ScanPool) (w : Nat) : ScanPool :=
  let remaining := wrap32 (p.taskCount - 1)
  { p with taskCount := remaining,
           closed := if remaining = 0 then true else p.closed }.setWorker w Worker.idle

/-- One step of worker `w`, or `none` when the worker cannot move: it has exited,
the program has panicked, or it is blocked on the empty open channel. -/
def ScanPool.worker (p : ScanPool) (w : Nat) : Option ScanPool :=
  if p.panicked then none
  else
    match p.workers[w]? with
    | none => none
    | some Worker.exited => none
    | some Worker.idle =>
      match p.taskChan with
      | task :: rest => some ({ p with taskChan := rest }.setWorker w (Worker.got task))
      | [] => if p.closed then some (p.setWorker w Worker.exited) else none
    | some (Worker.got task) => some (p.workerBody w task)
    | some (Worker.busy [] _ []) => some (p.workerFinish w)
    | some (Worker.busy (child :: rest) tries []) =>
      if tries < 3 then
        if p.closed then some { p with panicked := true }
        else if p.taskChan.length < p.concurrency * 4 then
          some ({ p with taskChan := p.taskChan ++ [child] }.setWorker w
            (Worker.busy rest 0 []))
        else some (p.setWorker w (Worker.busy (child :: rest) (tries + 1) []))
      else
        match p.processDir child with
        | (p1, none) => some (p1.setWorker w (Worker.busy rest 0 []))
        | (p1, some frame) => some (p1.setWorker w (Worker.busy rest 0 [frame]))
    | some (Worker.busy pending tries ((child :: more) :: stack)) =>
      match p.processDir child with
      | (p1, none) => some (p1.setWorker w (Worker.busy pending tries (more :: stack)))
      | (p1, some frame) =>
        some (p1.setWorker w (Worker.busy pending tries (frame :: more :: stack)))
    | some (Worker.busy pending tries ([] :: stack)) =>
      some (p.processDirReturn.setWorker w (Worker.busy pending tries stack))

/-- An execution of the pool: the workers named in the schedule move one after the
other; `none` when a named worker cannot move. -/
def ScanPool.run : List Nat → ScanPool → Option ScanPool
  | [], p => some p
  | w :: ws, p =>
    match p.worker w with
    | none => none
    | some p1 => ScanPool.run ws p1

/-! ## The orchestrator (scan.go) -/

/-- `ScanDirConcurrent(dir, concurrency, threshold)` up to `pool.AddTask(root)`;
`stat` is the result of `os.Stat(dir)`. -/
def ScanDirConcurrent.start (dir : String) (stat : Option FileInfo) (concurrency : Nat)
    (threshold : Int) : ScanPool :=
  let root := newRootFileData dir stat
  let pool := NewScanPool concurrency threshold (Heap.empty.set [] root)
  pool.Start.AddTask []

/-- `pool.Wait()` returns: every worker has exited. -/
def ScanPool.Wait (p : ScanPool) : Bool :=
  !p.panicked && p.workers.all fun x => decide (x = Worker.exited)

/-- The result of `ScanDirConcurrent`, once `pool.Wait()` has returned:
`root.Children` and the error, which is always nil (`false`). -/
def ScanDirConcurrent.result (p : ScanPool) : Option (List Addr × Bool) :=
  if p.Wait then
    match p.heap [] with
    | none => none
    | some root => some (root.Children, false)
  else none

/-! ## Reference description of one expansion -/

/-- The test `!file.IsDir() && size < p.threshold` of the first pass. -/
def isSmall (threshold : Int) (file : FileInfo) : Bool :=
  !file.IsDir && decide (file.Size < threshold)

/-- The entries that are directories or files of size at least the threshold, in
the order of the listing. -/
def kept (threshold : Int) (files : List FileInfo) : List FileInfo :=
  files.filter fun f => !isSmall threshold f

/-- The files below the threshold, in the order of the listing. -/
def smallFiles (threshold : Int) (files : List FileInfo) : List FileInfo :=
  files.filter (isSmall threshold)

/-- The object created for a kept entry of the directory at `task`. -/
def mkChild (task : Addr) (file : FileInfo) : FileData :=
  { Parent := some task, name := file.Name, isDir := file.IsDir, size := file.Size,
    Children := [], count := -1, info := some file, isVirtual := false }

/-- The variable `totalSmallSize` after a listing, starting from `acc`. -/
def smallSizeAcc (threshold : Int) : List FileInfo → Int → Int
  | [], acc => acc
  | f :: fs, acc =>
    if isSmall threshold f then smallSizeAcc threshold fs (wrap64 (acc + f.Size))
    else smallSizeAcc threshold fs acc

/-- The variable `smallCount` after a listing, starting from `acc`. -/
def smallCountAcc (threshold : Int) : List FileInfo → Int → Int
  | [], acc => acc
  | f :: fs, acc =>
    if isSmall threshold f then smallCountAcc threshold fs (wrap32 (acc + 1))
    else smallCountAcc threshold fs acc

/-- The variable `dirCount` after a list of kept entries, starting from `acc`. -/
def dirCountAcc : List FileInfo → Int → Int
  | [], acc => acc
  | f :: fs, acc =>
    if f.IsDir then dirCountAcc fs (wrap32 (acc + 1)) else dirCountAcc fs acc

/-- The total `TotalItems` after a listing, starting from `acc`. -/
def itemsAcc : List FileInfo → Int → Int
  | [], acc => acc
  | _ :: fs, acc => itemsAcc fs (wrap32 (acc + 1))

/-- The total `TotalSize` after a listing, starting from `acc`. -/
def bytesAcc : List FileInfo → Int → Int
  | [], acc => acc
  | f :: fs, acc => bytesAcc fs (wrap64 (acc + f.Size))

/-- Store the objects of a list at `task ++ [n]`, `task ++ [n + 1]`, and so on. -/
def allocList (task : Addr) : Nat → List FileData → Heap → Heap
  | _, [], h => h
  | n, d :: ds, h => allocList task (n + 1) ds (h.set (task ++ [n]) d)

/-- The addresses `task ++ [n0]`, ..., `task ++ [n0 + n - 1]`. -/
def childAddrs (task : Addr) (n0 n : Nat) : List Addr :=
  (List.range' n0 n).map fun k => task ++ [k]

/-- The objects an expansion of the directory at `task` creates, in the order of
their addresses: one for each kept entry, then the virtual file if there is one. -/
def childObjs (threshold : Int) (task : Addr) (files : List FileInfo) : List FileData :=
  (kept threshold files).map (mkChild task) ++
    if smallCountAcc threshold files 0 > 0 then
      [virtualFile task threshold (smallSizeAcc threshold files 0)
        (smallCountAcc threshold files 0)]
    else []

/-- The heap after an expansion of the directory at `task` with listing `files`. -/
def expandHeap (threshold : Int) (task : Addr) (files : List FileInfo) (h : Heap) : Heap :=
  SetChildren (allocList task 0 (childObjs threshold task files) h) task
    (childAddrs task 0 (childObjs threshold task files).length)

/-- The object created at the address `a ++ path`, where `d` is the object created
at `a`: the descent follows the listings and fails when a step leaves the tree. -/
def descend (thr : Int) : FileData → Addr → List Nat → Option FileData
  | d, _, [] => some d
  | d, a, k :: rest =>
    match readDir d.info with
    | none => none
    | some files =>
      match (childObjs thr a files)[k]? with
      | none => none
      | some c => descend thr c (a ++ [k]) rest

/-- The object the scan creates at an address, as it is when created. -/
def created (thr : Int) (root : FileData) (b : Addr) : Option FileData :=
  descend thr root [] b

/-- The object `d` at `b` after its expansion: the children are set and the cached
size and count are unknown; an object that cannot be read is left as it is. -/
def expandedObj (thr : Int) (b : Addr) (d : FileData) : FileData :=
  match readDir d.info with
  | none => d
  | some files =>
    { d with Children := childAddrs b 0 (childObjs thr b files).length,
             size := -1, count := -1 }

/-- The heap of a scan whose `readDir` calls so far are those of `V`: an object
exists when it is the root or its parent has been visited. -/
def expected (thr : Int) (root : FileData) (V : List Addr) : Heap := fun b =>
  match created thr root b with
  | none => none
  | some d =>
    if b = [] ∨ b.dropLast ∈ V then some (if b ∈ V then expandedObj thr b d else d)
    else none

/-- The addresses, among `b ++ [n]`, `b ++ [n + 1]`, ..., of the objects of the list
that are directories. -/
def dirAddrs (b : Addr) : Nat → List FileData → List Addr
  | _, [] => []
  | n, d :: ds => if d.IsDir then (b ++ [n]) :: dirAddrs b (n + 1) ds else dirAddrs b (n + 1) ds

/-- The subdirectories handed on (enqueued or processed inline) after `readDir` has
been called on the object `d` created at `b`. -/
def handoff (thr : Int) (b : Addr) (d : FileData) : List Addr :=
  match readDir d.info with
  | none => []
  | some files =>
    if dirCountAcc (kept thr files) 0 > 0 then dirAddrs b 0 (childObjs thr b files) else []

/-- The heap after `readDir` has been called on the object `d` created at `b`. -/
def visitHeap (thr : Int) (b : Addr) (d : FileData) (h : Heap) : Heap :=
  match readDir d.info with
  | none => h
  | some files => expandHeap thr b files h

/-- The directory at `b` is handed on at some time of a scan whose `readDir` calls
so far are those of `V`: it is the root, or its parent has been visited and hands
it on. -/
def Elig (thr : Int) (root : FileData) (V : List Addr) (b : Addr) : Prop :=
  b = [] ∨ (b.dropLast ∈ V ∧
    ∃ d, created thr root b.dropLast = some d ∧ b ∈ handoff thr b.dropLast d)

/-- The directories a worker holds and on which `readDir` has not been called. -/
def Worker.front : Worker → List Addr
  | Worker.idle => []
  | Worker.exited => []
  | Worker.got task => [task]
  | Worker.busy pending _ stack => pending ++ stack.flatten

/-- The directories held by the workers of a list. -/
def workersFront : List Worker → List Addr
  | [] => []
  | x :: xs => x.front ++ workersFront xs

/-- The directories of the pool on which `readDir` has not been called. -/
def ScanPool.frontier (p : ScanPool) : List Addr :=
  p.taskChan ++ workersFront p.workers

/-- The invariant that ties the heap and the visited directories to the
directories still held. -/
structure Core (thr : Int) (root : FileData) (h : Heap) (V F : List Addr) : Prop where
  heap_eq : h = expected thr root V
  vis_elig : ∀ v ∈ V, Elig thr root V v
  front_elig : ∀ a ∈ F, Elig thr root V a
  nodup : (F ++ V).Nodup
  complete : ∀ b, Elig thr root V b → b ∈ F ∨ b ∈ V

/-- The directories a worker is expanding after a successful `readDir`: its task
and one for each running activation of `processDir`. -/
def Worker.active : Worker → Nat
  | Worker.busy _ _ stack => 1 + stack.length
  | _ => 0

/-- The directories the workers of a list are expanding. -/
def workersActive : List Worker → Nat
  | [] => 0
  | x :: xs => x.active + workersActive xs

/-- The number of directories not yet finished: those on which `readDir` has not
been called and those being expanded. -/
def ScanPool.outstanding (p : ScanPool) : Nat :=
  p.frontier.length + workersActive p.workers

/-- The counter after `readDir` has been called on the object `d`: decremented when
the read fails, raised by `dirCount` when it succeeds and `dirCount > 0`. -/
def visitCount (thr : Int) (d : FileData) (c : Int) : Int :=
  match readDir d.info with
  | none => wrap32 (c - 1)
  | some files =>
    if dirCountAcc (kept thr files) 0 > 0 then wrap32 (c + dirCountAcc (kept thr files) 0)
    else c

/-- The total `TotalSize` after `readDir` has been called on the object `d`. -/
def visitBytes (d : FileData) (t : Int) : Int :=
  match readDir d.info with
  | none => t
  | some files => bytesAcc files t

/-- The total `TotalItems` after `readDir` has been called on the object `d`. -/
def visitItems (d : FileData) (t : Int) : Int :=
  match readDir d.info with
  | none => t
  | some files => itemsAcc files t

/-- The pool after `readDir` has been called on the object `d` at `a` and, when the
read succeeded, the directory has been expanded. -/
def ScanPool.visit (p : ScanPool) (a : Addr) (d : FileData) : ScanPool :=
  { p with heap := visitHeap p.threshold a d p.heap,
           TotalSize := visitBytes d p.TotalSize,
           TotalItems := visitItems d p.TotalItems,
           visited := a :: p.visited,
           taskCount := visitCount p.threshold d p.taskCount }

/-- The invariant of the pool: the heap is that of the visited directories, the
directories held are the ones handed on and not yet visited, and the counter is
the number of unfinished directories, as an `int32`. -/
structure Inv (thr : Int) (root : FileData) (p : ScanPool) : Prop where
  core : Core thr root p.heap p.visited p.frontier
  counter : p.taskCount = wrap32 p.outstanding
  thr_eq : p.threshold = thr

/-- The steps of a worker, each with the state it leads to. -/
inductive Step (thr : Int) (root : FileData) (p : ScanPool) (w : Nat) : ScanPool → Prop where
  | dequeue (task : Addr) (rest : List Addr) :
      p.workers[w]? = some Worker.idle → p.taskChan = task :: rest →
      Step thr root p w ({ p with taskChan := rest }.setWorker w (Worker.got task))
  | exit :
      p.workers[w]? = some Worker.idle → p.taskChan = [] → p.closed = true →
      Step thr root p w (p.setWorker w Worker.exited)
  | body (task : Addr) (d : FileData) :
      p.workers[w]? = some (Worker.got task) → created thr root task = some d →
      Step thr root p w ((p.visit task d).setWorker w
        (match readDir d.info with
          | none => Worker.idle
          | some _ => Worker.busy (handoff thr task d) 0 []))
  | finish (tries : Nat) :
      p.workers[w]? = some (Worker.busy [] tries []) →
      Step thr root p w (p.workerFinish w)
  | sendClosed (child : Addr) (rest : List Addr) (tries : Nat) :
      p.workers[w]? = some (Worker.busy (child :: rest) tries []) → tries < 3 →
      p.closed = true →
      Step thr root p w { p with panicked := true }
  | enqueue (child : Addr) (rest : List Addr) (tries : Nat) :
      p.workers[w]? = some (Worker.busy (child :: rest) tries []) → tries < 3 →
      p.closed = false → p.taskChan.length < p.concurrency * 4 →
      Step thr root p w ({ p with taskChan := p.taskChan ++ [child] }.setWorker w
        (Worker.busy rest 0 []))
  | retry (child : Addr) (rest : List Addr) (tries : Nat) :
      p.workers[w]? = some (Worker.busy (child :: rest) tries []) → tries < 3 →
      p.closed = false → ¬ p.taskChan.length < p.concurrency * 4 →
      Step thr root p w (p.setWorker w (Worker.busy (child :: rest) (tries + 1) []))
  | inline (child : Addr) (rest : List Addr) (tries : Nat) (d : FileData) :
      p.workers[w]? = some (Worker.busy (child :: rest) tries []) → ¬ tries < 3 →
      created thr root child = some d →
      Step thr root p w ((p.visit child d).setWorker w
        (Worker.busy rest 0
          (match readDir d.info with
            | none => []
            | some _ => [handoff thr child d])))
  | descend (pending : List Addr) (tries : Nat) (child : Addr) (more : List Addr)
      (stack : List (List Addr)) (d : FileData) :
      p.workers[w]? = some (Worker.busy pending tries ((child :: more) :: stack)) →
      created thr root child = some d →
      Step thr root p w ((p.visit child d).setWorker w
        (Worker.busy pending tries
          (match readDir d.info with
            | none => more :: stack
            | some _ => handoff thr child d :: more :: stack)))
  | ret (pending : List Addr) (tries : Nat) (stack : List (List Addr)) :
      p.workers[w]? = some (Worker.busy pending tries ([] :: stack)) →
      Step thr root p w (p.processDirReturn.setWorker w (Worker.busy pending tries stack))

/-- The heap that is `g` at the addresses that extend `a` and `h` elsewhere. -/
def Heap.graft (h : Heap) (a : Addr) (g : Heap) : Heap :=
  fun b => if a.isPrefixOf b then g b else h b

/-- Every child pointer extends the address of its parent. -/
def Disc (h : Heap) : Prop :=
  ∀ x d, h x = some d → ∀ c ∈ d.Children, x.isPrefixOf c = true

/-- An object without its cached size and count. -/
def FileData.skel (d : FileData) : FileData := { d with size := 0, count := 0 }

/-- The heap `h1` is `h` up to the cached sizes and counts. -/
def SameShape (h h1 : Heap) : Prop :=
  ∀ b, (h1 b).map FileData.skel = (h b).map FileData.skel

/-- The value `Size()` returns on the object at `a`, when the call returns within
the given depth. -/
def SizeValue (fuel : Nat) (h : Heap) (a : Addr) : Option Int :=
  (Size fuel h a).map Prod.fst

/-- The value `Count()` returns on the object at `a`, when the call returns within
the given depth. -/
def CountValue (fuel : Nat) (h : Heap) (a : Addr) : Option Int :=
  (Count fuel h a).map Prod.fst

/-- What the child at `c` adds to the count of its parent: its count if it is
virtual, one more than its `Count()` if it is a directory, one if it is a file. -/
def countContribution (fuel : Nat) (h : Heap) (c : Addr) : Option Int :=
  match h c with
  | none => none
  | some child =>
    if child.isVirtual then some child.count
    else if child.IsDir then (CountValue fuel h c).map fun v => 1 + v
    else some 1

/-- The children of every object exist and have a smaller height. -/
def Ranked (h : Heap) (ht : Addr → Nat) : Prop :=
  ∀ a d, h a = some d → ∀ c ∈ d.Children, (h c).isSome = true ∧ ht c < ht a

/-- No two addresses of the list extend one another. -/
def Apart (cs : List Addr) : Prop :=
  cs.Pairwise fun x y => x.isPrefixOf y = false ∧ y.isPrefixOf x = false

mutual
/-- The height of the tree below an entry: 0 for a file or an unreadable
directory. -/
def FileInfo.height : FileInfo → Nat
  | FileInfo.file _ _ => 0
  | FileInfo.dir _ _ es => 1 + heightList es
  | FileInfo.noread _ _ => 0
/-- The largest height among the entries of a listing. -/
def heightList : List FileInfo → Nat
  | [] => 0
  | e :: es => max e.height (heightList es)
end

/-- The height of the tree below an object. -/
def objHeight (d : FileData) : Nat :=
  match d.info with
  | some i => i.height
  | none => 0

/-- The height of the tree below the object created at an address. -/
def addrHeight (thr : Int) (root : FileData) (a : Addr) : Nat :=
  match created thr root a with
  | some d => objHeight d
  | none => 0

/-! ## The example of the specification -/

/-- The tree `/data` with `a.txt` (2 MB), `b.txt` (0.5 MB) and `sub/` holding
`c.txt` (10 MB). -/
def exampleTree : FileInfo :=
  FileInfo.dir "/data" 4096
    [FileInfo.file "a.txt" 2097152, FileInfo.file "b.txt" 524288,
     FileInfo.dir "sub" 4096 [FileInfo.file "c.txt" 10485760]]

/-- The scan of the example with one worker and a threshold of 1 MB, before the
first step. -/
def exampleStart : ScanPool :=
  ScanDirConcurrent.start "/data" (some exampleTree) 1 1048576

/-- The scan of the example after the eight steps of its only worker. -/
def exampleScan : ScanPool :=
  (ScanPool.run [0, 0, 0, 0, 0, 0, 0, 0] exampleStart).getD exampleStart

/-- A tree whose root holds `locked/`, a directory that cannot be read, and the
empty directory `open/`. -/
def lockedTree : FileInfo :=
  FileInfo.dir "/data" 4096 [FileInfo.noread "locked" 4096, FileInfo.dir "open" 4096 []]

/-- The scan of `lockedTree` with one worker, after the eleven steps that end it. -/
def lockedScan : ScanPool :=
  (ScanPool.run [0, 0, 0, 0, 0, 0, 0, 0, 0, 0, 0]
    (ScanDirConcurrent.start "/data" (some lockedTree) 1 1048576)).getD
    (ScanDirConcurrent.start "/data" (some lockedTree) 1 1048576)

/-- A heap with the file `f` at `[0]` and, below it, the file `g` at `[0, 0]`. -/
def fileHeap : Heap :=
  (Heap.empty.set [0] (mkChild [] (FileInfo.file "f" 7))).set [0, 0]
    (mkChild [0] (FileInfo.file "g" 5))

/-! ## The size of a tree in directories -/

mutual
/-- The number of directories of the tree of an entry, the entry included. -/
def FileInfo.dirs : FileInfo → Nat
  | FileInfo.file _ _ => 0
  | FileInfo.dir _ _ es => 1 + dirsList es
  | FileInfo.noread _ _ => 1
/-- The number of directories of the trees of a listing. -/
def dirsList : List FileInfo → Nat
  | [] => 0
  | e :: es => e.dirs + dirsList es
end

/-- The number of directory tasks the object `d` stands for: itself and the
directories of the tree below it. -/
def objDirs (d : FileData) : Nat :=
  1 + match readDir d.info with
      | some es => dirsList es
      | none => 0

/-- The number of directory tasks of the object created at an address. -/
def addrDirs (thr : Int) (root : FileData) (a : Addr) : Nat :=
  match created thr root a with
  | some d => objDirs d
  | none => 1

/-- The directory tasks still to come: those of the trees of the directories not
yet read, and one for each directory being expanded. -/
def ScanPool.load (thr : Int) (root : FileData) (p : ScanPool) : Nat :=
  (p.frontier.map (addrDirs thr root)).sum + workersActive p.workers

/-- The directory tasks among the objects of a list. -/
def dirsOf : List FileData → Nat
  | [] => 0
  | o :: os => (if o.IsDir then objDirs o else 0) + dirsOf os

/-- The invariant of a scan of a tree with fewer than 2^31 directories: the
counter never wraps, the channel is closed only when nothing is left, and nothing
has panicked. -/
structure Safe (thr : Int) (root : FileData) (p : ScanPool) : Prop where
  inv : Inv thr root p
  load_le : p.load thr root ≤ objDirs root
  closed_done : p.closed = true → p.outstanding = 0
  no_panic : p.panicked = false

/-! ## The tasks the counter stands for -/

/-- The directory tasks a worker is expanding: the task it has received from the
channel, and one for each running activation of `processDir`. -/
def Worker.expanding : Worker → Nat
  | Worker.got _ => 1
  | Worker.busy _ _ stack => 1 + stack.length
  | _ => 0

/-- The directory tasks the workers of a list are expanding. -/
def workersExpanding : List Worker → Nat
  | [] => 0
  | x :: xs => x.expanding + workersExpanding xs

/-- The directory tasks that are in the queue, being expanded by a worker, or being
expanded inline by `processDir` and not yet finished. -/
def ScanPool.unfinished (p : ScanPool) : Nat :=
  p.taskChan.length + workersExpanding p.workers

/-- The subdirectories a worker has added to the counter and neither sent on the
channel nor passed to `processDir` yet. -/
def Worker.awaited : Worker → Nat
  | Worker.busy pending _ stack => pending.length + stack.flatten.length
  | _ => 0

/-- The subdirectories added to the counter and not yet handed on. -/
def workersAwaited : List Worker → Nat
  | [] => 0
  | x :: xs => x.awaited + workersAwaited xs

/-- The subdirectories of the pool added to the counter and not yet handed on. -/
def ScanPool.awaited (p : ScanPool) : Nat := workersAwaited p.workers

/-- The scan of the example after its worker has received the root and expanded
it: the subdirectory `sub` has been counted and not yet sent. -/
def exampleMid : ScanPool :=
  (ScanPool.run [0, 0] exampleStart).getD exampleStart

/-! ## A bound on the steps still to come -/

/-- The steps a worker can still take on its own account, where `D a` is the
number of directory tasks of the tree at `a`: a directory costs at most seven
steps (three failed sends, the send or the call of `processDir`, the receive, the
expansion and the final decrement). -/
def Worker.potential (D : Addr → Nat) : Worker → Nat
  | Worker.idle => 1
  | Worker.exited => 0
  | Worker.got task => 7 * D task - 4
  | Worker.busy pending tries stack =>
    2 + ((pending.map fun c => 7 * D c).sum - min tries 3) +
      (stack.map fun frame => 1 + (frame.map fun c => 7 * D c).sum).sum

/-- The steps the workers of a list can still take. -/
def workersPotential (D : Addr → Nat) : List Worker → Nat
  | [] => 0
  | x :: xs => x.potential D + workersPotential D xs

/-- A bound on the number of steps the pool can still take. -/
def ScanPool.potential (thr : Int) (root : FileData) (p : ScanPool) : Nat :=
  (if p.panicked then 0 else 1) +
    (p.taskChan.map fun a => 7 * addrDirs thr root a - 4).sum +
    workersPotential (addrDirs thr root) p.workers

/-! ## Trees whose directories can all be read -/

mutual
/-- Every directory of the tree of an entry can be read. -/
def FileInfo.readable : FileInfo → Bool
  | FileInfo.file _ _ => true
  | FileInfo.dir _ _ es => readableList es
  | FileInfo.noread _ _ => false
/-- Every directory of the trees of a listing can be read. -/
def readableList : List FileInfo → Bool
  | [] => true
  | e :: es => e.readable && readableList es
end

/-- An object of a scan of a tree whose directories can all be read: it carries the
stat result of a readable tree and its kind, or it is the virtual file. -/
def Sound (d : FileData) : Prop :=
  (∃ i, d.info = some i ∧ i.readable = true ∧ d.isDir = i.IsDir) ∨
    (d.info = none ∧ d.isDir = false)

/-- What the scans that cannot hang maintain: the workers are those that were
started, the channel is closed as soon as nothing is left, and a worker exits only
after the channel is closed. -/
structure Live (p : ScanPool) : Prop where
  workers_len : p.workers.length = p.concurrency
  done_closed : p.outstanding = 0 → p.closed = true
  exited_closed : Worker.exited ∈ p.workers → p.closed = true

/-! ## The size of a tree in entries -/

mutual
/-- The number of entries of the tree below an entry, at any depth. -/
def FileInfo.entries : FileInfo → Nat
  | FileInfo.file _ _ => 0
  | FileInfo.dir _ _ es => entriesList es
  | FileInfo.noread _ _ => 0
/-- The number of entries of a listing and of the trees below them. -/
def entriesList : List FileInfo → Nat
  | [] => 0
  | e :: es => 1 + e.entries + entriesList es
end

/-- The number of entries of the tree below an object. -/
def objEntries (d : FileData) : Nat :=
  match readDir d.info with
  | some es => entriesList es
  | none => 0

/-! ## The totals of a tree -/

mutual
/-- The sum of the sizes of the files of the tree of an entry; a directory that
cannot be read counts for its own size. -/
def FileInfo.total : FileInfo → Int
  | FileInfo.file _ s => s
  | FileInfo.dir _ _ es => totalList es
  | FileInfo.noread _ s => s
/-- The sum of the sizes of the files of the trees of a listing. -/
def totalList : List FileInfo → Int
  | [] => 0
  | e :: es => e.total + totalList es
end

mutual
/-- No file of the tree of an entry has a negative size. -/
def FileInfo.nonneg : FileInfo → Bool
  | FileInfo.file _ s => decide (0 ≤ s)
  | FileInfo.dir _ _ es => nonnegList es
  | FileInfo.noread _ s => decide (0 ≤ s)
/-- No file of the trees of a listing has a negative size. -/
def nonnegList : List FileInfo → Bool
  | [] => true
  | e :: es => e.nonneg && nonnegList es
end

/-- A listing whose tree the scan renders exactly: every directory can be read, no
size is negative, the sizes add up to an `int64` and the entries are fewer than
2^31. -/
def Tame (files : List FileInfo) : Prop :=
  readableList files = true ∧ nonnegList files = true ∧
    totalList files < 9223372036854775808 ∧ entriesList files < 2147483648

/-- The size of the tree of an object, as created. -/
def objTotal (d : FileData) : Int :=
  if d.isVirtual then d.size
  else match d.info with
    | some i => i.total
    | none => 0

/-- What an object, as created, stands for in the count of its parent. -/
def objContribution (d : FileData) : Int :=
  if d.isVirtual then d.count
  else match d.info with
    | some i => 1 + (i.entries : Int)
    | none => 1

/-- A directory with 2^31 empty subdirectories. -/
def wideTree : FileInfo :=
  FileInfo.dir "/wide" 4096 (List.replicate 2147483648 (FileInfo.dir "d" 4096 []))

/-! ## Scans that have returned -/

/-- What every scan maintains about its workers: they are those that were started,
and once one of them has exited the channel is closed and empty. -/
structure Quiet (p : ScanPool) : Prop where
  workers_len : p.workers.length = p.concurrency
  exited_done : Worker.exited ∈ p.workers → p.closed = true ∧ p.taskChan = []

/-- A tree whose root holds five subdirectories, one more than the channel of a
pool with one worker can take. -/
def fiveTree : FileInfo :=
  FileInfo.dir "/five" 4096
    [FileInfo.dir "d0" 4096 [], FileInfo.dir "d1" 4096 [], FileInfo.dir "d2" 4096 [],
     FileInfo.dir "d3" 4096 [], FileInfo.dir "d4" 4096 [FileInfo.file "x" 2097152]]

/-- The scan of `fiveTree` with one worker: the worker sends four subdirectories,
fails three times to send the fifth and expands it with `processDir`. -/
def fiveScanOne : ScanPool :=
  (ScanPool.run (List.replicate 25 0)
    (ScanDirConcurrent.start "/five" (some fiveTree) 1 1048576)).getD exampleStart

/-- A scan of `fiveTree` with two workers, in which every subdirectory goes through
the channel. -/
def fiveScanTwo : ScanPool :=
  (ScanPool.run [0, 0, 0, 1, 1, 1, 0, 0, 0, 0, 0, 0, 0, 0, 1, 1, 1, 0, 0, 0, 1, 1, 1, 0, 1]
    (ScanDirConcurrent.start "/five" (some fiveTree) 2 1048576)).getD exampleStart

/-! ## The entries listed by a scan -/

/-- The number of raw entries `readDir` returns for the directory at an address:
0 when the read fails. -/
def listed (thr : Int) (root : FileData) (a : Addr) : Nat :=
  match created thr root a with
  | some d =>
    match readDir d.info with
    | some files => files.length
    | none => 0
  | none => 0

/-- The number of raw entries listed over the directories of a list. -/
def listedSum (thr : Int) (root : FileData) (V : List Addr) : Nat :=
  (V.map (listed thr root)).sum

/-- The number of entries of the tree below the object created at an address. -/
def addrEntries (thr : Int) (root : FileData) (a : Addr) : Nat :=
  match created thr root a with
  | some d => objEntries d
  | none => 0

/-- The entries of the trees below the directories among the objects of a list. -/
def entsOf : List FileData → Nat
  | [] => 0
  | o :: os => (if o.IsDir then objEntries o else 0) + entsOf os

/-- The entries below the entries of a listing. -/
def innerEntries : List FileInfo → Nat
  | [] => 0
  | f :: fs => f.entries + innerEntries fs

/-- The invariant of the progress total `TotalItems`: it is, as an `int32`, the
number of entries listed so far, and the entries listed so far together with the
entries of the trees not yet read are the entries of the whole tree. -/
structure Tally (thr : Int) (root : FileData) (p : ScanPool) : Prop where
  items : p.TotalItems = wrap32 (listedSum thr root p.visited)
  balance : listedSum thr root p.visited +
    (p.frontier.map (addrEntries thr root)).sum = objEntries root

/-- A tree whose root holds four empty subdirectories and a fifth, `d4`, that
cannot be read. -/
def blockedTree : FileInfo :=
  FileInfo.dir "/five" 4096
    [FileInfo.dir "d0" 4096 [], FileInfo.dir "d1" 4096 [], FileInfo.dir "d2" 4096 [],
     FileInfo.dir "d3" 4096 [], FileInfo.noread "d4" 4096]

/-- The start of the scan of `blockedTree` with the given number of workers. -/
def blockedStart (concurrency : Nat) : ScanPool :=
  ScanDirConcurrent.start "/five" (some blockedTree) concurrency 1048576

/-- The scan of `blockedTree` with one worker, after its 24 steps: the worker sends
`d0` to `d3`, fails three times to send `d4` and passes it to `processDir`. -/
def blockedScanOne : ScanPool :=
  (ScanPool.run (List.replicate 24 0) (blockedStart 1)).getD (blockedStart 1)

/-- A scan of `blockedTree` with two workers in which worker 1 takes `d0` at once,
so that the channel has room for `d4`, and `d4` is the last directory read. -/
def blockedScanTwo : ScanPool :=
  (ScanPool.run [0, 0, 0, 1, 1, 1, 0, 0, 0, 0, 0, 0, 0, 0, 0, 0, 0, 0, 0, 0, 0, 0]
    (blockedStart 2)).getD (blockedStart 2)

/-! # Theorems -/

/-! ## One expansion -/

theorem workerFirstPass_small (thr : Int) (task : Addr) (f : FileInfo) (fs : List FileInfo)
    (st : Pass) (h : isSmall thr f = true) :
    workerFirstPass thr task (f :: fs) st = workerFirstPass thr task fs
      { st with totalSmallSize := wrap64 (st.totalSmallSize + f.Size),
                smallCount := wrap32 (st.smallCount + 1),
                TotalSize := wrap64 (st.TotalSize + f.Size),
                TotalItems := wrap32 (st.TotalItems + 1) } := by
  have h2 : (!f.IsDir && decide (f.Size < thr)) = true := h
  simp only [workerFirstPass, h2, if_true]

theorem workerFirstPass_keep (thr : Int) (task : Addr) (f : FileInfo) (fs : List FileInfo)
    (st : Pass) (h : isSmall thr f = false) :
    workerFirstPass thr task (f :: fs) st = workerFirstPass thr task fs
      { st with heap := st.heap.set (task ++ [st.normalFiles.length]) (mkChild task f),
                normalFiles := st.normalFiles ++ [task ++ [st.normalFiles.length]],
                dirCount := if f.IsDir then wrap32 (st.dirCount + 1) else st.dirCount,
                TotalSize := wrap64 (st.TotalSize + f.Size),
                TotalItems := wrap32 (st.TotalItems + 1) } := by
  have h2 : (!f.IsDir && decide (f.Size < thr)) = false := h
  simp only [workerFirstPass, h2, mkChild, FileData.IsDir]
  rfl

theorem workerFirstPass_eq (thr : Int) (task : Addr) (files : List FileInfo) (st : Pass) :
    workerFirstPass thr task files st =
      { heap := allocList task st.normalFiles.length
          ((kept thr files).map (mkChild task)) st.heap,
        normalFiles :=
          st.normalFiles ++ childAddrs task st.normalFiles.length (kept thr files).length,
        totalSmallSize := smallSizeAcc thr files st.totalSmallSize,
        smallCount := smallCountAcc thr files st.smallCount,
        dirCount := dirCountAcc (kept thr files) st.dirCount,
        TotalSize := bytesAcc files st.TotalSize,
        TotalItems := itemsAcc files st.TotalItems } := by
  induction files generalizing st with
  | nil =>
    simp [workerFirstPass, kept, allocList, childAddrs, smallSizeAcc, smallCountAcc,
      dirCountAcc, bytesAcc, itemsAcc]
  | cons f fs ih =>
    cases hk : isSmall thr f
    · rw [workerFirstPass_keep _ _ _ _ _ hk, ih]
      simp [kept, List.filter_cons, hk, allocList, childAddrs, smallSizeAcc, smallCountAcc,
        dirCountAcc, bytesAcc, itemsAcc, List.range'_succ]
      split <;> rfl
    · rw [workerFirstPass_small _ _ _ _ _ hk, ih]
      simp [kept, List.filter_cons, hk, smallSizeAcc, smallCountAcc, bytesAcc, itemsAcc]

theorem processDirFirstPass_eq_worker (thr : Int) (dir : Addr) (files : List FileInfo)
    (st : Pass) :
    processDirFirstPass thr dir files st = workerFirstPass thr dir files st := by
  induction files generalizing st with
  | nil => simp [processDirFirstPass, workerFirstPass]
  | cons f fs ih => simp only [processDirFirstPass, workerFirstPass, ih]

theorem processDirGroup_eq_worker (thr : Int) (dir : Addr) (files : List FileInfo)
    (h : Heap) (ts ti : Int) :
    processDirGroup thr dir files h ts ti = workerGroup thr dir files h ts ti := by
  simp only [processDirGroup, workerGroup, processDirFirstPass_eq_worker]

theorem processDirExpand_eq_worker (thr : Int) (dir : Addr) (files : List FileInfo)
    (h : Heap) (ts ti : Int) :
    processDirExpand thr dir files h ts ti = workerExpand thr dir files h ts ti := by
  simp only [processDirExpand, workerExpand, processDirGroup_eq_worker]

theorem allocList_append (task : Addr) (n : Nat) (xs ys : List FileData) (h : Heap) :
    allocList task n (xs ++ ys) h = allocList task (n + xs.length) ys (allocList task n xs h) := by
  induction xs generalizing n h with
  | nil => simp [allocList]
  | cons x xs ih =>
    have e : n + (xs.length + 1) = n + 1 + xs.length := by omega
    simp only [List.cons_append, allocList, List.length_cons, e]
    exact ih (n + 1) _

theorem childAddrs_length (task : Addr) (n0 n : Nat) : (childAddrs task n0 n).length = n := by
  simp [childAddrs]

theorem childAddrs_succ (task : Addr) (n0 n : Nat) :
    childAddrs task n0 (n + 1) = childAddrs task n0 n ++ [task ++ [n0 + n]] := by
  simp [childAddrs, List.range'_concat]

theorem workerGroup_eq (thr : Int) (task : Addr) (files : List FileInfo) (h : Heap)
    (ts ti : Int) :
    workerGroup thr task files h ts ti =
      { heap := allocList task 0 (childObjs thr task files) h,
        normalFiles := childAddrs task 0 (childObjs thr task files).length,
        totalSmallSize := smallSizeAcc thr files 0,
        smallCount := smallCountAcc thr files 0,
        dirCount := dirCountAcc (kept thr files) 0,
        TotalSize := bytesAcc files ts,
        TotalItems := itemsAcc files ti } := by
  simp only [workerGroup, workerFirstPass_eq, childObjs, List.length_nil,
    List.nil_append, childAddrs_length]
  by_cases hc : smallCountAcc thr files 0 > 0
  · simp only [hc, if_true, allocList_append, List.length_map, Nat.zero_add, allocList,
      List.length_append, List.length_singleton, childAddrs_succ]
  · simp only [hc, if_false, List.append_nil, List.length_map, allocList_append, allocList]

theorem workerExpand_eq (thr : Int) (task : Addr) (files : List FileInfo) (h : Heap)
    (ts ti : Int) :
    workerExpand thr task files h ts ti =
      { heap := expandHeap thr task files h,
        normalFiles := childAddrs task 0 (childObjs thr task files).length,
        totalSmallSize := smallSizeAcc thr files 0,
        smallCount := smallCountAcc thr files 0,
        dirCount := dirCountAcc (kept thr files) 0,
        TotalSize := bytesAcc files ts,
        TotalItems := itemsAcc files ti } := by
  simp only [workerExpand, workerGroup_eq, expandHeap]

/-! ## The heap of a partial scan -/

theorem allocList_other (task : Addr) (n : Nat) (ds : List FileData) (h : Heap) (b : Addr)
    (hb : ∀ k, k < ds.length → b ≠ task ++ [n + k]) : allocList task n ds h b = h b := by
  induction ds generalizing n h with
  | nil => rfl
  | cons d ds ih =>
    rw [allocList, ih]
    · have := hb 0 (by simp)
      simp only [Nat.add_zero] at this
      simp [Heap.set, this]
    · intro k hk
      have := hb (k + 1) (by simpa using hk)
      rwa [show n + (k + 1) = n + 1 + k by omega] at this

theorem allocList_child (task : Addr) (n : Nat) (ds : List FileData) (h : Heap) (k : Nat)
    (d : FileData) (hk : ds[k]? = some d) : allocList task n ds h (task ++ [n + k]) = some d := by
  induction ds generalizing n h k with
  | nil => simp at hk
  | cons x xs ih =>
    rw [allocList]
    cases k with
    | zero =>
      simp at hk
      subst hk
      rw [allocList_other]
      · simp [Heap.set]
      · intro k _
        simp
        omega
    | succ k =>
      simp at hk
      have := ih (n + 1) (h.set (task ++ [n]) x) k hk
      rwa [show n + 1 + k = n + (k + 1) by omega] at this

theorem descend_append (thr : Int) (d : FileData) (a : Addr) (p q : List Nat) :
    descend thr d a (p ++ q) = (descend thr d a p).bind fun c => descend thr c (a ++ p) q := by
  induction p generalizing d a with
  | nil => simp [descend]
  | cons k rest ih =>
    simp only [List.cons_append, descend]
    cases readDir d.info with
    | none => rfl
    | some files =>
      simp only
      cases (childObjs thr a files)[k]? with
      | none => rfl
      | some c =>
        show descend thr c (a ++ [k]) (rest ++ q) = _
        rw [ih]
        simp

theorem created_snoc (thr : Int) (root : FileData) (a : Addr) (k : Nat) :
    created thr root (a ++ [k]) = (created thr root a).bind fun d =>
      match readDir d.info with
      | none => none
      | some files => (childObjs thr a files)[k]? := by
  unfold created
  rw [descend_append]
  cases descend thr root [] a with
  | none => rfl
  | some d =>
    simp only [Option.bind, List.nil_append, descend]
    cases readDir d.info with
    | none => rfl
    | some files =>
      simp only
      cases (childObjs thr a files)[k]? <;> rfl





theorem allocList_at (task : Addr) (ds : List FileData) (h : Heap) (k : Nat) :
    allocList task 0 ds h (task ++ [k]) =
      match ds[k]? with
      | some d => some d
      | none => h (task ++ [k]) := by
  cases hk : ds[k]? with
  | some d =>
    have := allocList_child task 0 ds h k d hk
    simpa using this
  | none =>
    simp only
    apply allocList_other
    intro j hj
    have : ds.length ≤ k := by simpa using hk
    simp
    omega

theorem allocList_not_child (task : Addr) (n : Nat) (ds : List FileData) (h : Heap) (b : Addr)
    (hb : ∀ k, b ≠ task ++ [k]) : allocList task n ds h b = h b :=
  allocList_other task n ds h b fun k _ => hb (n + k)

theorem childObjs_parent (thr : Int) (a : Addr) (files : List FileInfo) (k : Nat) (c : FileData)
    (h : (childObjs thr a files)[k]? = some c) : c.Parent = some a := by
  have hm : c ∈ childObjs thr a files := List.getElem?_mem h
  simp only [childObjs, List.mem_append, List.mem_map] at hm
  rcases hm with ⟨f, _, rfl⟩ | hm
  · rfl
  · split at hm
    · simp at hm
      subst hm
      rfl
    · simp at hm

theorem created_parent (thr : Int) (root : FileData) (hroot : root.Parent = none)
    (b : Addr) (d : FileData) (h : created thr root b = some d) :
    d.Parent = if b = [] then none else some b.dropLast := by
  rcases List.eq_nil_or_concat b with rfl | ⟨a, k, rfl⟩
  · simp [created, descend] at h
    subst h
    simpa using hroot
  · rw [List.concat_eq_append, created_snoc] at h
    cases hc : created thr root a with
    | none => simp [hc] at h
    | some pd =>
      simp only [hc, Option.bind] at h
      cases hr : readDir pd.info with
      | none => simp [hr] at h
      | some files =>
        simp only [hr] at h
        simp [childObjs_parent thr a files k d h]

theorem expected_not_visited (thr : Int) (root : FileData) (V : List Addr) (b : Addr)
    (d : FileData) (hc : created thr root b = some d) (hal : b = [] ∨ b.dropLast ∈ V)
    (hv : b ∉ V) : expected thr root V b = some d := by
  simp [expected, hc, hal, hv]

theorem expected_visited (thr : Int) (root : FileData) (V : List Addr) (b : Addr)
    (d : FileData) (hc : created thr root b = some d) (hal : b = [] ∨ b.dropLast ∈ V)
    (hv : b ∈ V) : expected thr root V b = some (expandedObj thr b d) := by
  simp [expected, hc, hal, hv]

theorem expandedObj_eq (thr : Int) (b : Addr) (d : FileData) (files : List FileInfo)
    (hr : readDir d.info = some files) :
    expandedObj thr b d =
      { d with Children := childAddrs b 0 (childObjs thr b files).length,
               size := -1, count := -1 } := by
  simp [expandedObj, hr]

theorem snoc_ne_self (a : Addr) (k : Nat) : a ++ [k] ≠ a := by
  intro h
  have := congrArg List.length h
  simp at this

theorem dropLast_ne_self (a : Addr) (h : a ≠ []) : a.dropLast ≠ a := by
  intro e
  have := congrArg List.length e
  simp at this
  have : 0 < a.length := List.length_pos.mpr h
  omega

theorem dropLast_ne_snoc (a : Addr) (k : Nat) : a.dropLast ≠ a ++ [k] := by
  intro e
  have := congrArg List.length e
  simp only [List.length_dropLast, List.length_append, List.length_singleton] at this
  omega

theorem expandHeap_expected (thr : Int) (root : FileData) (hroot : root.Parent = none)
    (V : List Addr) (a : Addr) (d : FileData) (files : List FileInfo)
    (hV : ∀ v ∈ V, v = [] ∨ v.dropLast ∈ V)
    (ha : a ∉ V) (hal : a = [] ∨ a.dropLast ∈ V)
    (hc : created thr root a = some d) (hr : readDir d.info = some files) :
    expandHeap thr a files (expected thr root V) = expected thr root (a :: V) := by
  have hpar := created_parent thr root hroot a d hc
  have hha : expected thr root V a = some d := expected_not_visited thr root V a d hc hal ha
  have halloc_a : allocList a 0 (childObjs thr a files) (expected thr root V) a = some d := by
    rw [allocList_not_child _ _ _ _ _ (fun k => (snoc_ne_self a k).symm), hha]
  -- the heap after the expansion, address by address
  have key : ∀ b, expandHeap thr a files (expected thr root V) b =
      if b = a then some (expandedObj thr a d)
      else allocList a 0 (childObjs thr a files) (expected thr root V) b := by
    intro b
    unfold expandHeap SetChildren
    simp only [halloc_a]
    rw [expandedObj_eq thr a d files hr]
    rcases hal with rfl | hp
    · simp only [if_true] at hpar
      simp only [hpar, Heap.set]
    · have hne : a ≠ [] := by
        rintro rfl
        exact ha (by simpa using hp)
      simp only [hne, if_false] at hpar
      obtain ⟨k, hk⟩ : ∃ k, a = a.dropLast ++ [k] :=
        ⟨a.getLast hne, (List.dropLast_append_getLast hne).symm⟩
      have hcs := hc
      rw [hk, created_snoc] at hcs
      cases hcp : created thr root a.dropLast with
      | none => simp [hcp] at hcs
      | some pd0 =>
        simp only [hcp, Option.bind] at hcs
        cases hrp : readDir pd0.info with
        | none => simp [hrp] at hcs
        | some pfiles =>
          have hpal : a.dropLast = [] ∨ a.dropLast.dropLast ∈ V := hV _ hp
          have hexp := expected_visited thr root V a.dropLast pd0 hcp hpal hp
          rw [expandedObj_eq thr _ pd0 pfiles hrp] at hexp
          have hh1 : ∀ d1 : FileData,
              ((allocList a 0 (childObjs thr a files) (expected thr root V)).set a d1) a.dropLast
                = some { pd0 with
                    Children := childAddrs a.dropLast 0 (childObjs thr a.dropLast pfiles).length,
                    size := -1, count := -1 } := by
            intro d1
            simp only [Heap.set, dropLast_ne_self a hne, if_false]
            rw [allocList_not_child _ _ _ _ _ (fun k => dropLast_ne_snoc a k), hexp]
          simp only [hpar, hh1]
          show Heap.set (Heap.set _ a _) a.dropLast _ b = _
          by_cases hb : b = a.dropLast
          · subst hb
            simp only [Heap.set, if_true, dropLast_ne_self a hne, if_false]
            rw [allocList_not_child _ _ _ _ _ (fun k => dropLast_ne_snoc a k), hexp]
          · simp only [Heap.set, hb, if_false]
  funext b
  rw [key]
  by_cases hba : b = a
  · subst hba
    simp only [if_true]
    rw [expected_visited thr root (b :: V) b d hc (by
      rcases hal with h | h
      · exact Or.inl h
      · exact Or.inr (List.mem_cons_of_mem _ h)) (List.mem_cons_self _ _)]
  · simp only [hba, if_false]
    rcases List.eq_nil_or_concat b with rfl | ⟨q, k, rfl⟩
    · rw [allocList_not_child _ _ _ _ _ (fun k => by simp)]
      have : ([] : Addr) ∈ a :: V ↔ ([] : Addr) ∈ V := by
        simp [List.mem_cons, Ne.symm hba, hba]
      simp [expected, this]
    · rw [List.concat_eq_append] at hba ⊢
      by_cases hq : q = a
      · subst hq
        rw [allocList_at]
        have hnv : q ++ [k] ∉ q :: V := by
          intro hm
          rcases List.mem_cons.mp hm with h | h
          · exact snoc_ne_self q k h
          · rcases hV _ h with h2 | h2
            · simp at h2
            · simp at h2
              exact ha h2
        have hnv2 : q ++ [k] ∉ V := fun hm => hnv (List.mem_cons_of_mem _ hm)
        simp only [expected, created_snoc, hc, Option.bind, hr]
        cases hck : (childObjs thr q files)[k]? with
        | some c => simp [hnv]
        | none => simp
      · rw [allocList_not_child _ _ _ _ _ (fun j => by
          intro e
          have := List.append_inj_left' e rfl
          exact hq this)]
        have h1 : (q ++ [k] ∈ a :: V) ↔ (q ++ [k] ∈ V) := by
          simp [List.mem_cons, hba]
        have h2 : ((q ++ [k]).dropLast ∈ a :: V) ↔ ((q ++ [k]).dropLast ∈ V) := by
          simp [List.mem_cons, hq]
        simp only [expected, h1, h2]

/-! ## Machine arithmetic -/

theorem wrap32_of_range (x : Int) (h1 : -2147483648 ≤ x) (h2 : x < 2147483648) :
    wrap32 x = x := by
  unfold wrap32
  omega

theorem wrap64_of_range (x : Int) (h1 : -9223372036854775808 ≤ x)
    (h2 : x < 9223372036854775808) : wrap64 x = x := by
  unfold wrap64
  omega

theorem wrap32_add_left (x y : Int) : wrap32 (wrap32 x + y) = wrap32 (x + y) := by
  unfold wrap32
  omega

theorem wrap32_add_right (x y : Int) : wrap32 (x + wrap32 y) = wrap32 (x + y) := by
  unfold wrap32
  omega

theorem wrap32_sub_left (x y : Int) : wrap32 (wrap32 x - y) = wrap32 (x - y) := by
  unfold wrap32
  omega

theorem wrap64_add_left (x y : Int) : wrap64 (wrap64 x + y) = wrap64 (x + y) := by
  unfold wrap64
  omega

theorem wrap64_add_right (x y : Int) : wrap64 (x + wrap64 y) = wrap64 (x + y) := by
  unfold wrap64
  omega

theorem wrap32_idem (x : Int) : wrap32 (wrap32 x) = wrap32 x := by
  unfold wrap32
  omega

theorem wrap64_idem (x : Int) : wrap64 (wrap64 x) = wrap64 x := by
  unfold wrap64
  omega

/-! ## The subdirectories handed on -/

theorem SetChildren_isDir (h : Heap) (a : Addr) (cs : List Addr) (b : Addr) :
    (SetChildren h a cs b).map FileData.IsDir = (h b).map FileData.IsDir := by
  unfold SetChildren
  cases ha : h a with
  | none => rfl
  | some d =>
    simp only
    have hd1 : ({ d with Children := cs, size := -1, count := -1 } : FileData).IsDir
        = d.IsDir := rfl
    generalize ({ d with Children := cs, size := -1, count := -1 } : FileData) = d1 at hd1
    have step1 : (Heap.set h a d1 b).map FileData.IsDir = (h b).map FileData.IsDir := by
      unfold Heap.set
      by_cases hb : b = a
      · subst hb
        simp [ha, hd1]
      · simp [hb]
    cases d.Parent with
    | none => exact step1
    | some p =>
      simp only
      cases hpd : (Heap.set h a d1) p with
      | none => exact step1
      | some pd =>
        simp only
        rw [← step1]
        show (Heap.set (Heap.set h a d1) p _ b).map FileData.IsDir = _
        by_cases hb : b = p
        · subst hb
          simp only [Heap.set, if_true] at hpd ⊢
          rw [hpd]
          rfl
        · simp only [Heap.set, hb, if_false]

theorem subdirs_congr (h1 h2 : Heap) (l : List Addr)
    (h : ∀ c ∈ l, (h1 c).map FileData.IsDir = (h2 c).map FileData.IsDir) :
    subdirs h1 l = subdirs h2 l := by
  unfold subdirs
  apply List.filter_congr
  intro c hc
  have := h c hc
  cases e1 : h1 c <;> cases e2 : h2 c <;> simp_all

theorem childAddrs_cons (task : Addr) (n0 n : Nat) :
    childAddrs task n0 (n + 1) = (task ++ [n0]) :: childAddrs task (n0 + 1) n := by
  simp [childAddrs, List.range'_succ]

theorem subdirs_allocList (b : Addr) (n : Nat) (objs : List FileData) (h : Heap) :
    subdirs (allocList b n objs h) (childAddrs b n objs.length) = dirAddrs b n objs := by
  induction objs generalizing n h with
  | nil => simp [subdirs, childAddrs, dirAddrs]
  | cons d ds ih =>
    rw [List.length_cons, childAddrs_cons, allocList, dirAddrs]
    have hhead : allocList b (n + 1) ds (h.set (b ++ [n]) d) (b ++ [n]) = some d := by
      rw [allocList_other]
      · simp [Heap.set]
      · intro k _
        simp
        omega
    have ih2 := ih (n + 1) (h.set (b ++ [n]) d)
    unfold subdirs at ih2 ⊢
    rw [List.filter_cons]
    simp only [hhead, ih2]

theorem subdirs_expandHeap (thr : Int) (b : Addr) (files : List FileInfo) (h : Heap) :
    subdirs (expandHeap thr b files h) (childAddrs b 0 (childObjs thr b files).length) =
      dirAddrs b 0 (childObjs thr b files) := by
  rw [← subdirs_allocList b 0 (childObjs thr b files) h]
  apply subdirs_congr
  intro c _
  exact SetChildren_isDir _ _ _ _

theorem mem_dirAddrs (b : Addr) (n : Nat) (objs : List FileData) (x : Addr)
    (hx : x ∈ dirAddrs b n objs) :
    ∃ k d, x = b ++ [n + k] ∧ objs[k]? = some d ∧ d.IsDir = true := by
  induction objs generalizing n with
  | nil => simp [dirAddrs] at hx
  | cons d ds ih =>
    rw [dirAddrs] at hx
    by_cases hd : d.IsDir = true
    · simp only [hd, if_true, List.mem_cons] at hx
      rcases hx with rfl | hx
      · exact ⟨0, d, by simp, by simp, hd⟩
      · obtain ⟨k, d1, e, hk, hd1⟩ := ih (n + 1) hx
        exact ⟨k + 1, d1, by rw [e]; congr 2; omega, by simpa using hk, hd1⟩
    · simp only [hd] at hx
      obtain ⟨k, d1, e, hk, hd1⟩ := ih (n + 1) hx
      exact ⟨k + 1, d1, by rw [e]; congr 2; omega, by simpa using hk, hd1⟩

theorem dirAddrs_nodup (b : Addr) (n : Nat) (objs : List FileData) :
    (dirAddrs b n objs).Nodup := by
  induction objs generalizing n with
  | nil => simp [dirAddrs]
  | cons d ds ih =>
    rw [dirAddrs]
    split
    · rw [List.nodup_cons]
      refine ⟨?_, ih (n + 1)⟩
      intro hm
      obtain ⟨k, _, e, _, _⟩ := mem_dirAddrs b (n + 1) ds _ hm
      have := List.append_cancel_left e
      simp at this
      omega
    · exact ih (n + 1)

/-! ## The invariant of the heap and of the visited directories -/

theorem Elig_mono (thr : Int) (root : FileData) (V : List Addr) (a b : Addr)
    (h : Elig thr root V b) : Elig thr root (a :: V) b := by
  rcases h with h | ⟨h1, h2⟩
  · exact Or.inl h
  · exact Or.inr ⟨List.mem_cons_of_mem _ h1, h2⟩

theorem mem_handoff (thr : Int) (b : Addr) (d : FileData) (x : Addr)
    (hx : x ∈ handoff thr b d) :
    ∃ k c files, x = b ++ [k] ∧ readDir d.info = some files ∧
      (childObjs thr b files)[k]? = some c ∧ c.IsDir = true := by
  unfold handoff at hx
  cases hr : readDir d.info with
  | none => simp [hr] at hx
  | some files =>
    simp only [hr] at hx
    split at hx
    · obtain ⟨k, c, e, hk, hc⟩ := mem_dirAddrs b 0 _ x hx
      exact ⟨k, c, files, by simpa using e, rfl, hk, hc⟩
    · simp at hx

theorem handoff_nodup (thr : Int) (b : Addr) (d : FileData) : (handoff thr b d).Nodup := by
  unfold handoff
  cases readDir d.info with
  | none => simp
  | some files =>
    simp only
    split
    · exact dirAddrs_nodup _ _ _
    · simp

theorem dropLast_snoc (a : Addr) (k : Nat) : (a ++ [k]).dropLast = a := by
  simp

theorem Elig_created (thr : Int) (root : FileData) (V : List Addr) (b : Addr)
    (h : Elig thr root V b) :
    ∃ d, created thr root b = some d ∧ (b = [] ∨ b.dropLast ∈ V) := by
  rcases h with rfl | ⟨h1, pd, hc, hm⟩
  · exact ⟨root, rfl, Or.inl rfl⟩
  · obtain ⟨k, c, files, e, hr, hk, _⟩ := mem_handoff thr _ pd b hm
    refine ⟨c, ?_, Or.inr h1⟩
    rw [e, created_snoc, hc]
    simp only [Option.bind, hr]
    exact hk

theorem Core.perm {thr : Int} {root : FileData} {h : Heap} {V F F1 : List Addr}
    (c : Core thr root h V F) (hp : F.Perm F1) : Core thr root h V F1 where
  heap_eq := c.heap_eq
  vis_elig := c.vis_elig
  front_elig := fun a ha => c.front_elig a (hp.symm.subset ha)
  nodup := (List.Perm.nodup_iff (List.Perm.append hp (List.Perm.refl V))).mp c.nodup
  complete := fun b hb => (c.complete b hb).imp (fun h1 => hp.subset h1) id

theorem Core.closed {thr : Int} {root : FileData} {h : Heap} {V F : List Addr}
    (c : Core thr root h V F) : ∀ v ∈ V, v = [] ∨ v.dropLast ∈ V := by
  intro v hv
  rcases c.vis_elig v hv with h1 | ⟨h1, _⟩
  · exact Or.inl h1
  · exact Or.inr h1

theorem Core.head {thr : Int} {root : FileData} {h : Heap} {V F : List Addr} {a : Addr}
    (c : Core thr root h (V) (a :: F)) :
    ∃ d, created thr root a = some d ∧ h a = some d ∧ a ∉ V ∧ (a = [] ∨ a.dropLast ∈ V) := by
  obtain ⟨d, hc, hal⟩ := Elig_created thr root V a (c.front_elig a (List.mem_cons_self _ _))
  have hnv : a ∉ V := by
    intro hv
    have := c.nodup
    rw [List.cons_append, List.nodup_cons] at this
    exact this.1 (List.mem_append_right _ hv)
  refine ⟨d, hc, ?_, hnv, hal⟩
  rw [c.heap_eq]
  exact expected_not_visited thr root V a d hc hal hnv

theorem expected_cons_noread (thr : Int) (root : FileData) (V : List Addr) (a : Addr)
    (d : FileData) (hc : created thr root a = some d) (hr : readDir d.info = none) :
    expected thr root (a :: V) = expected thr root V := by
  funext b
  unfold expected
  cases hcb : created thr root b with
  | none => rfl
  | some db =>
    simp only
    by_cases hba : b = a
    · subst hba
      have : db = d := by
        rw [hc] at hcb
        exact (Option.some.inj hcb).symm
      subst this
      by_cases hb0 : b = []
      · simp [expandedObj, hr, hb0]
      · simp [expandedObj, hr, hb0, dropLast_ne_self b hb0]
    · have h1 : (b ∈ a :: V) ↔ (b ∈ V) := by simp [List.mem_cons, hba]
      by_cases hpa : b.dropLast = a
      · -- the parent cannot be read: no object is created at b unless b is the root
        rcases List.eq_nil_or_concat b with rfl | ⟨q, k, rfl⟩
        · simp [h1]
        · rw [List.concat_eq_append] at hcb hpa
          rw [dropLast_snoc] at hpa
          subst hpa
          rw [created_snoc, hc] at hcb
          simp [Option.bind, hr] at hcb
      · have h2 : (b.dropLast ∈ a :: V) ↔ (b.dropLast ∈ V) := by simp [List.mem_cons, hpa]
        simp only [h1, h2]

theorem Core.visit {thr : Int} {root : FileData} (hroot : root.Parent = none)
    {h : Heap} {V F : List Addr} {a : Addr} {d : FileData}
    (c : Core thr root h V (a :: F)) (hc : created thr root a = some d) :
    Core thr root (visitHeap thr a d h) (a :: V) (handoff thr a d ++ F) := by
  obtain ⟨d1, hc1, _, hnv, hal⟩ := c.head
  have hd : d1 = d := by
    rw [hc] at hc1
    exact (Option.some.inj hc1).symm
  subst hd
  have hnd := c.nodup
  rw [List.cons_append, List.nodup_cons] at hnd
  -- a handed-on child is new
  have hfresh : ∀ x ∈ handoff thr a d1, x ∉ F ++ V ∧ x ≠ a := by
    intro x hx
    obtain ⟨k, _, _, e, _, _, _⟩ := mem_handoff thr a d1 x hx
    subst e
    refine ⟨?_, snoc_ne_self a k⟩
    intro hm
    have he : Elig thr root V (a ++ [k]) := by
      rcases List.mem_append.mp hm with h1 | h1
      · exact c.front_elig _ (List.mem_cons_of_mem _ h1)
      · exact c.vis_elig _ h1
    rcases he with h1 | ⟨h1, _⟩
    · simp at h1
    · rw [dropLast_snoc] at h1
      exact hnv h1
  refine ⟨?_, ?_, ?_, ?_, ?_⟩
  · unfold visitHeap
    cases hr : readDir d1.info with
    | none =>
      simp only
      rw [expected_cons_noread thr root V a d1 hc hr]
      exact c.heap_eq
    | some files =>
      simp only
      rw [c.heap_eq]
      exact expandHeap_expected thr root hroot V a d1 files c.closed hnv hal hc hr
  · intro v hv
    rcases List.mem_cons.mp hv with rfl | hv
    · exact Elig_mono _ _ _ _ _ (c.front_elig _ (List.mem_cons_self _ _))
    · exact Elig_mono _ _ _ _ _ (c.vis_elig v hv)
  · intro x hx
    rcases List.mem_append.mp hx with hx | hx
    · obtain ⟨k, _, _, e, _, _, _⟩ := mem_handoff thr a d1 x hx
      refine Or.inr ⟨?_, d1, ?_, ?_⟩
      · rw [e, dropLast_snoc]
        exact List.mem_cons_self _ _
      · rw [e, dropLast_snoc]
        exact hc
      · rw [e, dropLast_snoc, ← e]
        exact hx
    · exact Elig_mono _ _ _ _ _ (c.front_elig _ (List.mem_cons_of_mem _ hx))
  · have hperm : ((handoff thr a d1 ++ F) ++ a :: V).Perm (handoff thr a d1 ++ a :: (F ++ V)) := by
      rw [List.append_assoc]
      exact List.Perm.append_left _ List.perm_middle
    rw [hperm.nodup_iff, List.nodup_append]
    refine ⟨handoff_nodup _ _ _, ?_, ?_⟩
    · rw [List.nodup_cons]
      exact hnd
    · intro x hx hx2
      rcases List.mem_cons.mp hx2 with h1 | h1
      · exact (hfresh x hx).2 h1
      · exact (hfresh x hx).1 h1
  · intro b hb
    rcases hb with rfl | ⟨h1, pd, hcp, hm⟩
    · rcases c.complete [] (Or.inl rfl) with h2 | h2
      · rcases List.mem_cons.mp h2 with h3 | h3
        · exact Or.inr (by rw [h3]; exact List.mem_cons_self _ _)
        · exact Or.inl (List.mem_append_right _ h3)
      · exact Or.inr (List.mem_cons_of_mem _ h2)
    · rcases List.mem_cons.mp h1 with h2 | h2
      · rw [h2] at hcp hm
        have : pd = d1 := by
          rw [hc] at hcp
          exact (Option.some.inj hcp).symm
        subst this
        exact Or.inl (List.mem_append_left _ hm)
      · rcases c.complete b (Or.inr ⟨h2, pd, hcp, hm⟩) with h3 | h3
        · rcases List.mem_cons.mp h3 with h4 | h4
          · exact Or.inr (by rw [h4]; exact List.mem_cons_self _ _)
          · exact Or.inl (List.mem_append_right _ h4)
        · exact Or.inr (List.mem_cons_of_mem _ h3)

/-! ## The steps of the pool -/

theorem workersFront_set (ws : List Worker) (w : Nat) (old x : Worker)
    (h : ws[w]? = some old) :
    (workersFront ws).Perm (old.front ++ workersFront (ws.eraseIdx w)) ∧
      (workersFront (ws.set w x)).Perm (x.front ++ workersFront (ws.eraseIdx w)) := by
  induction ws generalizing w with
  | nil => simp at h
  | cons y ys ih =>
    cases w with
    | zero =>
      simp at h
      subst h
      simp [workersFront]
    | succ w =>
      simp at h
      obtain ⟨h1, h2⟩ := ih w h
      simp only [workersFront, List.set_cons_succ, List.eraseIdx_cons_succ]
      constructor
      · exact (List.Perm.append_left _ h1).trans
          (by rw [← List.append_assoc, ← List.append_assoc]
              exact List.Perm.append_right _ List.perm_append_comm)
      · exact (List.Perm.append_left _ h2).trans
          (by rw [← List.append_assoc, ← List.append_assoc]
              exact List.Perm.append_right _ List.perm_append_comm)

theorem workersActive_set (ws : List Worker) (w : Nat) (old x : Worker)
    (h : ws[w]? = some old) :
    workersActive (ws.set w x) + old.active = workersActive ws + x.active := by
  induction ws generalizing w with
  | nil => simp at h
  | cons y ys ih =>
    cases w with
    | zero =>
      simp at h
      subst h
      simp [workersActive]
      omega
    | succ w =>
      simp at h
      have := ih w h
      simp only [workersActive, List.set_cons_succ]
      omega

theorem workerBody_eq (p : ScanPool) (w : Nat) (a : Addr) (d : FileData)
    (hd : p.heap a = some d) :
    p.workerBody w a = (p.visit a d).setWorker w
      (match readDir d.info with
        | none => Worker.idle
        | some _ => Worker.busy (handoff p.threshold a d) 0 []) := by
  unfold ScanPool.workerBody ScanPool.visit visitHeap visitBytes visitItems visitCount handoff
  simp only [hd]
  cases hr : readDir d.info with
  | none => rfl
  | some files =>
    simp only [workerExpand_eq, subdirs_expandHeap]
    split <;> rfl

theorem processDir_eq (p : ScanPool) (a : Addr) (d : FileData) (hd : p.heap a = some d) :
    p.processDir a = (p.visit a d,
      match readDir d.info with
        | none => none
        | some _ => some (handoff p.threshold a d)) := by
  unfold ScanPool.processDir ScanPool.visit visitHeap visitBytes visitItems visitCount handoff
  simp only [hd]
  cases hr : readDir d.info with
  | none => rfl
  | some files =>
    simp only [processDirExpand_eq_worker, workerExpand_eq, subdirs_expandHeap]
    split <;> rfl

theorem Inv.lookup {thr : Int} {root : FileData} {p : ScanPool} (hinv : Inv thr root p)
    {a : Addr} (ha : a ∈ p.frontier) :
    ∃ d, created thr root a = some d ∧ p.heap a = some d := by
  have hp := List.perm_cons_erase ha
  obtain ⟨d, hc, hh, _, _⟩ := (hinv.core.perm hp).head
  exact ⟨d, hc, hh⟩

theorem mem_frontier_of_worker {p : ScanPool} {w : Nat} {old : Worker} {a : Addr}
    (hw : p.workers[w]? = some old) (ha : a ∈ old.front) : a ∈ p.frontier := by
  unfold ScanPool.frontier
  apply List.mem_append_right
  exact (workersFront_set p.workers w old old hw).1.symm.subset (List.mem_append_left _ ha)

theorem step_of_worker {thr : Int} {root : FileData} {p p1 : ScanPool} {w : Nat}
    (hinv : Inv thr root p) (h : p.worker w = some p1) : Step thr root p w p1 := by
  unfold ScanPool.worker at h
  split at h
  · simp at h
  · cases hw : p.workers[w]? with
    | none => simp [hw] at h
    | some old =>
      rw [hw] at h
      cases old with
      | idle =>
        simp only at h
        cases ht : p.taskChan with
        | nil =>
          simp only [ht] at h
          split at h
          · rename_i hc
            simp only [Option.some.injEq] at h
            subst h
            exact Step.exit hw ht hc
          · simp at h
        | cons t rest =>
          simp only [ht, Option.some.injEq] at h
          subst h
          exact Step.dequeue t rest hw ht
      | exited => simp at h
      | got task =>
        simp only [Option.some.injEq] at h
        obtain ⟨d, hc, hh⟩ := hinv.lookup (mem_frontier_of_worker hw (a := task) (by simp [Worker.front]))
        rw [workerBody_eq p w task d hh, hinv.thr_eq] at h
        subst h
        exact Step.body task d hw hc
      | busy pending tries stack =>
        cases stack with
        | nil =>
          cases pending with
          | nil =>
            simp only [Option.some.injEq] at h
            subst h
            exact Step.finish tries hw
          | cons c rest =>
            simp only at h
            by_cases ht : tries < 3
            · rw [if_pos ht] at h
              by_cases hc : p.closed = true
              · rw [if_pos hc, Option.some.injEq] at h
                subst h
                exact Step.sendClosed c rest tries hw ht hc
              · rw [if_neg hc] at h
                have hc2 : p.closed = false := by simpa using hc
                by_cases hl : p.taskChan.length < p.concurrency * 4
                · rw [if_pos hl, Option.some.injEq] at h
                  subst h
                  exact Step.enqueue c rest tries hw ht hc2 hl
                · rw [if_neg hl, Option.some.injEq] at h
                  subst h
                  exact Step.retry c rest tries hw ht hc2 hl
            · simp only [ht, if_false] at h
              obtain ⟨d, hc, hh⟩ := hinv.lookup (mem_frontier_of_worker hw (a := c) (by simp [Worker.front]))
              rw [processDir_eq p c d hh, hinv.thr_eq] at h
              have : Step thr root p w _ := Step.inline c rest tries d hw ht hc
              cases hr : readDir d.info with
              | none =>
                simp only [hr, Option.some.injEq] at h this
                subst h
                exact this
              | some files =>
                simp only [hr, Option.some.injEq] at h this
                subst h
                exact this
        | cons frame stack =>
          cases frame with
          | nil =>
            simp only [Option.some.injEq] at h
            subst h
            exact Step.ret pending tries stack hw
          | cons c more =>
            simp only at h
            obtain ⟨d, hc, hh⟩ := hinv.lookup (mem_frontier_of_worker hw (a := c) (by simp [Worker.front]))
            rw [processDir_eq p c d hh, hinv.thr_eq] at h
            have : Step thr root p w _ := Step.descend pending tries c more stack d hw hc
            cases hr : readDir d.info with
            | none =>
              simp only [hr, Option.some.injEq] at h this
              subst h
              exact this
            | some files =>
              simp only [hr, Option.some.injEq] at h this
              subst h
              exact this

theorem dirAddrs_length (b : Addr) (n : Nat) (objs : List FileData) :
    (dirAddrs b n objs).length = objs.countP FileData.IsDir := by
  induction objs generalizing n with
  | nil => simp [dirAddrs]
  | cons d ds ih =>
    rw [dirAddrs, List.countP_cons]
    split
    · rename_i hd
      simp [ih, hd]
    · rename_i hd
      simp [ih, hd]

theorem childObjs_countP (thr : Int) (b : Addr) (files : List FileInfo) :
    (childObjs thr b files).countP FileData.IsDir = (kept thr files).countP FileInfo.IsDir := by
  unfold childObjs
  rw [List.countP_append, List.countP_map]
  have h1 : (FileData.IsDir ∘ mkChild b) = FileInfo.IsDir := rfl
  rw [h1]
  split
  · simp [virtualFile, FileData.IsDir, List.countP_cons]
  · simp

theorem dirCountAcc_wrap (ks : List FileInfo) (acc : Int) :
    wrap32 (dirCountAcc ks acc) = wrap32 (acc + ks.countP FileInfo.IsDir) := by
  induction ks generalizing acc with
  | nil => simp [dirCountAcc]
  | cons f fs ih =>
    rw [dirCountAcc, List.countP_cons]
    by_cases hf : f.IsDir = true
    · rw [if_pos hf, if_pos hf, ih, wrap32_add_left]
      congr 1
      push_cast
      ring
    · rw [if_neg hf, if_neg hf, ih]
      rfl

theorem handoff_length (thr : Int) (b : Addr) (d : FileData) (files : List FileInfo)
    (hr : readDir d.info = some files) (hpos : dirCountAcc (kept thr files) 0 > 0) :
    wrap32 ((handoff thr b d).length : Int) = wrap32 (dirCountAcc (kept thr files) 0) := by
  unfold handoff
  simp only [hr, hpos, if_true]
  rw [dirAddrs_length, childObjs_countP, dirCountAcc_wrap]
  simp

theorem visitCount_eq (thr : Int) (b : Addr) (d : FileData) (n : Nat) :
    visitCount thr d (wrap32 ((n + 1 : Nat) : Int)) =
      wrap32 (((n + (handoff thr b d).length +
        (match readDir d.info with
          | none => 0
          | some _ => 1) : Nat) : Int)) := by
  unfold visitCount
  cases hr : readDir d.info with
  | none =>
    have hl : (handoff thr b d).length = 0 := by simp [handoff, hr]
    simp only [hl]
    rw [wrap32_sub_left]
    congr 1
    push_cast
    ring
  | some files =>
    simp only
    by_cases hpos : dirCountAcc (kept thr files) 0 > 0
    · rw [if_pos hpos]
      have hl := handoff_length thr b d files hr hpos
      rw [wrap32_add_left, ← wrap32_add_right, ← hl, wrap32_add_right]
      have e : (((n + 1 : Nat) : Int) + ((handoff thr b d).length : Int)) =
          ((n + (handoff thr b d).length + 1 : Nat) : Int) := by omega
      rw [e]
    · rw [if_neg hpos]
      have hl : (handoff thr b d).length = 0 := by simp [handoff, hr, hpos]
      rw [hl]

theorem frontier_setWorker (q : ScanPool) (w : Nat) (old x : Worker)
    (hw : q.workers[w]? = some old) :
    q.frontier.Perm (old.front ++ (q.taskChan ++ workersFront (q.workers.eraseIdx w))) ∧
    (q.setWorker w x).frontier.Perm
      (x.front ++ (q.taskChan ++ workersFront (q.workers.eraseIdx w))) := by
  obtain ⟨h1, h2⟩ := workersFront_set q.workers w old x hw
  unfold ScanPool.frontier ScanPool.setWorker
  constructor
  · exact (List.Perm.append_left _ h1).trans (by
      rw [← List.append_assoc, ← List.append_assoc]
      exact List.Perm.append_right _ List.perm_append_comm)
  · exact (List.Perm.append_left _ h2).trans (by
      rw [← List.append_assoc, ← List.append_assoc]
      exact List.Perm.append_right _ List.perm_append_comm)

theorem Inv.move {thr : Int} {root : FileData} {p q : ScanPool} (hinv : Inv thr root p)
    (hh : q.heap = p.heap) (hv : q.visited = p.visited) (hf : p.frontier.Perm q.frontier)
    (hc : q.taskCount = wrap32 q.outstanding) (ht : q.threshold = p.threshold) :
    Inv thr root q where
  core := by
    rw [hh, hv]
    exact hinv.core.perm hf
  counter := hc
  thr_eq := ht.trans hinv.thr_eq

theorem Inv.visit_step {thr : Int} {root : FileData} (hroot : root.Parent = none)
    {p q : ScanPool} (hinv : Inv thr root p) {a : Addr} {F : List Addr} {d : FileData}
    (hperm : p.frontier.Perm (a :: F)) (hcr : created thr root a = some d)
    (hh : q.heap = visitHeap thr a d p.heap) (hv : q.visited = a :: p.visited)
    (hf : (handoff thr a d ++ F).Perm q.frontier)
    (hc : q.taskCount = wrap32 q.outstanding) (ht : q.threshold = thr) :
    Inv thr root q where
  core := by
    rw [hh, hv]
    exact ((hinv.core.perm hperm).visit hroot hcr).perm hf
  counter := hc
  thr_eq := ht

theorem outstanding_setWorker (p q : ScanPool) (w : Nat) (old x : Worker)
    (hw : p.workers[w]? = some old) (hq : q.workers = p.workers) :
    (q.setWorker w x).outstanding + old.front.length + old.active + p.taskChan.length =
      p.outstanding + x.front.length + x.active + q.taskChan.length := by
  have hwq : q.workers[w]? = some old := by rw [hq]; exact hw
  obtain ⟨h1, _⟩ := frontier_setWorker p w old x hw
  obtain ⟨_, h2⟩ := frontier_setWorker q w old x hwq
  have ha := workersActive_set p.workers w old x hw
  have l1 := h1.length_eq
  have l2 := h2.length_eq
  simp only [List.length_append, hq] at l1 l2
  unfold ScanPool.outstanding
  have : (q.setWorker w x).workers = p.workers.set w x := by
    simp [ScanPool.setWorker, hq]
  rw [this]
  omega

theorem Inv.set_worker {thr : Int} {root : FileData} {p q : ScanPool} {w : Nat}
    {old x : Worker} (hinv : Inv thr root p) (hw : p.workers[w]? = some old)
    (hq : q.workers = p.workers) (hh : q.heap = p.heap) (hv : q.visited = p.visited)
    (ht : q.threshold = p.threshold)
    (hperm : (old.front ++ p.taskChan).Perm (x.front ++ q.taskChan))
    (hc : ∀ n : Nat, n + old.active = p.outstanding + x.active → q.taskCount = wrap32 n) :
    Inv thr root (q.setWorker w x) := by
  have hwq : q.workers[w]? = some old := by rw [hq]; exact hw
  obtain ⟨h1, _⟩ := frontier_setWorker p w old x hw
  obtain ⟨_, h2⟩ := frontier_setWorker q w old x hwq
  have ho := outstanding_setWorker p q w old x hw hq
  have hl := hperm.length_eq
  simp only [List.length_append] at hl
  apply hinv.move (q := q.setWorker w x) hh hv
  · refine h1.trans (List.Perm.trans ?_ h2.symm)
    rw [hq, ← List.append_assoc, ← List.append_assoc]
    exact List.Perm.append_right _ hperm
  · exact hc _ (by omega)
  · exact ht

theorem Inv.visit_worker {thr : Int} {root : FileData} (hroot : root.Parent = none)
    {p : ScanPool} {w : Nat} {old x : Worker} {a : Addr} {d : FileData} {G : List Addr}
    (hinv : Inv thr root p) (hw : p.workers[w]? = some old)
    (hcr : created thr root a = some d)
    (hold : old.front.Perm (a :: G)) (hx : x.front.Perm (handoff thr a d ++ G))
    (hact : x.active = old.active +
      (match readDir d.info with
        | none => 0
        | some _ => 1)) :
    Inv thr root ((p.visit a d).setWorker w x) := by
  have hqw : (p.visit a d).workers = p.workers := rfl
  obtain ⟨h1, _⟩ := frontier_setWorker p w old x hw
  obtain ⟨_, h2⟩ := frontier_setWorker (p.visit a d) w old x hw
  have ho := outstanding_setWorker p (p.visit a d) w old x hw hqw
  have hfp : p.frontier.Perm (a :: (G ++ (p.taskChan ++ workersFront (p.workers.eraseIdx w)))) :=
    h1.trans (List.Perm.append_right _ hold)
  refine hinv.visit_step hroot hfp hcr ?_ rfl ?_ ?_ hinv.thr_eq
  · show visitHeap p.threshold a d p.heap = _
    rw [hinv.thr_eq]
  · refine List.Perm.trans ?_ h2.symm
    rw [← List.append_assoc]
    exact List.Perm.append_right _ hx.symm
  · show visitCount p.threshold d p.taskCount = _
    have l1 := hold.length_eq
    have l2 := hx.length_eq
    simp only [List.length_append, List.length_cons] at l1 l2
    have hpo : p.outstanding = (p.outstanding - 1) + 1 := by
      have := hfp.length_eq
      simp only [List.length_cons] at this
      unfold ScanPool.outstanding
      omega
    rw [hinv.counter, hinv.thr_eq, hpo, visitCount_eq thr a d]
    congr 2
    have e : (p.visit a d).taskChan = p.taskChan := rfl
    rw [e] at ho
    cases hr : readDir d.info with
    | none =>
      simp only [hr] at hact ⊢
      omega
    | some files =>
      simp only [hr] at hact ⊢
      omega

theorem Step.inv {thr : Int} {root : FileData} (hroot : root.Parent = none)
    {p p1 : ScanPool} {w : Nat} (hinv : Inv thr root p) (h : Step thr root p w p1) :
    Inv thr root p1 := by
  cases h with
  | dequeue task rest hw ht =>
    apply hinv.set_worker hw (q := { p with taskChan := rest }) rfl rfl rfl rfl
    · simp only [Worker.front, ht, List.nil_append]
      exact List.Perm.refl _
    · intro n hn
      simp only [Worker.active] at hn
      show p.taskCount = _
      rw [hinv.counter]
      congr 2
      omega
  | exit hw ht hc =>
    apply hinv.set_worker hw (q := p) rfl rfl rfl rfl
    · simp [Worker.front]
    · intro n hn
      simp only [Worker.active] at hn
      rw [hinv.counter]
      congr 2
      omega
  | body task d hw hcr =>
    apply hinv.visit_worker hroot hw hcr (G := [])
    · simp [Worker.front]
    · cases hr : readDir d.info with
      | none => simp [Worker.front, handoff, hr]
      | some files => simp [Worker.front]
    · cases hr : readDir d.info with
      | none => simp [Worker.active]
      | some files => simp [Worker.active]
  | finish tries hw =>
    apply hinv.set_worker hw
      (q := { p with taskCount := wrap32 (p.taskCount - 1),
                     closed := if wrap32 (p.taskCount - 1) = 0 then true else p.closed })
      rfl rfl rfl rfl
    · simp [Worker.front]
    · intro n hn
      simp only [Worker.active, List.length_nil] at hn
      show wrap32 (p.taskCount - 1) = _
      rw [hinv.counter, wrap32_sub_left]
      congr 1
      omega
  | sendClosed child rest tries hw ht hc =>
    exact hinv.move (q := { p with panicked := true }) rfl rfl (List.Perm.refl _)
      hinv.counter rfl
  | enqueue child rest tries hw ht hc hl =>
    apply hinv.set_worker hw (q := { p with taskChan := p.taskChan ++ [child] })
      rfl rfl rfl rfl
    · simp only [Worker.front, List.flatten_nil, List.append_nil]
      rw [List.cons_append]
      refine List.perm_middle.symm.trans ?_
      exact List.Perm.append_left _ (by
        have hsw : ([child] ++ p.taskChan).Perm (p.taskChan ++ [child]) :=
          List.perm_append_comm
        simpa using hsw)
    · intro n hn
      simp only [Worker.active] at hn
      show p.taskCount = _
      rw [hinv.counter]
      congr 2
      omega
  | retry child rest tries hw ht hc hl =>
    apply hinv.set_worker hw (q := p) rfl rfl rfl rfl
    · simp [Worker.front]
    · intro n hn
      simp only [Worker.active] at hn
      rw [hinv.counter]
      congr 2
      omega
  | inline child rest tries d hw ht hcr =>
    apply hinv.visit_worker hroot hw hcr (G := rest)
    · simp [Worker.front]
    · cases hr : readDir d.info with
      | none => simp [Worker.front, handoff, hr]
      | some files =>
        simp only [Worker.front, List.flatten_cons, List.flatten_nil, List.append_nil]
        exact List.perm_append_comm
    · cases hr : readDir d.info with
      | none => simp [Worker.active]
      | some files => simp [Worker.active]
  | descend pending tries child more stack d hw hcr =>
    apply hinv.visit_worker hroot hw hcr (G := pending ++ (more ++ stack.flatten))
    · simp only [Worker.front, List.flatten_cons, List.cons_append]
      exact List.perm_middle
    · cases hr : readDir d.info with
      | none => simp [Worker.front, handoff, hr]
      | some files =>
        simp only [Worker.front, List.flatten_cons, List.append_assoc]
        rw [← List.append_assoc, ← List.append_assoc (handoff thr child d)]
        exact List.Perm.append_right _ List.perm_append_comm
    · cases hr : readDir d.info with
      | none => simp [Worker.active]
      | some files =>
        simp [Worker.active]
        omega
  | ret pending tries stack hw =>
    apply hinv.set_worker hw (q := p.processDirReturn) rfl rfl rfl rfl
    · simp [Worker.front, ScanPool.processDirReturn]
    · intro n hn
      simp only [Worker.active, List.length_cons] at hn
      show wrap32 (p.taskCount - 1) = _
      rw [hinv.counter, wrap32_sub_left]
      congr 1
      omega

theorem workersFront_replicate_idle (n : Nat) :
    workersFront (List.replicate n Worker.idle) = [] := by
  induction n with
  | zero => rfl
  | succ n ih => simp [List.replicate_succ, workersFront, Worker.front, ih]

theorem workersActive_replicate_idle (n : Nat) :
    workersActive (List.replicate n Worker.idle) = 0 := by
  induction n with
  | zero => rfl
  | succ n ih => simp [List.replicate_succ, workersActive, Worker.active, ih]

theorem Inv.start (dir : String) (stat : Option FileInfo) (W : Nat) (thr : Int) :
    Inv thr (newRootFileData dir stat) (ScanDirConcurrent.start dir stat W thr) where
  core := by
    have hf : (ScanDirConcurrent.start dir stat W thr).frontier = [[]] := by
      simp [ScanDirConcurrent.start, ScanPool.frontier, ScanPool.AddTask, ScanPool.Start,
        NewScanPool, workersFront_replicate_idle]
    rw [hf]
    refine ⟨?_, ?_, ?_, ?_, ?_⟩
    · funext b
      show (Heap.empty.set [] (newRootFileData dir stat)) b = _
      unfold expected Heap.set Heap.empty
      by_cases hb : b = []
      · subst hb
        simp [created, descend, ScanDirConcurrent.start, ScanPool.AddTask, ScanPool.Start,
          NewScanPool]
      · cases created thr (newRootFileData dir stat) b <;>
          simp [hb, ScanDirConcurrent.start, ScanPool.AddTask, ScanPool.Start, NewScanPool]
    · intro v hv
      simp [ScanDirConcurrent.start, ScanPool.AddTask, ScanPool.Start, NewScanPool] at hv
    · intro a ha
      simp only [List.mem_singleton] at ha
      exact Or.inl ha
    · simp [ScanDirConcurrent.start, ScanPool.AddTask, ScanPool.Start, NewScanPool]
    · intro b hb
      rcases hb with hb | ⟨hb, _⟩
      · exact Or.inl (by simp [hb])
      · simp [ScanDirConcurrent.start, ScanPool.AddTask, ScanPool.Start, NewScanPool] at hb
  counter := by
    have : (ScanDirConcurrent.start dir stat W thr).outstanding = 1 := by
      simp [ScanDirConcurrent.start, ScanPool.outstanding, ScanPool.frontier,
        ScanPool.AddTask, ScanPool.Start, NewScanPool, workersFront_replicate_idle,
        workersActive_replicate_idle]
    rw [this]
    rfl
  thr_eq := rfl

theorem newRoot_parent (dir : String) (stat : Option FileInfo) :
    (newRootFileData dir stat).Parent = none := by
  cases stat <;> rfl

theorem Inv.run {thr : Int} {root : FileData} (hroot : root.Parent = none)
    (sched : List Nat) {p q : ScanPool} (hinv : Inv thr root p)
    (h : ScanPool.run sched p = some q) : Inv thr root q := by
  induction sched generalizing p with
  | nil =>
    simp only [ScanPool.run, Option.some.injEq] at h
    subst h
    exact hinv
  | cons w ws ih =>
    simp only [ScanPool.run] at h
    cases hw : p.worker w with
    | none => simp [hw] at h
    | some p1 =>
      simp only [hw] at h
      exact ih ((step_of_worker hinv hw).inv hroot hinv) h

theorem Inv.reach (dir : String) (stat : Option FileInfo) (W : Nat) (thr : Int)
    (sched : List Nat) (q : ScanPool)
    (h : ScanPool.run sched (ScanDirConcurrent.start dir stat W thr) = some q) :
    Inv thr (newRootFileData dir stat) q :=
  Inv.run (newRoot_parent dir stat) sched (Inv.start dir stat W thr) h

/-! ## Small-file grouping -/

theorem smallCountAcc_eq (thr : Int) (files : List FileInfo) (acc : Int) :
    smallCountAcc thr files acc =
      if (smallFiles thr files).length = 0 then acc
      else wrap32 (acc + (smallFiles thr files).length) := by
  induction files generalizing acc with
  | nil => simp [smallCountAcc, smallFiles]
  | cons f fs ih =>
    rw [smallCountAcc]
    by_cases hf : isSmall thr f = true
    · have e : smallFiles thr (f :: fs) = f :: smallFiles thr fs := by
        simp [smallFiles, List.filter_cons, hf]
      rw [if_pos hf, ih, e]
      simp only [List.length_cons, Nat.succ_ne_zero, if_false]
      split
      · rename_i h0
        simp [h0]
      · rw [wrap32_add_left]
        congr 1
        push_cast
        ring
    · have e : smallFiles thr (f :: fs) = smallFiles thr fs := by
        simp [smallFiles, List.filter_cons, hf]
      rw [if_neg hf, ih, e]

theorem smallSizeAcc_eq (thr : Int) (files : List FileInfo) (acc : Int) :
    smallSizeAcc thr files acc =
      if (smallFiles thr files).length = 0 then acc
      else wrap64 (acc + ((smallFiles thr files).map FileInfo.Size).sum) := by
  induction files generalizing acc with
  | nil => simp [smallSizeAcc, smallFiles]
  | cons f fs ih =>
    rw [smallSizeAcc]
    by_cases hf : isSmall thr f = true
    · have e : smallFiles thr (f :: fs) = f :: smallFiles thr fs := by
        simp [smallFiles, List.filter_cons, hf]
      rw [if_pos hf, ih, e]
      simp only [List.length_cons, Nat.succ_ne_zero, if_false, List.map_cons, List.sum_cons]
      split
      · rename_i h0
        have h1 : smallFiles thr fs = [] := List.length_eq_zero.mp h0
        simp [h1]
      · rw [wrap64_add_left]
        congr 1
        ring
    · have e : smallFiles thr (f :: fs) = smallFiles thr fs := by
        simp [smallFiles, List.filter_cons, hf]
      rw [if_neg hf, ih, e]

theorem map_allocList (task : Addr) (n : Nat) (objs : List FileData) (h : Heap) :
    (childAddrs task n objs.length).map (allocList task n objs h) = objs.map some := by
  induction objs generalizing n h with
  | nil => simp [childAddrs]
  | cons d ds ih =>
    rw [List.length_cons, childAddrs_cons, List.map_cons, List.map_cons, allocList, ih]
    congr 1
    rw [allocList_other]
    · simp [Heap.set]
    · intro k _
      simp
      omega

theorem kept_eq_filter (thr : Int) (files : List FileInfo) :
    kept thr files = files.filter fun f => f.IsDir || decide (thr ≤ f.Size) := by
  unfold kept
  apply List.filter_congr
  intro f _
  unfold isSmall
  cases f.IsDir
  · by_cases hlt : f.Size < thr
    · have : ¬ thr ≤ f.Size := by omega
      simp [hlt, this]
    · have : thr ≤ f.Size := by omega
      simp [hlt, this]
  · simp

/-- C3 (amended): the children given to `SetChildren`, by `worker` and by
`processDir` alike, are the objects made for the entries that are directories or
files at least as large as the threshold, in the order of the listing, followed by
one virtual file exactly when some file is below the threshold; the virtual file
has no children, the sum of the sizes of the files below the threshold as size
and their number as count.  This holds when fewer than 2^31 files are below the
threshold and the sum of their sizes is an `int64`. -/
theorem grouping_children (thr : Int) (task : Addr) (files : List FileInfo) (h : Heap)
    (ts ti : Int)
    (hcount : (files.filter fun f => !f.IsDir && decide (f.Size < thr)).length < 2147483648)
    (hsize : -9223372036854775808 ≤
        ((files.filter fun f => !f.IsDir && decide (f.Size < thr)).map FileInfo.Size).sum ∧
      ((files.filter fun f => !f.IsDir && decide (f.Size < thr)).map FileInfo.Size).sum
        < 9223372036854775808) :
    (workerGroup thr task files h ts ti).normalFiles.map
        (workerGroup thr task files h ts ti).heap =
      ((files.filter fun f => f.IsDir || decide (thr ≤ f.Size)).map fun f =>
          some (mkChild task f)) ++
        (if (files.filter fun f => !f.IsDir && decide (f.Size < thr)).isEmpty then []
         else [some (virtualFile task thr
            ((files.filter fun f => !f.IsDir && decide (f.Size < thr)).map FileInfo.Size).sum
            (files.filter fun f => !f.IsDir && decide (f.Size < thr)).length)]) ∧
    (virtualFile task thr
        ((files.filter fun f => !f.IsDir && decide (f.Size < thr)).map FileInfo.Size).sum
        (files.filter fun f => !f.IsDir && decide (f.Size < thr)).length).Children = [] ∧
    (virtualFile task thr
        ((files.filter fun f => !f.IsDir && decide (f.Size < thr)).map FileInfo.Size).sum
        (files.filter fun f => !f.IsDir && decide (f.Size < thr)).length).isVirtual = true ∧
    processDirGroup thr task files h ts ti = workerGroup thr task files h ts ti := by
  have hsm : (files.filter fun f => !f.IsDir && decide (f.Size < thr)) = smallFiles thr files :=
    rfl
  rw [hsm] at hcount hsize ⊢
  refine ⟨?_, rfl, rfl, processDirGroup_eq_worker thr task files h ts ti⟩
  rw [workerGroup_eq]
  simp only
  rw [map_allocList, ← kept_eq_filter]
  unfold childObjs
  rw [List.map_append, List.map_map]
  congr 1
  rw [smallCountAcc_eq, smallSizeAcc_eq]
  by_cases h0 : (smallFiles thr files).length = 0
  · have h1 : smallFiles thr files = [] := List.length_eq_zero.mp h0
    simp [h0, h1]
  · have hne : (smallFiles thr files).isEmpty = false := by
      cases hs : smallFiles thr files with
      | nil => simp [hs] at h0
      | cons _ _ => rfl
    have hpos : 0 < (smallFiles thr files).length := Nat.pos_of_ne_zero h0
    have e1 : wrap32 (0 + ((smallFiles thr files).length : Int)) = (smallFiles thr files).length := by
      rw [Int.zero_add]
      apply wrap32_of_range <;> omega
    have e2 : wrap64 (0 + ((smallFiles thr files).map FileInfo.Size).sum) =
        ((smallFiles thr files).map FileInfo.Size).sum := by
      rw [Int.zero_add]
      apply wrap64_of_range <;> omega
    simp only [h0, if_false, e1, e2, hne]
    have : ((smallFiles thr files).length : Int) > 0 := by omega
    simp [this]

theorem smallFiles_replicate (thr : Int) (n : Nat) (f : FileInfo) (hf : isSmall thr f = true) :
    smallFiles thr (List.replicate n f) = List.replicate n f := by
  unfold smallFiles
  rw [List.filter_eq_self]
  intro a ha
  rw [List.eq_of_mem_replicate ha]
  exact hf

theorem kept_replicate (thr : Int) (n : Nat) (f : FileInfo) (hf : isSmall thr f = true) :
    kept thr (List.replicate n f) = [] := by
  unfold kept
  rw [List.filter_eq_nil_iff]
  intro a ha
  rw [List.eq_of_mem_replicate ha]
  simp [hf]

/-- C3 (counterexample): a listing of 2^31 empty files with threshold 1 has files
below the threshold, and yet `SetChildren` is given no child at all: the `int32`
counter of small files has wrapped to a negative value. -/
theorem grouping_children_overflow :
    (∃ f ∈ List.replicate 2147483648 (FileInfo.file "f" 0),
        f.IsDir = false ∧ f.Size < 1) ∧
      (workerGroup 1 [] (List.replicate 2147483648 (FileInfo.file "f" 0))
        Heap.empty 0 0).normalFiles = [] := by
  have hs : isSmall 1 (FileInfo.file "f" 0) = true := by decide
  constructor
  · exact ⟨FileInfo.file "f" 0, List.mem_replicate.mpr ⟨by decide, rfl⟩, rfl, by decide⟩
  · rw [workerGroup_eq]
    simp only
    have hc : smallCountAcc 1 (List.replicate 2147483648 (FileInfo.file "f" 0)) 0
        = -2147483648 := by
      rw [smallCountAcc_eq, smallFiles_replicate 1 _ _ hs, List.length_replicate]
      decide
    have : (childObjs 1 [] (List.replicate 2147483648 (FileInfo.file "f" 0))) = [] := by
      unfold childObjs
      rw [kept_replicate 1 _ _ hs, hc]
      simp
    rw [this]
    rfl

theorem grouping_children_witness :
    (workerGroup 1048576 [] [FileInfo.file "a.txt" 2097152, FileInfo.file "b.txt" 524288,
        FileInfo.dir "sub" 4096 []] Heap.empty 0 0).normalFiles.map
      (workerGroup 1048576 [] [FileInfo.file "a.txt" 2097152, FileInfo.file "b.txt" 524288,
        FileInfo.dir "sub" 4096 []] Heap.empty 0 0).heap =
      [some (mkChild [] (FileInfo.file "a.txt" 2097152)),
       some (mkChild [] (FileInfo.dir "sub" 4096 [])),
       some (virtualFile [] 1048576 524288 1)] :=
  (grouping_children 1048576 [] [FileInfo.file "a.txt" 2097152, FileInfo.file "b.txt" 524288,
      FileInfo.dir "sub" 4096 []] Heap.empty 0 0 (by decide) (by decide)).1

/-! ## Labels -/

/-- C8 (code at the failing input): for a starting path whose stat succeeds, the
root entity made by `newRootFileData` keeps the stat result, so `Root()` is false
and `Label()` is the name followed by a slash instead of the sentinel; only a
root whose stat failed has `Root()` true and the label `/..`. -/
theorem root_label (dir : String) (info : FileInfo) :
    (newRootFileData dir (some info)).Root = false ∧
    (newRootFileData dir (some info)).Label = dir ++ "/" ∧
    (newRootFileData dir none).Root = true ∧
    (newRootFileData dir none).Label = "/.." := by
  refine ⟨rfl, ?_, rfl, ?_⟩
  · simp [FileData.Label, newRootFileData, FileData.Root]
  · simp [FileData.Label, newRootFileData, FileData.Root]

/-! ## An unreadable directory -/

theorem worker_out_of_range (p : ScanPool) (w : Nat) (h : p.workers.length ≤ w) :
    p.worker w = none := by
  unfold ScanPool.worker
  split
  · rfl
  · rw [List.getElem?_eq_none h]

/-- C4 (code at the failing input): with one worker and a root that cannot be
read, the worker takes the root, the failed read brings the counter to 0 without
closing the channel, and the worker waits on the open, empty channel: no worker
can move and `ScanDirConcurrent` has no result, whatever the schedule. -/
theorem unreadable_root_hangs (thr : Int) :
    (∃ p, ScanPool.run [0, 0]
        (ScanDirConcurrent.start "/secret" (some (FileInfo.noread "/secret" 4096)) 1 thr)
          = some p ∧
      p.taskCount = 0 ∧ p.closed = false ∧ p.taskChan = [] ∧
      p.workers = [Worker.idle] ∧ (∀ w, p.worker w = none)) ∧
    ∀ sched p, ScanPool.run sched
        (ScanDirConcurrent.start "/secret" (some (FileInfo.noread "/secret" 4096)) 1 thr)
          = some p →
      ScanDirConcurrent.result p = none := by
  -- the three states of the only execution
  obtain ⟨p1, h1⟩ : ∃ p1, (ScanDirConcurrent.start "/secret"
      (some (FileInfo.noread "/secret" 4096)) 1 thr).worker 0 = some p1 := ⟨_, rfl⟩
  have h1' := h1
  have hp1 : p1.workers = [Worker.got []] ∧ p1.taskChan = [] ∧ p1.closed = false ∧
      p1.panicked = false ∧ p1.taskCount = 1 ∧
      p1.heap [] = some (newRootFileData "/secret" (some (FileInfo.noread "/secret" 4096))) := by
    have : some p1 = some _ := h1.symm.trans rfl
    rw [Option.some.injEq] at this
    subst this
    exact ⟨rfl, rfl, rfl, rfl, rfl, rfl⟩
  obtain ⟨hw1, hc1, hcl1, hpn1, hct1, hh1⟩ := hp1
  have h2 : p1.worker 0 = some (p1.workerBody 0 []) := by
    unfold ScanPool.worker
    simp only [hpn1, hw1]
    rfl
  have hp2 : (p1.workerBody 0 []).workers = [Worker.idle] ∧
      (p1.workerBody 0 []).taskChan = [] ∧ (p1.workerBody 0 []).closed = false ∧
      (p1.workerBody 0 []).panicked = false ∧ (p1.workerBody 0 []).taskCount = 0 := by
    simp [ScanPool.workerBody, hh1, newRootFileData, readDir, ScanPool.setWorker, hw1, hc1,
      hcl1, hpn1, hct1]
    decide
  obtain ⟨hw2, hc2, hcl2, hpn2, hct2⟩ := hp2
  have hstuck : ∀ w, (p1.workerBody 0 []).worker w = none := by
    intro w
    cases w with
    | zero =>
      unfold ScanPool.worker
      simp [hpn2, hw2, hc2, hcl2]
    | succ w =>
      apply worker_out_of_range
      simp [hw2]
  constructor
  · refine ⟨_, ?_, hct2, hcl2, hc2, hw2, hstuck⟩
    simp only [ScanPool.run, h1, h2]
  · intro sched p hrun
    have hres : ∀ q : ScanPool, q.workers = [Worker.idle] ∨ q.workers = [Worker.got []] →
        ScanDirConcurrent.result q = none := by
      intro q hq
      unfold ScanDirConcurrent.result ScanPool.Wait
      rcases hq with hq | hq <;> simp [hq]
    cases sched with
    | nil =>
      simp only [ScanPool.run, Option.some.injEq] at hrun
      subst hrun
      exact hres _ (Or.inl rfl)
    | cons w ws =>
      cases w with
      | succ w =>
        rw [ScanPool.run, worker_out_of_range _ _ (by
          simp [ScanDirConcurrent.start, ScanPool.AddTask, ScanPool.Start, NewScanPool])] at hrun
        simp at hrun
      | zero =>
        rw [ScanPool.run, h1] at hrun
        simp only at hrun
        cases ws with
        | nil =>
          simp only [ScanPool.run, Option.some.injEq] at hrun
          subst hrun
          exact hres _ (Or.inr hw1)
        | cons w2 ws2 =>
          cases w2 with
          | succ w2 =>
            rw [ScanPool.run, worker_out_of_range _ _ (by simp [hw1])] at hrun
            simp at hrun
          | zero =>
            rw [ScanPool.run, h2] at hrun
            simp only at hrun
            cases ws2 with
            | nil =>
              simp only [ScanPool.run, Option.some.injEq] at hrun
              subst hrun
              exact hres _ (Or.inl hw2)
            | cons w3 ws3 =>
              rw [ScanPool.run, hstuck w3] at hrun
              simp at hrun

/-! ## The footprint of `Size()` and `Count()` -/

theorem isPrefixOf_self (a : Addr) : a.isPrefixOf a = true := by
  simp

theorem isPrefixOf_trans {a b c : Addr} (h1 : a.isPrefixOf b = true)
    (h2 : b.isPrefixOf c = true) : a.isPrefixOf c = true := by
  simp only [List.isPrefixOf_iff_prefix] at *
  exact h1.trans h2

theorem graft_self (h : Heap) (a : Addr) : h.graft a h = h := by
  funext b
  simp [Heap.graft]

theorem graft_graft_inner (g h : Heap) (a c : Addr) (hac : a.isPrefixOf c = true) :
    (g.graft a h).graft c h = g.graft a h := by
  funext b
  unfold Heap.graft
  by_cases hc : c.isPrefixOf b = true
  · simp [hc, isPrefixOf_trans hac hc]
  · simp [hc]

theorem graft_apply_in (g h : Heap) (a b : Addr) (hab : a.isPrefixOf b = true) :
    g.graft a h b = h b := by
  simp [Heap.graft, hab]

theorem graft_setSize (g h : Heap) (a : Addr) (v : Int) :
    (g.graft a h).setSize a v = g.graft a (h.setSize a v) := by
  funext b
  unfold Heap.setSize
  rw [graft_apply_in g h a a (isPrefixOf_self a)]
  cases h a with
  | none => rfl
  | some d =>
    simp only [Heap.set, Heap.graft]
    by_cases hb : b = a
    · subst hb
      simp
    · simp [hb]

theorem SameShape.refl (h : Heap) : SameShape h h := fun _ => rfl

theorem SameShape.trans {h1 h2 h3 : Heap} (a : SameShape h1 h2) (b : SameShape h2 h3) :
    SameShape h1 h3 := fun x => (b x).trans (a x)

theorem SameShape.setSize (h : Heap) (a : Addr) (v : Int) : SameShape h (h.setSize a v) := by
  intro b
  unfold Heap.setSize
  cases ha : h a with
  | none => rfl
  | some d =>
    simp only [Heap.set]
    by_cases hb : b = a
    · subst hb
      simp [ha, FileData.skel]
    · simp only [hb, if_false]

theorem SameShape.setCount (h : Heap) (a : Addr) (v : Int) : SameShape h (h.setCount a v) := by
  intro b
  unfold Heap.setCount
  cases ha : h a with
  | none => rfl
  | some d =>
    simp only [Heap.set]
    by_cases hb : b = a
    · subst hb
      simp [ha, FileData.skel]
    · simp only [hb, if_false]

theorem SameShape.fields {h h1 : Heap} (s : SameShape h h1) {b : Addr} {d1 : FileData}
    (hb : h1 b = some d1) : ∃ d, h b = some d ∧ d1.Children = d.Children ∧
      d1.isDir = d.isDir ∧ d1.isVirtual = d.isVirtual ∧ d1.info = d.info ∧
      d1.Parent = d.Parent ∧ d1.name = d.name := by
  have := s b
  rw [hb] at this
  cases e : h b with
  | none => simp [e] at this
  | some d =>
    simp only [e, Option.map_some', Option.some.injEq] at this
    have hp := congrArg FileData.Parent this
    have hn := congrArg FileData.name this
    have hi := congrArg FileData.isDir this
    have hc := congrArg FileData.Children this
    have hf := congrArg FileData.info this
    have hv := congrArg FileData.isVirtual this
    exact ⟨d, rfl, hc, hi, hv, hf, hp, hn⟩

theorem SameShape.symm {h h1 : Heap} (s : SameShape h h1) : SameShape h1 h :=
  fun b => (s b).symm

theorem Disc.reshape {h h1 : Heap} (hd : Disc h) (s : SameShape h h1) : Disc h1 := by
  intro x d1 hx c hc
  obtain ⟨d, hd0, hch, _⟩ := s.fields hx
  exact hd x d hd0 c (hch ▸ hc)

theorem sizeLoop_graft (fuel : Nat)
    (ih : ∀ h a v h1, Disc h → Size fuel h a = some (v, h1) →
      (∀ g : Heap, Size fuel (g.graft a h) a = some (v, g.graft a h1)) ∧ SameShape h h1)
    (a : Addr) (cs : List Addr) :
    ∀ (t : Int) (h : Heap) (v : Int) (h1 : Heap), Disc h →
      (∀ c ∈ cs, a.isPrefixOf c = true) →
      sizeLoop (Size fuel) cs t h = some (v, h1) →
      (∀ g : Heap, sizeLoop (Size fuel) cs t (g.graft a h) = some (v, g.graft a h1)) ∧
        SameShape h h1 := by
  induction cs with
  | nil =>
    intro t h v h1 _ _ hl
    simp only [sizeLoop, Option.some.injEq, Prod.mk.injEq] at hl
    obtain ⟨rfl, rfl⟩ := hl
    exact ⟨fun g => rfl, SameShape.refl h⟩
  | cons c cs ihc =>
    intro t h v h1 hd hpre hl
    have hac : a.isPrefixOf c = true := hpre c (List.mem_cons_self _ _)
    have hpre2 : ∀ x ∈ cs, a.isPrefixOf x = true := fun x hx => hpre x (List.mem_cons_of_mem _ hx)
    rw [sizeLoop] at hl
    cases hc : h c with
    | none => simp [hc] at hl
    | some child =>
      simp only [hc] at hl
      by_cases hs : child.size = -1
      · rw [if_pos hs] at hl
        cases hr : Size fuel h c with
        | none => simp [hr] at hl
        | some r =>
          obtain ⟨vc, h2⟩ := r
          simp only [hr] at hl
          obtain ⟨hg, hsh⟩ := ih h c vc h2 hd hr
          have hfr : h2 = h.graft c h2 := by
            have := hg h
            rw [graft_self, hr] at this
            simp only [Option.some.injEq, Prod.mk.injEq, true_and] at this
            exact this
          obtain ⟨hg2, hsh2⟩ := ihc _ h2 v h1 (hd.reshape hsh) hpre2 hl
          refine ⟨fun g => ?_, hsh.trans hsh2⟩
          rw [sizeLoop, graft_apply_in g h a c hac, hc]
          simp only [if_pos hs]
          have e1 := hg (g.graft a h)
          rw [graft_graft_inner g h a c hac] at e1
          rw [e1]
          simp only
          have e2 : (g.graft a h).graft c h2 = g.graft a h2 := by
            funext b
            unfold Heap.graft
            by_cases hcb : c.isPrefixOf b = true
            · simp [hcb, isPrefixOf_trans hac hcb]
            · simp only [hcb]
              by_cases hab : a.isPrefixOf b = true
              · simp only [hab, if_true]
                have := congrFun hfr b
                simp only [Heap.graft, hcb] at this
                exact this.symm
              · simp [hab]
          rw [e2]
          exact hg2 g
      · rw [if_neg hs] at hl
        obtain ⟨hg2, hsh2⟩ := ihc _ h v h1 hd hpre2 hl
        refine ⟨fun g => ?_, hsh2⟩
        rw [sizeLoop, graft_apply_in g h a c hac, hc]
        simp only [if_neg hs]
        exact hg2 g

theorem Size_graft (fuel : Nat) :
    ∀ h a v h1, Disc h → Size fuel h a = some (v, h1) →
      (∀ g : Heap, Size fuel (g.graft a h) a = some (v, g.graft a h1)) ∧ SameShape h h1 := by
  induction fuel with
  | zero =>
    intro h a v h1 _ hs
    simp [Size] at hs
  | succ fuel ih =>
    intro h a v h1 hd hs
    rw [Size] at hs
    cases ha : h a with
    | none => simp [ha] at hs
    | some d =>
      simp only [ha] at hs
      by_cases hsz : d.size ≠ -1
      · rw [if_pos hsz] at hs
        simp only [Option.some.injEq, Prod.mk.injEq] at hs
        obtain ⟨rfl, rfl⟩ := hs
        refine ⟨fun g => ?_, SameShape.refl h⟩
        rw [Size, graft_apply_in g h a a (isPrefixOf_self a), ha]
        simp only [if_pos hsz]
      · rw [if_neg hsz] at hs
        by_cases hdir : (!d.IsDir) = true
        · rw [if_pos hdir] at hs
          simp only [Option.some.injEq, Prod.mk.injEq] at hs
          obtain ⟨rfl, rfl⟩ := hs
          refine ⟨fun g => ?_, SameShape.setSize h a _⟩
          rw [Size, graft_apply_in g h a a (isPrefixOf_self a), ha]
          simp only [if_neg hsz, if_pos hdir, graft_setSize]
        · rw [if_neg hdir] at hs
          cases hl : sizeLoop (Size fuel) d.Children 0 h with
          | none => simp [hl] at hs
          | some r =>
            obtain ⟨total, h2⟩ := r
            simp only [hl, Option.some.injEq, Prod.mk.injEq] at hs
            obtain ⟨rfl, rfl⟩ := hs
            obtain ⟨hg, hsh⟩ := sizeLoop_graft fuel ih a d.Children 0 h total h2 hd
              (hd a d ha) hl
            refine ⟨fun g => ?_, hsh.trans (SameShape.setSize h2 a _)⟩
            rw [Size, graft_apply_in g h a a (isPrefixOf_self a), ha]
            simp only [if_neg hsz, if_neg hdir, hg g, graft_setSize]

theorem graft_setCount (g h : Heap) (a : Addr) (v : Int) :
    (g.graft a h).setCount a v = g.graft a (h.setCount a v) := by
  funext b
  unfold Heap.setCount
  rw [graft_apply_in g h a a (isPrefixOf_self a)]
  cases h a with
  | none => rfl
  | some d =>
    simp only [Heap.set, Heap.graft]
    by_cases hb : b = a
    · subst hb
      simp
    · simp [hb]

theorem countLoop_graft (fuel : Nat)
    (ih : ∀ h a v h1, Disc h → Count fuel h a = some (v, h1) →
      (∀ g : Heap, Count fuel (g.graft a h) a = some (v, g.graft a h1)) ∧ SameShape h h1)
    (a : Addr) (cs : List Addr) :
    ∀ (t : Int) (h : Heap) (v : Int) (h1 : Heap), Disc h →
      (∀ c ∈ cs, a.isPrefixOf c = true) →
      countLoop (Count fuel) cs t h = some (v, h1) →
      (∀ g : Heap, countLoop (Count fuel) cs t (g.graft a h) = some (v, g.graft a h1)) ∧
        SameShape h h1 := by
  induction cs with
  | nil =>
    intro t h v h1 _ _ hl
    simp only [countLoop, Option.some.injEq, Prod.mk.injEq] at hl
    obtain ⟨rfl, rfl⟩ := hl
    exact ⟨fun g => rfl, SameShape.refl h⟩
  | cons c cs ihc =>
    intro t h v h1 hd hpre hl
    have hac : a.isPrefixOf c = true := hpre c (List.mem_cons_self _ _)
    have hpre2 : ∀ x ∈ cs, a.isPrefixOf x = true := fun x hx => hpre x (List.mem_cons_of_mem _ hx)
    rw [countLoop] at hl
    cases hc : h c with
    | none => simp [hc] at hl
    | some child =>
      simp only [hc] at hl
      by_cases hv : child.isVirtual = true
      · rw [if_pos hv] at hl
        obtain ⟨hg2, hsh2⟩ := ihc _ h v h1 hd hpre2 hl
        refine ⟨fun g => ?_, hsh2⟩
        rw [countLoop, graft_apply_in g h a c hac, hc]
        simp only [if_pos hv]
        exact hg2 g
      · rw [if_neg hv] at hl
        by_cases hdir : child.IsDir = true
        · rw [if_pos hdir] at hl
          by_cases hs : child.count = -1
          · rw [if_pos hs] at hl
            cases hr : Count fuel h c with
            | none => simp [hr] at hl
            | some r =>
              obtain ⟨vc, h2⟩ := r
              simp only [hr] at hl
              obtain ⟨hg, hsh⟩ := ih h c vc h2 hd hr
              have hfr : h2 = h.graft c h2 := by
                have := hg h
                rw [graft_self, hr] at this
                simp only [Option.some.injEq, Prod.mk.injEq, true_and] at this
                exact this
              obtain ⟨hg2, hsh2⟩ := ihc _ h2 v h1 (hd.reshape hsh) hpre2 hl
              refine ⟨fun g => ?_, hsh.trans hsh2⟩
              rw [countLoop, graft_apply_in g h a c hac, hc]
              simp only [if_neg hv, if_pos hdir, if_pos hs]
              have e1 := hg (g.graft a h)
              rw [graft_graft_inner g h a c hac] at e1
              rw [e1]
              simp only
              have e2 : (g.graft a h).graft c h2 = g.graft a h2 := by
                funext b
                unfold Heap.graft
                by_cases hcb : c.isPrefixOf b = true
                · simp [hcb, isPrefixOf_trans hac hcb]
                · simp only [hcb]
                  by_cases hab : a.isPrefixOf b = true
                  · simp only [hab, if_true]
                    have := congrFun hfr b
                    simp only [Heap.graft, hcb] at this
                    exact this.symm
                  · simp [hab]
              rw [e2]
              exact hg2 g
          · rw [if_neg hs] at hl
            obtain ⟨hg2, hsh2⟩ := ihc _ h v h1 hd hpre2 hl
            refine ⟨fun g => ?_, hsh2⟩
            rw [countLoop, graft_apply_in g h a c hac, hc]
            simp only [if_neg hv, if_pos hdir, if_neg hs]
            exact hg2 g
        · rw [if_neg hdir] at hl
          obtain ⟨hg2, hsh2⟩ := ihc _ h v h1 hd hpre2 hl
          refine ⟨fun g => ?_, hsh2⟩
          rw [countLoop, graft_apply_in g h a c hac, hc]
          simp only [if_neg hv, if_neg hdir]
          exact hg2 g

theorem Count_graft (fuel : Nat) :
    ∀ h a v h1, Disc h → Count fuel h a = some (v, h1) →
      (∀ g : Heap, Count fuel (g.graft a h) a = some (v, g.graft a h1)) ∧ SameShape h h1 := by
  induction fuel with
  | zero =>
    intro h a v h1 _ hs
    simp [Count] at hs
  | succ fuel ih =>
    intro h a v h1 hd hs
    rw [Count] at hs
    cases ha : h a with
    | none => simp [ha] at hs
    | some d =>
      simp only [ha] at hs
      by_cases hsz : d.count ≠ -1
      · rw [if_pos hsz] at hs
        simp only [Option.some.injEq, Prod.mk.injEq] at hs
        obtain ⟨rfl, rfl⟩ := hs
        refine ⟨fun g => ?_, SameShape.refl h⟩
        rw [Count, graft_apply_in g h a a (isPrefixOf_self a), ha]
        simp only [if_pos hsz]
      · rw [if_neg hsz] at hs
        by_cases hv : d.isVirtual = true
        · rw [if_pos hv] at hs
          simp only [Option.some.injEq, Prod.mk.injEq] at hs
          obtain ⟨rfl, rfl⟩ := hs
          refine ⟨fun g => ?_, SameShape.refl h⟩
          rw [Count, graft_apply_in g h a a (isPrefixOf_self a), ha]
          simp only [if_neg hsz, if_pos hv]
        · rw [if_neg hv] at hs
          cases hl : countLoop (Count fuel) d.Children 0 h with
          | none => simp [hl] at hs
          | some r =>
            obtain ⟨total, h2⟩ := r
            simp only [hl, Option.some.injEq, Prod.mk.injEq] at hs
            obtain ⟨rfl, rfl⟩ := hs
            obtain ⟨hg, hsh⟩ := countLoop_graft fuel ih a d.Children 0 h total h2 hd
              (hd a d ha) hl
            refine ⟨fun g => ?_, hsh.trans (SameShape.setCount h2 a _)⟩
            rw [Count, graft_apply_in g h a a (isPrefixOf_self a), ha]
            simp only [if_neg hsz, if_neg hv, hg g, graft_setCount]

theorem sizeLoop_mono (rec1 rec2 : Heap → Addr → Option (Int × Heap))
    (hrec : ∀ h a r, rec1 h a = some r → rec2 h a = some r) (cs : List Addr) :
    ∀ t h r, sizeLoop rec1 cs t h = some r → sizeLoop rec2 cs t h = some r := by
  induction cs with
  | nil =>
    intro t h r hl
    simpa [sizeLoop] using hl
  | cons c cs ih =>
    intro t h r hl
    rw [sizeLoop] at hl ⊢
    cases hc : h c with
    | none => simp [hc] at hl
    | some child =>
      simp only [hc] at hl ⊢
      by_cases hs : child.size = -1
      · rw [if_pos hs] at hl ⊢
        cases hr : rec1 h c with
        | none => simp [hr] at hl
        | some r1 =>
          simp only [hr] at hl
          rw [hrec h c r1 hr]
          exact ih _ _ _ hl
      · rw [if_neg hs] at hl ⊢
        exact ih _ _ _ hl

theorem Size_mono_succ (fuel : Nat) :
    ∀ h a r, Size fuel h a = some r → Size (fuel + 1) h a = some r := by
  induction fuel with
  | zero =>
    intro h a r hs
    simp [Size] at hs
  | succ fuel ih =>
    intro h a r hs
    rw [Size] at hs ⊢
    cases ha : h a with
    | none => simp [ha] at hs
    | some d =>
      simp only [ha] at hs ⊢
      by_cases hsz : d.size ≠ -1
      · rw [if_pos hsz] at hs ⊢
        exact hs
      · rw [if_neg hsz] at hs ⊢
        by_cases hdir : (!d.IsDir) = true
        · rw [if_pos hdir] at hs ⊢
          exact hs
        · rw [if_neg hdir] at hs ⊢
          cases hl : sizeLoop (Size fuel) d.Children 0 h with
          | none => simp [hl] at hs
          | some r1 =>
            simp only [hl] at hs
            rw [sizeLoop_mono (Size fuel) (Size (fuel + 1)) ih d.Children 0 h r1 hl]
            exact hs

theorem Size_mono {fuel1 fuel2 : Nat} (hle : fuel1 ≤ fuel2) {h : Heap} {a : Addr}
    {r : Int × Heap} (hs : Size fuel1 h a = some r) : Size fuel2 h a = some r := by
  induction hle with
  | refl => exact hs
  | step _ ih => exact Size_mono_succ _ _ _ _ ih

theorem countLoop_mono (rec1 rec2 : Heap → Addr → Option (Int × Heap))
    (hrec : ∀ h a r, rec1 h a = some r → rec2 h a = some r) (cs : List Addr) :
    ∀ t h r, countLoop rec1 cs t h = some r → countLoop rec2 cs t h = some r := by
  induction cs with
  | nil =>
    intro t h r hl
    simpa [countLoop] using hl
  | cons c cs ih =>
    intro t h r hl
    rw [countLoop] at hl ⊢
    cases hc : h c with
    | none => simp [hc] at hl
    | some child =>
      simp only [hc] at hl ⊢
      by_cases hv : child.isVirtual = true
      · rw [if_pos hv] at hl ⊢
        exact ih _ _ _ hl
      · rw [if_neg hv] at hl ⊢
        by_cases hdir : child.IsDir = true
        · rw [if_pos hdir] at hl ⊢
          by_cases hs : child.count = -1
          · rw [if_pos hs] at hl ⊢
            cases hr : rec1 h c with
            | none => simp [hr] at hl
            | some r1 =>
              simp only [hr] at hl
              rw [hrec h c r1 hr]
              exact ih _ _ _ hl
          · rw [if_neg hs] at hl ⊢
            exact ih _ _ _ hl
        · rw [if_neg hdir] at hl ⊢
          exact ih _ _ _ hl

theorem Count_mono_succ (fuel : Nat) :
    ∀ h a r, Count fuel h a = some r → Count (fuel + 1) h a = some r := by
  induction fuel with
  | zero =>
    intro h a r hs
    simp [Count] at hs
  | succ fuel ih =>
    intro h a r hs
    rw [Count] at hs ⊢
    cases ha : h a with
    | none => simp [ha] at hs
    | some d =>
      simp only [ha] at hs ⊢
      by_cases hsz : d.count ≠ -1
      · rw [if_pos hsz] at hs ⊢
        exact hs
      · rw [if_neg hsz] at hs ⊢
        by_cases hv : d.isVirtual = true
        · rw [if_pos hv] at hs ⊢
          exact hs
        · rw [if_neg hv] at hs ⊢
          cases hl : countLoop (Count fuel) d.Children 0 h with
          | none => simp [hl] at hs
          | some r1 =>
            simp only [hl] at hs
            rw [countLoop_mono (Count fuel) (Count (fuel + 1)) ih d.Children 0 h r1 hl]
            exact hs

theorem Count_mono {fuel1 fuel2 : Nat} (hle : fuel1 ≤ fuel2) {h : Heap} {a : Addr}
    {r : Int × Heap} (hs : Count fuel1 h a = some r) : Count fuel2 h a = some r := by
  induction hle with
  | refl => exact hs
  | step _ ih => exact Count_mono_succ _ _ _ _ ih

theorem Ranked.rerank {h h1 : Heap} {ht : Addr → Nat} (hr : Ranked h ht)
    (s : SameShape h h1) : Ranked h1 ht := by
  intro a d1 ha c hc
  obtain ⟨d, hd0, hch, _⟩ := s.fields ha
  obtain ⟨h1c, h2c⟩ := hr a d hd0 c (hch ▸ hc)
  refine ⟨?_, h2c⟩
  have := s c
  cases e : h c with
  | none => simp [e] at h1c
  | some dc =>
    rw [e] at this
    cases e1 : h1 c with
    | none => simp [e1] at this
    | some _ => rfl

theorem sizeLoop_returns (fuel : Nat) (ht : Addr → Nat)
    (ih : ∀ h a, Disc h → Ranked h ht → (h a).isSome = true → ht a < fuel →
      ∃ r, Size fuel h a = some r) (cs : List Addr) :
    ∀ t h, Disc h → Ranked h ht → (∀ c ∈ cs, (h c).isSome = true ∧ ht c < fuel) →
      ∃ r, sizeLoop (Size fuel) cs t h = some r := by
  induction cs with
  | nil =>
    intro t h _ _ _
    exact ⟨_, rfl⟩
  | cons c cs ihc =>
    intro t h hd hr hcs
    obtain ⟨hc1, hc2⟩ := hcs c (List.mem_cons_self _ _)
    rw [sizeLoop]
    cases hc : h c with
    | none => simp [hc] at hc1
    | some child =>
      simp only
      by_cases hs : child.size = -1
      · rw [if_pos hs]
        obtain ⟨⟨vc, h2⟩, hr2⟩ := ih h c hd hr hc1 hc2
        rw [hr2]
        simp only
        have hsh := (Size_graft fuel h c vc h2 hd hr2).2
        apply ihc _ h2 (hd.reshape hsh) (hr.rerank hsh)
        intro x hx
        obtain ⟨hx1, hx2⟩ := hcs x (List.mem_cons_of_mem _ hx)
        refine ⟨?_, hx2⟩
        have := hsh x
        cases e : h x with
        | none => simp [e] at hx1
        | some dx =>
          rw [e] at this
          cases e1 : h2 x with
          | none => simp [e1] at this
          | some _ => rfl
      · rw [if_neg hs]
        exact ihc _ h hd hr (fun x hx => hcs x (List.mem_cons_of_mem _ hx))

theorem Size_returns (ht : Addr → Nat) (fuel : Nat) :
    ∀ h a, Disc h → Ranked h ht → (h a).isSome = true → ht a < fuel →
      ∃ r, Size fuel h a = some r := by
  induction fuel with
  | zero =>
    intro h a _ _ _ hlt
    omega
  | succ fuel ih =>
    intro h a hd hr ha hlt
    rw [Size]
    cases hda : h a with
    | none => simp [hda] at ha
    | some d =>
      simp only
      by_cases hsz : d.size ≠ -1
      · rw [if_pos hsz]
        exact ⟨_, rfl⟩
      · rw [if_neg hsz]
        by_cases hdir : (!d.IsDir) = true
        · rw [if_pos hdir]
          exact ⟨_, rfl⟩
        · rw [if_neg hdir]
          obtain ⟨r, hl⟩ := sizeLoop_returns fuel ht ih d.Children 0 h hd hr
            (fun c hc => ⟨(hr a d hda c hc).1, by have := (hr a d hda c hc).2; omega⟩)
          rw [hl]
          exact ⟨_, rfl⟩

theorem countLoop_returns (fuel : Nat) (ht : Addr → Nat)
    (ih : ∀ h a, Disc h → Ranked h ht → (h a).isSome = true → ht a < fuel →
      ∃ r, Count fuel h a = some r) (cs : List Addr) :
    ∀ t h, Disc h → Ranked h ht → (∀ c ∈ cs, (h c).isSome = true ∧ ht c < fuel) →
      ∃ r, countLoop (Count fuel) cs t h = some r := by
  induction cs with
  | nil =>
    intro t h _ _ _
    exact ⟨_, rfl⟩
  | cons c cs ihc =>
    intro t h hd hr hcs
    obtain ⟨hc1, hc2⟩ := hcs c (List.mem_cons_self _ _)
    have hrest : ∀ t, ∃ r, countLoop (Count fuel) cs t h = some r := fun t =>
      ihc t h hd hr (fun x hx => hcs x (List.mem_cons_of_mem _ hx))
    rw [countLoop]
    cases hc : h c with
    | none => simp [hc] at hc1
    | some child =>
      simp only
      by_cases hv : child.isVirtual = true
      · rw [if_pos hv]
        exact hrest _
      · rw [if_neg hv]
        by_cases hdir : child.IsDir = true
        · rw [if_pos hdir]
          by_cases hs : child.count = -1
          · rw [if_pos hs]
            obtain ⟨⟨vc, h2⟩, hr2⟩ := ih h c hd hr hc1 hc2
            rw [hr2]
            simp only
            have hsh := (Count_graft fuel h c vc h2 hd hr2).2
            apply ihc _ h2 (hd.reshape hsh) (hr.rerank hsh)
            intro x hx
            obtain ⟨hx1, hx2⟩ := hcs x (List.mem_cons_of_mem _ hx)
            refine ⟨?_, hx2⟩
            have := hsh x
            cases e : h x with
            | none => simp [e] at hx1
            | some dx =>
              rw [e] at this
              cases e1 : h2 x with
              | none => simp [e1] at this
              | some _ => rfl
          · rw [if_neg hs]
            exact hrest _
        · rw [if_neg hdir]
          exact hrest _

theorem Count_returns (ht : Addr → Nat) (fuel : Nat) :
    ∀ h a, Disc h → Ranked h ht → (h a).isSome = true → ht a < fuel →
      ∃ r, Count fuel h a = some r := by
  induction fuel with
  | zero =>
    intro h a _ _ _ hlt
    omega
  | succ fuel ih =>
    intro h a hd hr ha hlt
    rw [Count]
    cases hda : h a with
    | none => simp [hda] at ha
    | some d =>
      simp only
      by_cases hsz : d.count ≠ -1
      · rw [if_pos hsz]
        exact ⟨_, rfl⟩
      · rw [if_neg hsz]
        by_cases hv : d.isVirtual = true
        · rw [if_pos hv]
          exact ⟨_, rfl⟩
        · rw [if_neg hv]
          obtain ⟨r, hl⟩ := countLoop_returns fuel ht ih d.Children 0 h hd hr
            (fun c hc => ⟨(hr a d hda c hc).1, by have := (hr a d hda c hc).2; omega⟩)
          rw [hl]
          exact ⟨_, rfl⟩

theorem prefix_comparable {c x b : Addr} (h1 : c.isPrefixOf b = true)
    (h2 : x.isPrefixOf b = true) : c.isPrefixOf x = true ∨ x.isPrefixOf c = true := by
  simp only [List.isPrefixOf_iff_prefix] at *
  exact List.prefix_or_prefix_of_prefix h1 h2

theorem graft_eq_of_agree (hcur h : Heap) (c : Addr)
    (hag : ∀ b, c.isPrefixOf b = true → hcur b = h b) : hcur.graft c h = hcur := by
  funext b
  unfold Heap.graft
  by_cases hb : c.isPrefixOf b = true
  · simp [hb, hag b hb]
  · simp [hb]

theorem agree_after_graft (hcur h h2 : Heap) (c : Addr) (cs : List Addr)
    (hap : ∀ x ∈ cs, c.isPrefixOf x = false ∧ x.isPrefixOf c = false)
    (hag : ∀ x ∈ cs, ∀ b, x.isPrefixOf b = true → hcur b = h b) :
    ∀ x ∈ cs, ∀ b, x.isPrefixOf b = true → (hcur.graft c h2) b = h b := by
  intro x hx b hxb
  unfold Heap.graft
  by_cases hcb : c.isPrefixOf b = true
  · rcases prefix_comparable hcb hxb with h1 | h1
    · simp [(hap x hx).1] at h1
    · simp [(hap x hx).2] at h1
  · simp only [hcb]
    exact hag x hx b hxb

theorem sizeLoop_values (F : Nat) (h : Heap) (hd : Disc h) (cs : List Addr) :
    ∀ (vs : List Int) (t0 : Int) (hcur : Heap), Apart cs →
      List.Forall₂ (fun c v => SizeValue F h c = some v) cs vs →
      (∀ c ∈ cs, ∀ b, c.isPrefixOf b = true → hcur b = h b) →
      ∃ h1, sizeLoop (Size F) cs (wrap64 t0) hcur = some (wrap64 (t0 + vs.sum), h1) := by
  induction cs with
  | nil =>
    intro vs t0 hcur _ hvs _
    cases hvs
    exact ⟨hcur, by simp [sizeLoop]⟩
  | cons c cs ih =>
    intro vs t0 hcur hap hvs hag
    cases hvs with
    | cons hv hrest =>
      rename_i v vs1
      rw [Apart, List.pairwise_cons] at hap
      obtain ⟨hap1, hap2⟩ := hap
      have hagc := hag c (List.mem_cons_self _ _)
      have hag2 : ∀ x ∈ cs, ∀ b, x.isPrefixOf b = true → hcur b = h b :=
        fun x hx => hag x (List.mem_cons_of_mem _ hx)
      unfold SizeValue at hv
      cases hs : Size F h c with
      | none => simp [hs] at hv
      | some r =>
        obtain ⟨v1, h2⟩ := r
        simp only [hs, Option.map_some', Option.some.injEq] at hv
        subst hv
        rw [sizeLoop, hagc c (isPrefixOf_self c)]
        cases hc : h c with
        | none =>
          cases F with
          | zero => simp [Size] at hs
          | succ F => simp [Size, hc] at hs
        | some child =>
          simp only
          have hsum : wrap64 (t0 + (v1 :: vs1).sum) = wrap64 ((t0 + v1) + vs1.sum) := by
            rw [List.sum_cons, Int.add_assoc]
          by_cases hsz : child.size = -1
          · rw [if_pos hsz]
            have e := (Size_graft F h c v1 h2 hd hs).1 hcur
            rw [graft_eq_of_agree hcur h c hagc] at e
            rw [e]
            simp only
            rw [wrap64_add_left, hsum]
            exact ih vs1 (t0 + v1) _ hap2 hrest (agree_after_graft hcur h h2 c cs hap1 hag2)
          · rw [if_neg hsz]
            have hv1 : v1 = child.size := by
              cases F with
              | zero => simp [Size] at hs
              | succ F =>
                rw [Size] at hs
                simp only [hc] at hs
                rw [if_pos hsz] at hs
                simp only [Option.some.injEq, Prod.mk.injEq] at hs
                exact hs.1.symm
            rw [wrap64_add_left, hsum, ← hv1]
            exact ih vs1 (t0 + v1) hcur hap2 hrest hag2

theorem Size_dir_value (F : Nat) (h : Heap) (hd : Disc h) (a : Addr) (d : FileData)
    (ha : h a = some d) (hsz : d.size = -1) (hdir : d.IsDir = true)
    (hap : Apart d.Children) (vs : List Int)
    (hvs : List.Forall₂ (fun c v => SizeValue F h c = some v) d.Children vs) :
    SizeValue (F + 1) h a = some (wrap64 vs.sum) := by
  obtain ⟨h1, hl⟩ := sizeLoop_values F h hd d.Children vs 0 h hap hvs (fun _ _ _ _ => rfl)
  have e0 : wrap64 0 = 0 := by decide
  rw [e0, Int.zero_add] at hl
  unfold SizeValue
  rw [Size]
  simp only [ha]
  rw [if_neg (by simp [hsz]), if_neg (by simp [hdir]), hl]
  rfl

theorem countLoop_values (F : Nat) (h : Heap) (hd : Disc h) (cs : List Addr) :
    ∀ (vs : List Int) (t0 : Int) (hcur : Heap), Apart cs →
      List.Forall₂ (fun c v => countContribution F h c = some v) cs vs →
      (∀ c ∈ cs, ∀ b, c.isPrefixOf b = true → hcur b = h b) →
      ∃ h1, countLoop (Count F) cs (wrap64 t0) hcur = some (wrap64 (t0 + vs.sum), h1) := by
  induction cs with
  | nil =>
    intro vs t0 hcur _ hvs _
    cases hvs
    exact ⟨hcur, by simp [countLoop]⟩
  | cons c cs ih =>
    intro vs t0 hcur hap hvs hag
    cases hvs with
    | cons hv hrest =>
      rename_i v vs1
      rw [Apart, List.pairwise_cons] at hap
      obtain ⟨hap1, hap2⟩ := hap
      have hagc := hag c (List.mem_cons_self _ _)
      have hag2 : ∀ x ∈ cs, ∀ b, x.isPrefixOf b = true → hcur b = h b :=
        fun x hx => hag x (List.mem_cons_of_mem _ hx)
      have hsum : wrap64 (t0 + (v :: vs1).sum) = wrap64 ((t0 + v) + vs1.sum) := by
        rw [List.sum_cons, Int.add_assoc]
      unfold countContribution at hv
      rw [countLoop, hagc c (isPrefixOf_self c)]
      cases hc : h c with
      | none => simp [hc] at hv
      | some child =>
        simp only [hc] at hv ⊢
        by_cases hvir : child.isVirtual = true
        · rw [if_pos hvir] at hv ⊢
          simp only [Option.some.injEq] at hv
          rw [wrap64_add_left, hsum, ← hv]
          exact ih vs1 _ hcur hap2 hrest hag2
        · rw [if_neg hvir] at hv ⊢
          by_cases hdir : child.IsDir = true
          · rw [if_pos hdir] at hv ⊢
            unfold CountValue at hv
            cases hs : Count F h c with
            | none => simp [hs] at hv
            | some r =>
              obtain ⟨w, h2⟩ := r
              simp only [hs, Option.map_some', Option.some.injEq] at hv
              have hacc : ∀ t : Int, wrap64 (wrap64 (wrap64 t0 + 1) + w) = wrap64 (t0 + v) := by
                intro _
                rw [← hv]
                unfold wrap64
                omega
              by_cases hsz : child.count = -1
              · rw [if_pos hsz]
                have e := (Count_graft F h c w h2 hd hs).1 hcur
                rw [graft_eq_of_agree hcur h c hagc] at e
                rw [e]
                simp only
                rw [hacc 0, hsum]
                exact ih vs1 (t0 + v) _ hap2 hrest
                  (agree_after_graft hcur h h2 c cs hap1 hag2)
              · rw [if_neg hsz]
                have hw : w = child.count := by
                  cases F with
                  | zero => simp [Count] at hs
                  | succ F =>
                    rw [Count] at hs
                    simp only [hc] at hs
                    rw [if_pos hsz] at hs
                    simp only [Option.some.injEq, Prod.mk.injEq] at hs
                    exact hs.1.symm
                rw [← hw, hacc 0, hsum]
                exact ih vs1 (t0 + v) hcur hap2 hrest hag2
          · rw [if_neg hdir] at hv ⊢
            simp only [Option.some.injEq] at hv
            rw [wrap64_add_left, hsum, ← hv]
            exact ih vs1 _ hcur hap2 hrest hag2

theorem Count_dir_value (F : Nat) (h : Heap) (hd : Disc h) (a : Addr) (d : FileData)
    (ha : h a = some d) (hsz : d.count = -1) (hvir : d.isVirtual = false)
    (hap : Apart d.Children) (vs : List Int)
    (hvs : List.Forall₂ (fun c v => countContribution F h c = some v) d.Children vs) :
    CountValue (F + 1) h a = some (wrap64 vs.sum) := by
  obtain ⟨h1, hl⟩ := countLoop_values F h hd d.Children vs 0 h hap hvs (fun _ _ _ _ => rfl)
  have e0 : wrap64 0 = 0 := by decide
  rw [e0, Int.zero_add] at hl
  unfold CountValue
  rw [Count]
  simp only [ha]
  rw [if_neg (by simp [hsz]), if_neg (by simp [hvir]), hl]
  rfl

/-! ## The shape of the heap of a scan -/

theorem height_le_heightList (files : List FileInfo) (f : FileInfo) (hf : f ∈ files) :
    f.height ≤ heightList files := by
  induction files with
  | nil => simp at hf
  | cons e es ih =>
    rw [heightList]
    rcases List.mem_cons.mp hf with rfl | h
    · exact Nat.le_max_left _ _
    · exact Nat.le_trans (ih h) (Nat.le_max_right _ _)

theorem readDir_some {info : Option FileInfo} {files : List FileInfo}
    (h : readDir info = some files) : ∃ n s, info = some (FileInfo.dir n s files) := by
  cases info with
  | none => simp [readDir] at h
  | some i =>
    cases i with
    | file n s => simp [readDir] at h
    | dir n s es =>
      simp only [readDir, Option.some.injEq] at h
      subst h
      exact ⟨n, s, rfl⟩
    | noread n s => simp [readDir] at h

theorem childObjs_cases (thr : Int) (a : Addr) (files : List FileInfo) (k : Nat) (c : FileData)
    (h : (childObjs thr a files)[k]? = some c) :
    (∃ f, f ∈ files ∧ isSmall thr f = false ∧ c = mkChild a f) ∨
      (c = virtualFile a thr (smallSizeAcc thr files 0) (smallCountAcc thr files 0) ∧
        smallCountAcc thr files 0 > 0) := by
  have hm : c ∈ childObjs thr a files := List.getElem?_mem h
  simp only [childObjs, List.mem_append, List.mem_map] at hm
  rcases hm with ⟨f, hf, rfl⟩ | hm
  · left
    simp only [kept, List.mem_filter] at hf
    exact ⟨f, hf.1, by simpa using hf.2, rfl⟩
  · right
    split at hm
    · rename_i hpos
      simp at hm
      exact ⟨hm, hpos⟩
    · simp at hm

theorem childObjs_children (thr : Int) (a : Addr) (files : List FileInfo) (k : Nat)
    (c : FileData) (h : (childObjs thr a files)[k]? = some c) : c.Children = [] := by
  rcases childObjs_cases thr a files k c h with ⟨f, _, _, rfl⟩ | ⟨rfl, _⟩ <;> rfl

theorem childObjs_height (thr : Int) (a : Addr) (files : List FileInfo) (k : Nat)
    (c : FileData) (h : (childObjs thr a files)[k]? = some c) :
    objHeight c ≤ heightList files := by
  rcases childObjs_cases thr a files k c h with ⟨f, hf, _, rfl⟩ | ⟨rfl, _⟩
  · exact height_le_heightList files f hf
  · simp [objHeight, virtualFile]

theorem created_snoc_some {thr : Int} {root : FileData} {a : Addr} {k : Nat} {c : FileData}
    (h : created thr root (a ++ [k]) = some c) :
    ∃ d files, created thr root a = some d ∧ readDir d.info = some files ∧
      (childObjs thr a files)[k]? = some c := by
  rw [created_snoc] at h
  cases hc : created thr root a with
  | none => simp [hc] at h
  | some d =>
    simp only [hc, Option.bind] at h
    cases hr : readDir d.info with
    | none => simp [hr] at h
    | some files =>
      simp only [hr] at h
      exact ⟨d, files, rfl, hr, h⟩

theorem created_children (thr : Int) (root : FileData) (hroot : root.Children = [])
    (a : Addr) (d : FileData) (h : created thr root a = some d) : d.Children = [] := by
  rcases List.eq_nil_or_concat a with rfl | ⟨q, k, rfl⟩
  · simp only [created, descend, Option.some.injEq] at h
    subst h
    exact hroot
  · rw [List.concat_eq_append] at h
    obtain ⟨_, files, _, _, hk⟩ := created_snoc_some h
    exact childObjs_children thr q files k d hk

theorem expected_some {thr : Int} {root : FileData} {V : List Addr} {a : Addr} {d : FileData}
    (h : expected thr root V a = some d) :
    ∃ d0, created thr root a = some d0 ∧ (a = [] ∨ a.dropLast ∈ V) ∧
      d = if a ∈ V then expandedObj thr a d0 else d0 := by
  unfold expected at h
  cases hc : created thr root a with
  | none => simp [hc] at h
  | some d0 =>
    simp only [hc] at h
    by_cases hal : a = [] ∨ a.dropLast ∈ V
    · rw [if_pos hal] at h
      simp only [Option.some.injEq] at h
      exact ⟨d0, rfl, hal, h.symm⟩
    · rw [if_neg hal] at h
      simp at h

theorem mem_childAddrs {task : Addr} {n0 n : Nat} {c : Addr} (h : c ∈ childAddrs task n0 n) :
    ∃ k, n0 ≤ k ∧ k < n0 + n ∧ c = task ++ [k] := by
  simp only [childAddrs, List.mem_map, List.mem_range'_1] at h
  obtain ⟨k, ⟨h1, h2⟩, rfl⟩ := h
  exact ⟨k, h1, h2, rfl⟩

theorem expected_children {thr : Int} {root : FileData} (hroot : root.Children = [])
    {V : List Addr} {a : Addr} {d : FileData} (h : expected thr root V a = some d)
    {c : Addr} (hc : c ∈ d.Children) :
    ∃ d0 files k obj, created thr root a = some d0 ∧ readDir d0.info = some files ∧
      a ∈ V ∧ c = a ++ [k] ∧ (childObjs thr a files)[k]? = some obj ∧
      d.Children = childAddrs a 0 (childObjs thr a files).length := by
  obtain ⟨d0, hcr, _, hd⟩ := expected_some h
  by_cases hv : a ∈ V
  · rw [if_pos hv] at hd
    cases hr : readDir d0.info with
    | none =>
      rw [hd] at hc
      simp only [expandedObj, hr] at hc
      rw [created_children thr root hroot a d0 hcr] at hc
      simp at hc
    | some files =>
      rw [expandedObj_eq thr a d0 files hr] at hd
      rw [hd] at hc ⊢
      simp only at hc ⊢
      obtain ⟨k, _, hk, rfl⟩ := mem_childAddrs hc
      have hk2 : k < (childObjs thr a files).length := by omega
      exact ⟨d0, files, k, (childObjs thr a files)[k], hcr, hr, hv, rfl,
        List.getElem?_eq_getElem hk2, rfl⟩
  · rw [if_neg hv] at hd
    rw [hd, created_children thr root hroot a d0 hcr] at hc
    simp at hc

theorem expected_disc (thr : Int) (root : FileData) (hroot : root.Children = [])
    (V : List Addr) : Disc (expected thr root V) := by
  intro a d ha c hc
  obtain ⟨_, _, k, _, _, _, _, rfl, _, _⟩ := expected_children hroot ha hc
  simp

theorem expected_ranked (thr : Int) (root : FileData) (hroot : root.Children = [])
    (V : List Addr) : Ranked (expected thr root V) (addrHeight thr root) := by
  intro a d ha c hc
  obtain ⟨d0, files, k, obj, hcr, hr, hv, rfl, hk, _⟩ := expected_children hroot ha hc
  have hcc : created thr root (a ++ [k]) = some obj := by
    rw [created_snoc, hcr]
    simp only [Option.bind, hr]
    exact hk
  constructor
  · unfold expected
    simp [hcc, hv]
  · unfold addrHeight
    rw [hcc, hcr]
    simp only
    obtain ⟨n, s, hi⟩ := readDir_some hr
    have h1 := childObjs_height thr a files k obj hk
    have h2 : objHeight d0 = 1 + heightList files := by
      simp [objHeight, hi, FileInfo.height]
    omega

theorem childAddrs_apart (task : Addr) (n0 n : Nat) : Apart (childAddrs task n0 n) := by
  unfold Apart childAddrs
  rw [List.pairwise_map]
  have hnd : (List.range' n0 n).Nodup := List.nodup_range' n0 n
  refine List.Pairwise.imp ?_ hnd
  intro x y hxy
  have key : ∀ u w : Nat, u ≠ w → (task ++ [u]).isPrefixOf (task ++ [w]) = false := by
    intro u w huw
    cases hb : (task ++ [u]).isPrefixOf (task ++ [w]) with
    | false => rfl
    | true =>
      rw [List.isPrefixOf_iff_prefix] at hb
      have hl : (task ++ [u]).length = (task ++ [w]).length := by simp
      have := List.IsPrefix.eq_of_length hb hl
      have := List.append_cancel_left this
      simp at this
      exact absurd this huw
  exact ⟨key x y hxy, key y x (Ne.symm hxy)⟩

theorem expected_apart (thr : Int) (root : FileData) (hroot : root.Children = [])
    (V : List Addr) (a : Addr) (d : FileData) (ha : expected thr root V a = some d) :
    Apart d.Children := by
  cases hch : d.Children with
  | nil => exact List.Pairwise.nil
  | cons c cs =>
    obtain ⟨_, _, _, _, _, _, _, _, _, he⟩ :=
      expected_children hroot ha (c := c) (by rw [hch]; exact List.mem_cons_self _ _)
    rw [← hch, he]
    exact childAddrs_apart a 0 _

/-! ## `Count()` on the tree of a scan -/

theorem forall₂_of_forall_exists {α β : Type} (P : α → β → Prop) (xs : List α)
    (h : ∀ x ∈ xs, ∃ y, P x y) : ∃ ys, List.Forall₂ P xs ys := by
  induction xs with
  | nil => exact ⟨[], List.Forall₂.nil⟩
  | cons x xs ih =>
    obtain ⟨y, hy⟩ := h x (List.mem_cons_self _ _)
    obtain ⟨ys, hys⟩ := ih (fun z hz => h z (List.mem_cons_of_mem _ hz))
    exact ⟨y :: ys, List.Forall₂.cons hy hys⟩

theorem newRoot_children (dir : String) (stat : Option FileInfo) :
    (newRootFileData dir stat).Children = [] := by
  cases stat <;> rfl

theorem CountValue_mono {F1 F2 : Nat} (hle : F1 ≤ F2) {h : Heap} {a : Addr} {v : Int}
    (hv : CountValue F1 h a = some v) : CountValue F2 h a = some v := by
  unfold CountValue at hv ⊢
  cases hc : Count F1 h a with
  | none => simp [hc] at hv
  | some r =>
    rw [Count_mono hle hc]
    simpa [hc] using hv

theorem SizeValue_mono {F1 F2 : Nat} (hle : F1 ≤ F2) {h : Heap} {a : Addr} {v : Int}
    (hv : SizeValue F1 h a = some v) : SizeValue F2 h a = some v := by
  unfold SizeValue at hv ⊢
  cases hc : Size F1 h a with
  | none => simp [hc] at hv
  | some r =>
    rw [Size_mono hle hc]
    simpa [hc] using hv

theorem countContribution_mono {F1 F2 : Nat} (hle : F1 ≤ F2) {h : Heap} {c : Addr} {v : Int}
    (hv : countContribution F1 h c = some v) : countContribution F2 h c = some v := by
  unfold countContribution at hv ⊢
  cases hc : h c with
  | none => simp [hc] at hv
  | some child =>
    simp only [hc] at hv ⊢
    by_cases h1 : child.isVirtual = true
    · rw [if_pos h1] at hv ⊢
      exact hv
    · rw [if_neg h1] at hv ⊢
      by_cases h2 : child.IsDir = true
      · rw [if_pos h2] at hv ⊢
        cases hcv : CountValue F1 h c with
        | none => simp [hcv] at hv
        | some w =>
          rw [CountValue_mono hle hcv]
          simpa [hcv] using hv
      · rw [if_neg h2] at hv ⊢
        exact hv

theorem countContribution_exists (ht : Addr → Nat) (F : Nat) (h : Heap) (hd : Disc h)
    (hr : Ranked h ht) (c : Addr) (hc : (h c).isSome = true) (hlt : ht c < F) :
    ∃ v, countContribution F h c = some v := by
  unfold countContribution
  cases hcc : h c with
  | none => simp [hcc] at hc
  | some child =>
    simp only
    by_cases h1 : child.isVirtual = true
    · rw [if_pos h1]
      exact ⟨_, rfl⟩
    · rw [if_neg h1]
      by_cases h2 : child.IsDir = true
      · rw [if_pos h2]
        obtain ⟨r, hr2⟩ := Count_returns ht F h c hd hr hc hlt
        unfold CountValue
        rw [hr2]
        exact ⟨_, rfl⟩
      · rw [if_neg h2]
        exact ⟨_, rfl⟩

theorem Count_children_value (ht : Addr → Nat) (h : Heap) (hd : Disc h) (hr : Ranked h ht)
    (a : Addr) (d : FileData) (ha : h a = some d) (hvir : d.isVirtual = false)
    (hcount : d.count = -1 ∨ (d.count = 0 ∧ d.Children = [])) (hap : Apart d.Children)
    (F : Nat) (hF : ht a + 2 ≤ F) :
    ∃ vs, List.Forall₂ (fun c v => countContribution F h c = some v) d.Children vs ∧
      CountValue F h a = some (wrap64 vs.sum) := by
  obtain ⟨F1, rfl⟩ : ∃ F1, F = F1 + 1 := ⟨F - 1, by omega⟩
  obtain ⟨vs, hvs⟩ := forall₂_of_forall_exists
    (fun c v => countContribution F1 h c = some v) d.Children
    (fun c hc => countContribution_exists ht F1 h hd hr c (hr a d ha c hc).1
      (by have := (hr a d ha c hc).2; omega))
  refine ⟨vs, ?_, ?_⟩
  · exact List.Forall₂.imp (fun _ _ hv => countContribution_mono (Nat.le_succ F1) hv) hvs
  · rcases hcount with hc1 | ⟨hc0, hch⟩
    · exact Count_dir_value F1 h hd a d ha hc1 hvir hap vs hvs
    · rw [hch] at hvs
      cases hvs
      unfold CountValue
      rw [Count]
      simp only [ha]
      rw [if_pos (by rw [hc0]; decide)]
      simp [hc0]
      decide

theorem expected_node_cases {thr : Int} {root : FileData} {V : List Addr} {a : Addr}
    {d : FileData} (h : expected thr root V a = some d) :
    ∃ d0, created thr root a = some d0 ∧ d.isVirtual = d0.isVirtual ∧ d.isDir = d0.isDir ∧
      d.info = d0.info ∧
      ((d = d0) ∨ (a ∈ V ∧ d.count = -1 ∧ d.size = -1 ∧
        ∃ files, readDir d0.info = some files ∧
          d.Children = childAddrs a 0 (childObjs thr a files).length)) := by
  obtain ⟨d0, hcr, _, hd⟩ := expected_some h
  refine ⟨d0, hcr, ?_⟩
  by_cases hv : a ∈ V
  · rw [if_pos hv] at hd
    cases hr : readDir d0.info with
    | none =>
      have : d = d0 := by rw [hd]; simp [expandedObj, hr]
      subst this
      exact ⟨rfl, rfl, rfl, Or.inl rfl⟩
    | some files =>
      rw [expandedObj_eq thr a d0 files hr] at hd
      subst hd
      exact ⟨rfl, rfl, rfl, Or.inr ⟨hv, rfl, rfl, files, rfl, rfl⟩⟩
  · rw [if_neg hv] at hd
    subst hd
    exact ⟨rfl, rfl, rfl, Or.inl rfl⟩

theorem created_fields (thr : Int) (dir : String) (stat : Option FileInfo) (a : Addr)
    (d0 : FileData) (h : created thr (newRootFileData dir stat) a = some d0) :
    d0.Children = [] ∧
      ((a = [] ∧ d0 = newRootFileData dir stat) ∨
       (∃ q k f, a = q ++ [k] ∧ d0 = mkChild q f) ∨
       (∃ q k s n, a = q ++ [k] ∧ d0 = virtualFile q thr s n ∧ n > 0)) := by
  refine ⟨created_children thr _ (newRoot_children dir stat) a d0 h, ?_⟩
  rcases List.eq_nil_or_concat a with rfl | ⟨q, k, rfl⟩
  · simp only [created, descend, Option.some.injEq] at h
    exact Or.inl ⟨rfl, h.symm⟩
  · rw [List.concat_eq_append] at h ⊢
    obtain ⟨_, files, _, _, hk⟩ := created_snoc_some h
    rcases childObjs_cases thr q files k d0 hk with ⟨f, _, _, rfl⟩ | ⟨rfl, hpos⟩
    · exact Or.inr (Or.inl ⟨q, k, f, rfl, rfl⟩)
    · exact Or.inr (Or.inr ⟨q, k, _, _, rfl, rfl, hpos⟩)

theorem exampleScan_run :
    ScanPool.run [0, 0, 0, 0, 0, 0, 0, 0] exampleStart = some exampleScan := by
  rfl

/-- C1 (amended): in every state of a scan, for every entity and every large
enough recursion depth: `Count()` of a virtual entity is its pre-set count;
`Count()` of a regular file is 0; `Count()` of a directory is the sum, in `int`
arithmetic, of what its children add, which is the count of a virtual child, one
more than `Count()` of a child directory and one for a child file. -/
theorem count_scanned (dir : String) (stat : Option FileInfo) (W : Nat) (thr : Int)
    (sched : List Nat) (p : ScanPool) (a : Addr) (d : FileData)
    (hrun : ScanPool.run sched (ScanDirConcurrent.start dir stat W thr) = some p)
    (ha : p.heap a = some d) :
    ∃ N, ∀ F, N ≤ F →
      (d.isVirtual = true → CountValue F p.heap a = some d.count) ∧
      (d.isVirtual = false → d.IsDir = false → CountValue F p.heap a = some 0) ∧
      (d.isVirtual = false → d.IsDir = true →
        ∃ vs, List.Forall₂ (fun c v => countContribution F p.heap c = some v) d.Children vs ∧
          CountValue F p.heap a = some (wrap64 vs.sum)) := by
  have hinv := Inv.reach dir stat W thr sched p hrun
  have hheap := hinv.core.heap_eq
  have hrc := newRoot_children dir stat
  have hdisc : Disc p.heap := by rw [hheap]; exact expected_disc thr _ hrc _
  have hrank : Ranked p.heap (addrHeight thr (newRootFileData dir stat)) := by
    rw [hheap]; exact expected_ranked thr _ hrc _
  have hap : Apart d.Children := by
    rw [hheap] at ha
    exact expected_apart thr _ hrc _ a d ha
  have ha2 := ha
  rw [hheap] at ha2
  obtain ⟨d0, hcr, hvir, hdir, _, hcase⟩ := expected_node_cases ha2
  obtain ⟨hch0, hkind⟩ := created_fields thr dir stat a d0 hcr
  -- the cached count of a real entity is unknown, or 0 on the root before its expansion
  have hcount : d.isVirtual = false → d.count = -1 ∨ (d.count = 0 ∧ d.Children = []) := by
    intro hv
    rcases hcase with rfl | ⟨_, hc, _⟩
    · rcases hkind with ⟨_, rfl⟩ | ⟨q, k, f, _, rfl⟩ | ⟨q, k, s, n, _, rfl, _⟩
      · right
        cases stat <;> exact ⟨rfl, rfl⟩
      · exact Or.inl rfl
      · simp [virtualFile] at hv
    · exact Or.inl hc
  refine ⟨addrHeight thr (newRootFileData dir stat) a + 2, fun F hF => ⟨?_, ?_, ?_⟩⟩
  · intro hv
    obtain ⟨F1, rfl⟩ : ∃ F1, F = F1 + 1 := ⟨F - 1, by omega⟩
    unfold CountValue
    rw [Count]
    simp only [ha]
    by_cases hc : d.count ≠ -1
    · rw [if_pos hc]
      rfl
    · rw [if_neg hc, if_pos hv]
      rfl
  · intro hv hnd
    obtain ⟨vs, hvs, hval⟩ := Count_children_value _ p.heap hdisc hrank a d ha hv
      (hcount hv) hap F hF
    -- a file has no children
    have hnil : d.Children = [] := by
      rcases hcase with rfl | ⟨_, _, _, files, hr, _⟩
      · exact hch0
      · obtain ⟨n, s, hi⟩ := readDir_some hr
        have hnd2 : d0.isDir = false := by
          rw [← hdir]
          exact hnd
        rcases hkind with ⟨_, rfl⟩ | ⟨q, k, f, _, rfl⟩ | ⟨q, k, s1, n1, _, rfl, _⟩
        · cases stat <;> simp [newRootFileData] at hnd2
        · simp only [mkChild, Option.some.injEq] at hi hnd2
          rw [hi] at hnd2
          simp [FileInfo.IsDir] at hnd2
        · simp [virtualFile] at hi
    rw [hnil] at hvs
    cases hvs
    simpa using hval
  · intro hv _
    exact Count_children_value _ p.heap hdisc hrank a d ha hv (hcount hv) hap F hF

/-- C1 (counterexample): after the scan of the example of the specification, with
threshold 1 MB, `Count()` is 0 on `a.txt`, 1 on `sub` and 4 on the root `/data`,
where the claim has 1, 2 and 5. -/
theorem count_example :
    ScanPool.run [0, 0, 0, 0, 0, 0, 0, 0]
        (ScanDirConcurrent.start "/data" (some exampleTree) 1 1048576) = some exampleScan ∧
      ScanDirConcurrent.result exampleScan = some ([[0], [1], [2]], false) ∧
      (exampleScan.heap [0]).map FileData.Label = some "a.txt" ∧
      (exampleScan.heap [1]).map FileData.Label = some "sub/" ∧
      (exampleScan.heap [2]).map FileData.Label = some "<Files smaller than 1MB>" ∧
      CountValue 3 exampleScan.heap [0] = some 0 ∧
      CountValue 3 exampleScan.heap [1] = some 1 ∧
      CountValue 3 exampleScan.heap [2] = some 1 ∧
      CountValue 3 exampleScan.heap [] = some 4 := by
  refine ⟨rfl, ?_, ?_, ?_, ?_, ?_, ?_, ?_, ?_⟩ <;> decide

theorem count_scanned_witness :
    ∃ N, ∀ F, N ≤ F →
      (false = true → CountValue F exampleScan.heap [] = some (-1)) ∧
      (false = false → true = false → CountValue F exampleScan.heap [] = some 0) ∧
      (false = false → true = true →
        ∃ vs, List.Forall₂ (fun c v => countContribution F exampleScan.heap c = some v)
            [[0], [1], [2]] vs ∧
          CountValue F exampleScan.heap [] = some (wrap64 vs.sum)) :=
  count_scanned "/data" (some exampleTree) 1 1048576 [0, 0, 0, 0, 0, 0, 0, 0] exampleScan []
    { Parent := none, name := "/data", isDir := true, size := -1,
      Children := [[0], [1], [2]], count := -1, info := some exampleTree,
      isVirtual := false }
    exampleScan_run (by rfl)

/-! ## `Size()` on the tree of a scan -/

theorem lockedScan_run :
    ScanPool.run [0, 0, 0, 0, 0, 0, 0, 0, 0, 0, 0]
      (ScanDirConcurrent.start "/data" (some lockedTree) 1 1048576) = some lockedScan := by
  rfl

theorem sizeValue_exists (ht : Addr → Nat) (F : Nat) (h : Heap) (hd : Disc h)
    (hr : Ranked h ht) (c : Addr) (hc : (h c).isSome = true) (hlt : ht c < F) :
    ∃ v, SizeValue F h c = some v := by
  obtain ⟨r, hr2⟩ := Size_returns ht F h c hd hr hc hlt
  unfold SizeValue
  rw [hr2]
  exact ⟨_, rfl⟩

theorem Size_children_value (ht : Addr → Nat) (h : Heap) (hd : Disc h) (hr : Ranked h ht)
    (a : Addr) (d : FileData) (ha : h a = some d) (hdir : d.IsDir = true)
    (hsize : d.size = -1) (hap : Apart d.Children) (F : Nat) (hF : ht a + 2 ≤ F) :
    ∃ vs, List.Forall₂ (fun c v => SizeValue F h c = some v) d.Children vs ∧
      SizeValue F h a = some (wrap64 vs.sum) := by
  obtain ⟨F1, rfl⟩ : ∃ F1, F = F1 + 1 := ⟨F - 1, by omega⟩
  obtain ⟨vs, hvs⟩ := forall₂_of_forall_exists
    (fun c v => SizeValue F1 h c = some v) d.Children
    (fun c hc => sizeValue_exists ht F1 h hd hr c (hr a d ha c hc).1
      (by have := (hr a d ha c hc).2; omega))
  refine ⟨vs, ?_, Size_dir_value F1 h hd a d ha hsize hdir hap vs hvs⟩
  exact List.Forall₂.imp (fun _ _ hv => SizeValue_mono (Nat.le_succ F1) hv) hvs

/-- C2 (amended): in every state of a scan, for every directory entity `D` and
every large enough recursion depth: if the listing of `D` has been read, `Size(D)`
is the sum, in `int64` arithmetic, of `Size(c)` over the children `c` of `D`, and
it is 0 when the listing is empty; if the listing of `D` has not been read,
because the read failed or has not been done, `D` has no children, its cached
size is the size of its own stat result (0 for a root whose stat failed), and
`Size(D)` is that size. -/
theorem size_scanned (dir : String) (stat : Option FileInfo) (W : Nat) (thr : Int)
    (sched : List Nat) (p : ScanPool) (a : Addr) (d : FileData)
    (hrun : ScanPool.run sched (ScanDirConcurrent.start dir stat W thr) = some p)
    (ha : p.heap a = some d) (hdir : d.IsDir = true) :
    ∃ N, ∀ F, N ≤ F →
      (∀ files, readDir d.info = some files → a ∈ p.visited →
        (∃ vs, List.Forall₂ (fun c v => SizeValue F p.heap c = some v) d.Children vs ∧
          SizeValue F p.heap a = some (wrap64 vs.sum)) ∧
        (files = [] → d.Children = [] ∧ SizeValue F p.heap a = some 0)) ∧
      ((readDir d.info = none ∨ a ∉ p.visited) →
        d.Children = [] ∧
        d.size = (match d.info with
          | some i => i.Size
          | none => 0) ∧
        (d.size ≠ -1 → SizeValue F p.heap a = some d.size)) := by
  have hinv := Inv.reach dir stat W thr sched p hrun
  have hheap := hinv.core.heap_eq
  have hrc := newRoot_children dir stat
  have hdisc : Disc p.heap := by rw [hheap]; exact expected_disc thr _ hrc _
  have hrank : Ranked p.heap (addrHeight thr (newRootFileData dir stat)) := by
    rw [hheap]; exact expected_ranked thr _ hrc _
  have hap : Apart d.Children := by
    rw [hheap] at ha
    exact expected_apart thr _ hrc _ a d ha
  have ha2 := ha
  rw [hheap] at ha2
  obtain ⟨d0, hcr, hal, hd⟩ := expected_some ha2
  obtain ⟨hch0, hkind⟩ := created_fields thr dir stat a d0 hcr
  refine ⟨addrHeight thr (newRootFileData dir stat) a + 2, fun F hF => ⟨?_, ?_⟩⟩
  · intro files hr hv
    rw [if_pos hv] at hd
    have hinfo : d.info = d0.info := by
      rw [hd]
      unfold expandedObj
      cases readDir d0.info <;> rfl
    rw [hinfo] at hr
    rw [expandedObj_eq thr a d0 files hr] at hd
    have hsz : d.size = -1 := by rw [hd]
    obtain ⟨vs, hvs, hval⟩ := Size_children_value _ p.heap hdisc hrank a d ha hdir hsz hap F hF
    refine ⟨⟨vs, hvs, hval⟩, ?_⟩
    intro hnil
    have hnil2 : d.Children = [] := by
      rw [hd, hnil]
      simp [childObjs, kept, smallCountAcc, childAddrs]
    refine ⟨hnil2, ?_⟩
    rw [hnil2] at hvs
    cases hvs
    simpa using hval
  · intro hcase
    have hd0 : d = d0 := by
      by_cases hv : a ∈ p.visited
      · rw [if_pos hv] at hd
        rcases hcase with hr | hnv
        · have hinfo : d.info = d0.info := by
            rw [hd]
            unfold expandedObj
            cases readDir d0.info <;> rfl
          rw [hinfo] at hr
          rw [hd]
          simp [expandedObj, hr]
        · exact absurd hv hnv
      · rw [if_neg hv] at hd
        exact hd
    subst hd0
    refine ⟨hch0, ?_, ?_⟩
    · rcases hkind with ⟨_, rfl⟩ | ⟨q, k, f, _, rfl⟩ | ⟨q, k, s, n, _, rfl, _⟩
      · cases stat <;> rfl
      · rfl
      · simp [virtualFile, FileData.IsDir] at hdir
    · intro hne
      obtain ⟨F1, rfl⟩ : ∃ F1, F = F1 + 1 := ⟨F - 1, by omega⟩
      unfold SizeValue
      rw [Size]
      simp only [ha]
      rw [if_pos hne]
      rfl

/-- C2 (counterexample): the scan of `lockedTree` ends and returns the two children
of the root; the directory `locked`, whose read failed, has no children, and its
`Size()` is 4096, the size of its own stat result, not 0. -/
theorem size_locked_example :
    ScanPool.run [0, 0, 0, 0, 0, 0, 0, 0, 0, 0, 0]
        (ScanDirConcurrent.start "/data" (some lockedTree) 1 1048576) = some lockedScan ∧
      ScanDirConcurrent.result lockedScan = some ([[0], [1]], false) ∧
      (lockedScan.heap [0]).map FileData.Label = some "locked/" ∧
      (lockedScan.heap [0]).map FileData.Children = some [] ∧
      SizeValue 3 lockedScan.heap [0] = some 4096 ∧
      SizeValue 3 lockedScan.heap [] = some 4096 := by
  refine ⟨rfl, ?_, ?_, ?_, ?_, ?_⟩ <;> decide

theorem size_scanned_witness :
    ∃ N, ∀ F, N ≤ F →
      (∀ files, readDir (some exampleTree) = some files → [] ∈ exampleScan.visited →
        (∃ vs, List.Forall₂ (fun c v => SizeValue F exampleScan.heap c = some v)
            [[0], [1], [2]] vs ∧
          SizeValue F exampleScan.heap [] = some (wrap64 vs.sum)) ∧
        (files = [] → [[0], [1], [2]] = ([] : List Addr) ∧
          SizeValue F exampleScan.heap [] = some 0)) ∧
      ((readDir (some exampleTree) = none ∨ [] ∉ exampleScan.visited) →
        [[0], [1], [2]] = ([] : List Addr) ∧
        (-1 : Int) = exampleTree.Size ∧
        ((-1 : Int) ≠ -1 → SizeValue F exampleScan.heap [] = some (-1))) :=
  size_scanned "/data" (some exampleTree) 1 1048576 [0, 0, 0, 0, 0, 0, 0, 0] exampleScan []
    { Parent := none, name := "/data", isDir := true, size := -1,
      Children := [[0], [1], [2]], count := -1, info := some exampleTree,
      isVirtual := false }
    exampleScan_run (by rfl) rfl

/-! ## `SetChildren` -/

theorem Heap.set_same (h : Heap) (a : Addr) (d : FileData) : (h.set a d) a = some d := by
  simp [Heap.set]

theorem Heap.set_other (h : Heap) (a b : Addr) (d : FileData) (hb : b ≠ a) :
    (h.set a d) b = h b := by
  simp [Heap.set, hb]

theorem SetChildren_apply (h : Heap) (a : Addr) (cs : List Addr) (d : FileData)
    (ha : h a = some d) (m : Addr) :
    SetChildren h a cs m =
      if m = a then some { d with Children := cs, size := -1, count := -1 }
      else if d.Parent = some m then
        (h m).map fun pd => { pd with size := -1, count := -1 }
      else h m := by
  unfold SetChildren
  simp only [ha]
  generalize hd1 : ({ d with Children := cs, size := -1, count := -1 } : FileData) = d1
  have hsz : ({ d1 with size := -1, count := -1 } : FileData) = d1 := by
    rw [← hd1]
  cases hp : d.Parent with
  | none =>
    simp only
    by_cases hm : m = a
    · rw [if_pos hm, hm, Heap.set_same]
    · rw [if_neg hm, Heap.set_other _ _ _ _ hm, if_neg (by simp)]
  | some q =>
    simp only
    cases hq1 : (h.set a d1) q with
    | none =>
      simp only
      have hqa : q ≠ a := by
        intro e
        rw [e, Heap.set_same] at hq1
        simp at hq1
      rw [Heap.set_other _ _ _ _ hqa] at hq1
      by_cases hm : m = a
      · rw [if_pos hm, hm, Heap.set_same]
      · rw [if_neg hm, Heap.set_other _ _ _ _ hm]
        by_cases hqm : q = m
        · rw [if_pos (by rw [hqm]), ← hqm, hq1]
          rfl
        · rw [if_neg (by simpa using hqm)]
    | some pd =>
      simp only
      by_cases hm : m = a
      · rw [if_pos hm, hm]
        by_cases hqa : q = a
        · rw [hqa, Heap.set_same] at hq1 ⊢
          simp only [Option.some.injEq] at hq1
          rw [← hq1, hsz]
        · rw [Heap.set_other _ _ _ _ (fun e => hqa e.symm), Heap.set_same]
      · rw [if_neg hm]
        by_cases hqm : q = m
        · rw [if_pos (by rw [hqm]), ← hqm, Heap.set_same]
          rw [← hqm] at hm
          rw [Heap.set_other _ _ _ _ hm] at hq1
          rw [hq1]
          rfl
        · rw [if_neg (by simpa using hqm),
            Heap.set_other _ _ _ _ (fun e => hqm e.symm), Heap.set_other _ _ _ _ hm]

theorem SetChildren_isSome (h : Heap) (a : Addr) (cs : List Addr) (m : Addr) :
    (SetChildren h a cs m).isSome = (h m).isSome := by
  have := SetChildren_isDir h a cs m
  cases e1 : SetChildren h a cs m <;> cases e2 : h m <;> simp_all

theorem SetChildren_children (h : Heap) (a : Addr) (cs : List Addr) (d : FileData)
    (ha : h a = some d) (m : Addr) (dm : FileData) (hm : SetChildren h a cs m = some dm) :
    (m = a ∧ dm.Children = cs) ∨ (m ≠ a ∧ ∃ d0, h m = some d0 ∧ dm.Children = d0.Children) := by
  rw [SetChildren_apply h a cs d ha m] at hm
  by_cases hma : m = a
  · rw [if_pos hma] at hm
    simp only [Option.some.injEq] at hm
    exact Or.inl ⟨hma, by rw [← hm]⟩
  · rw [if_neg hma] at hm
    right
    refine ⟨hma, ?_⟩
    by_cases hp : d.Parent = some m
    · rw [if_pos hp] at hm
      cases e : h m with
      | none => simp [e] at hm
      | some d0 =>
        simp only [e, Option.map_some', Option.some.injEq] at hm
        exact ⟨d0, rfl, by rw [← hm]⟩
    · rw [if_neg hp] at hm
      exact ⟨dm, hm, rfl⟩

theorem SetChildren_disc (h : Heap) (a : Addr) (cs : List Addr) (d : FileData)
    (ha : h a = some d) (hd : Disc h) (hcs : ∀ c ∈ cs, a.isPrefixOf c = true) :
    Disc (SetChildren h a cs) := by
  intro m dm hm c hc
  rcases SetChildren_children h a cs d ha m dm hm with ⟨rfl, h1⟩ | ⟨_, d0, h0, h1⟩
  · exact hcs c (h1 ▸ hc)
  · exact hd m d0 h0 c (h1 ▸ hc)

theorem SetChildren_ranked (h : Heap) (a : Addr) (cs : List Addr) (d : FileData)
    (ha : h a = some d) (ht : Addr → Nat) (hr : Ranked h ht)
    (hcs : ∀ c ∈ cs, (h c).isSome = true ∧ ht c < ht a) :
    Ranked (SetChildren h a cs) ht := by
  intro m dm hm c hc
  rw [SetChildren_isSome]
  rcases SetChildren_children h a cs d ha m dm hm with ⟨rfl, h1⟩ | ⟨_, d0, h0, h1⟩
  · exact hcs c (h1 ▸ hc)
  · exact hr m d0 h0 c (h1 ▸ hc)

/-- C6 (amended): for every object `N` and child list `cs`, after
`SetChildren(N, cs)` the children of `N` are `cs` and its cached size and count are
unknown; the cached size and count of the parent of `N`, if any, are unknown and
its other fields unchanged; every other object is unchanged.  When `N` is a
directory the next `Size()` of `N` runs the loop over `cs`, and when `N` is not
virtual the next `Count()` of `N` does; on a tree-shaped heap, for `N` a real
directory and every large enough recursion depth, they return the sum of the
sizes of `cs` and the sum of what the members of `cs` add to a count. -/
theorem setChildren_single_hop (h : Heap) (N : Addr) (cs : List Addr) (d : FileData)
    (ht : Addr → Nat) (hN : h N = some d) :
    SetChildren h N cs N = some { d with Children := cs, size := -1, count := -1 } ∧
    (∀ P pd, d.Parent = some P → P ≠ N → h P = some pd →
      SetChildren h N cs P = some { pd with size := -1, count := -1 }) ∧
    (∀ m, m ≠ N → d.Parent ≠ some m → SetChildren h N cs m = h m) ∧
    (d.IsDir = true → ∀ F, Size (F + 1) (SetChildren h N cs) N =
      (sizeLoop (Size F) cs 0 (SetChildren h N cs)).map
        fun r => (r.1, r.2.setSize N r.1)) ∧
    (d.isVirtual = false → ∀ F, Count (F + 1) (SetChildren h N cs) N =
      (countLoop (Count F) cs 0 (SetChildren h N cs)).map
        fun r => (r.1, r.2.setCount N (wrap32 r.1))) ∧
    (d.IsDir = true → d.isVirtual = false → Disc h → Ranked h ht → Apart cs →
      (∀ c ∈ cs, N.isPrefixOf c = true ∧ (h c).isSome = true ∧ ht c < ht N) →
      ∃ N0, ∀ F, N0 ≤ F →
        (∃ vs, List.Forall₂ (fun c v => SizeValue F (SetChildren h N cs) c = some v) cs vs ∧
          SizeValue F (SetChildren h N cs) N = some (wrap64 vs.sum)) ∧
        (∃ ws, List.Forall₂
            (fun c w => countContribution F (SetChildren h N cs) c = some w) cs ws ∧
          CountValue F (SetChildren h N cs) N = some (wrap64 ws.sum))) := by
  have hself : SetChildren h N cs N =
      some { d with Children := cs, size := -1, count := -1 } := by
    rw [SetChildren_apply h N cs d hN N, if_pos rfl]
  refine ⟨hself, ?_, ?_, ?_, ?_, ?_⟩
  · intro P pd hp hne hP
    rw [SetChildren_apply h N cs d hN P, if_neg hne, if_pos hp, hP]
    rfl
  · intro m hm hp
    rw [SetChildren_apply h N cs d hN m, if_neg hm, if_neg hp]
  · intro hdir F
    rw [Size]
    simp only [hself]
    rw [if_neg (by simp), if_neg (by simpa [FileData.IsDir] using hdir)]
    cases sizeLoop (Size F) cs 0 (SetChildren h N cs) <;> rfl
  · intro hvir F
    rw [Count]
    simp only [hself]
    rw [if_neg (by simp), if_neg (by simp [hvir])]
    cases countLoop (Count F) cs 0 (SetChildren h N cs) <;> rfl
  · intro hdir hvir hd hr hap hcs
    have hd2 := SetChildren_disc h N cs d hN hd (fun c hc => (hcs c hc).1)
    have hr2 := SetChildren_ranked h N cs d hN ht hr (fun c hc => (hcs c hc).2)
    refine ⟨ht N + 2, fun F hF => ⟨?_, ?_⟩⟩
    · exact Size_children_value ht _ hd2 hr2 N _ hself hdir rfl hap F hF
    · exact Count_children_value ht _ hd2 hr2 N _ hself hvir (Or.inl rfl) hap F hF

/-- C6 (counterexample): `SetChildren` on the file at `[0]` with the child list
`[[0, 0]]` sets its children and resets its cached size, but the next `Size()` of
the file is 7, the size of its own stat result, where the only member of the
child list has size 5; and on a virtual entity the next `Count()` is -1. -/
theorem setChildren_on_file :
    (SetChildren fileHeap [0] [[0, 0]] [0]).map FileData.Children = some [[0, 0]] ∧
    (SetChildren fileHeap [0] [[0, 0]] [0]).map FileData.size = some (-1) ∧
    SizeValue 3 (SetChildren fileHeap [0] [[0, 0]]) [0, 0] = some 5 ∧
    SizeValue 3 (SetChildren fileHeap [0] [[0, 0]]) [0] = some 7 ∧
    CountValue 3 (SetChildren (Heap.empty.set [0] (virtualFile [] 1 0 3)) [0] []) [0]
      = some (-1) := by
  refine ⟨?_, ?_, ?_, ?_, ?_⟩ <;> decide

theorem setChildren_single_hop_witness :
    SetChildren exampleScan.heap [1] [[1, 0]] [1] =
      some { mkChild [] (FileInfo.dir "sub" 4096 [FileInfo.file "c.txt" 10485760]) with
        Children := [[1, 0]], size := -1, count := -1 } ∧
    (∀ P pd, (some [] : Option Addr) = some P → P ≠ [1] → exampleScan.heap P = some pd →
      SetChildren exampleScan.heap [1] [[1, 0]] P = some { pd with size := -1, count := -1 }) :=
  let t := setChildren_single_hop exampleScan.heap [1] [[1, 0]]
    { mkChild [] (FileInfo.dir "sub" 4096 [FileInfo.file "c.txt" 10485760]) with
      Children := [[1, 0]], size := -1, count := -1 }
    (fun _ => 0) (by rfl)
  ⟨t.1, t.2.1⟩

/-! ## Deletion from the result page -/

theorem addrDirs_pos (thr : Int) (root : FileData) (a : Addr) : 1 ≤ addrDirs thr root a := by
  unfold addrDirs
  cases created thr root a with
  | none => exact Nat.le_refl _
  | some d => exact Nat.le_add_right 1 _

theorem length_le_sum_addrDirs (thr : Int) (root : FileData) (l : List Addr) :
    l.length ≤ (l.map (addrDirs thr root)).sum := by
  induction l with
  | nil => simp
  | cons a l ih =>
    have := addrDirs_pos thr root a
    simp only [List.length_cons, List.map_cons, List.sum_cons]
    omega

theorem outstanding_le_load (thr : Int) (root : FileData) (p : ScanPool) :
    p.outstanding ≤ p.load thr root := by
  unfold ScanPool.outstanding ScanPool.load
  have := length_le_sum_addrDirs thr root p.frontier
  omega

theorem load_setWorker (thr : Int) (root : FileData) (p q : ScanPool) (w : Nat)
    (old x : Worker) (hw : p.workers[w]? = some old) (hq : q.workers = p.workers) :
    (q.setWorker w x).load thr root + (old.front.map (addrDirs thr root)).sum + old.active +
        (p.taskChan.map (addrDirs thr root)).sum =
      p.load thr root + (x.front.map (addrDirs thr root)).sum + x.active +
        (q.taskChan.map (addrDirs thr root)).sum := by
  have hwq : q.workers[w]? = some old := by rw [hq]; exact hw
  obtain ⟨h1, _⟩ := frontier_setWorker p w old x hw
  obtain ⟨_, h2⟩ := frontier_setWorker q w old x hwq
  have ha := workersActive_set p.workers w old x hw
  have l1 := (h1.map (addrDirs thr root)).sum_eq
  have l2 := (h2.map (addrDirs thr root)).sum_eq
  simp only [List.map_append, List.sum_append, hq] at l1 l2
  unfold ScanPool.load
  have : (q.setWorker w x).workers = p.workers.set w x := by
    simp [ScanPool.setWorker, hq]
  rw [this]
  omega

theorem sum_dirAddrs (g : Addr → Nat) (b : Addr) (n : Nat) (objs : List FileData)
    (h : ∀ k o, objs[k]? = some o → g (b ++ [n + k]) = objDirs o) :
    ((dirAddrs b n objs).map g).sum = dirsOf objs := by
  induction objs generalizing n with
  | nil => simp [dirAddrs, dirsOf]
  | cons o os ih =>
    have h0 := h 0 o (by simp)
    have ht : ∀ k o1, os[k]? = some o1 → g (b ++ [n + 1 + k]) = objDirs o1 := by
      intro k o1 hk
      have := h (k + 1) o1 (by simpa using hk)
      rw [← this]
      congr 3
      omega
    rw [dirAddrs, dirsOf]
    by_cases hd : o.IsDir = true
    · rw [if_pos hd, if_pos hd, List.map_cons, List.sum_cons, ih (n + 1) ht]
      simp only [Nat.add_zero] at h0
      rw [h0]
    · rw [if_neg hd, if_neg hd, ih (n + 1) ht]
      omega

theorem dirsOf_append (xs ys : List FileData) : dirsOf (xs ++ ys) = dirsOf xs + dirsOf ys := by
  induction xs with
  | nil => simp [dirsOf]
  | cons x xs ih =>
    show dirsOf (x :: (xs ++ ys)) = dirsOf (x :: xs) + dirsOf ys
    simp only [dirsOf, ih]
    omega

theorem objDirs_mkChild (a : Addr) (f : FileInfo) (hf : f.IsDir = true) :
    objDirs (mkChild a f) = f.dirs := by
  cases f with
  | file n s => simp [FileInfo.IsDir] at hf
  | dir n s es => simp [objDirs, mkChild, readDir, FileInfo.dirs]
  | noread n s => simp [objDirs, mkChild, readDir, FileInfo.dirs]

theorem dirs_of_file (f : FileInfo) (hf : f.IsDir = false) : f.dirs = 0 := by
  cases f with
  | file n s => rfl
  | dir n s es => simp [FileInfo.IsDir] at hf
  | noread n s => simp [FileInfo.IsDir] at hf

theorem dirsOf_kept (thr : Int) (a : Addr) (files : List FileInfo) :
    dirsOf ((kept thr files).map (mkChild a)) = dirsList files := by
  induction files with
  | nil => simp [kept, dirsOf, dirsList]
  | cons f fs ih =>
    unfold kept at ih ⊢
    rw [List.filter_cons, dirsList]
    by_cases hs : isSmall thr f = true
    · have hfd : f.IsDir = false := by
        unfold isSmall at hs
        cases hd : f.IsDir
        · rfl
        · simp [hd] at hs
      simp only [hs, Bool.not_true, Bool.false_eq_true, if_false]
      rw [ih, dirs_of_file f hfd]
      omega
    · have hs2 : isSmall thr f = false := by simpa using hs
      simp only [hs2, Bool.not_false, if_true, List.map_cons, dirsOf]
      rw [ih]
      by_cases hd : f.IsDir = true
      · have e : (mkChild a f).IsDir = true := hd
        rw [if_pos e, objDirs_mkChild a f hd]
      · have hd2 : f.IsDir = false := by simpa using hd
        have e : ¬ (mkChild a f).IsDir = true := hd
        rw [if_neg e, dirs_of_file f hd2]

theorem dirsOf_childObjs (thr : Int) (a : Addr) (files : List FileInfo) :
    dirsOf (childObjs thr a files) = dirsList files := by
  unfold childObjs
  rw [dirsOf_append, dirsOf_kept]
  split
  · simp [dirsOf, virtualFile, FileData.IsDir]
  · simp [dirsOf]

theorem sum_handoff_le (thr : Int) (root : FileData) (a : Addr) (d : FileData)
    (hcr : created thr root a = some d) :
    ((handoff thr a d).map (addrDirs thr root)).sum +
        (match readDir d.info with
          | none => 0
          | some _ => 1) ≤ addrDirs thr root a := by
  have ha : addrDirs thr root a = objDirs d := by simp [addrDirs, hcr]
  rw [ha]
  unfold handoff objDirs
  cases hr : readDir d.info with
  | none => simp
  | some files =>
    simp only
    split
    · rw [sum_dirAddrs (addrDirs thr root) a 0 _ (by
        intro k o hk
        unfold addrDirs
        rw [Nat.zero_add, created_snoc, hcr]
        simp only [Option.bind, hr, hk]), dirsOf_childObjs]
      omega
    · simp

theorem load_set_worker {thr : Int} {root : FileData} {p q : ScanPool} {w : Nat}
    {old x : Worker} (hw : p.workers[w]? = some old) (hq : q.workers = p.workers)
    (hperm : (old.front ++ p.taskChan).Perm (x.front ++ q.taskChan))
    (hact : x.active ≤ old.active) :
    (q.setWorker w x).load thr root ≤ p.load thr root := by
  have h := load_setWorker thr root p q w old x hw hq
  have hs := (hperm.map (addrDirs thr root)).sum_eq
  simp only [List.map_append, List.sum_append] at hs
  omega

theorem load_visit_worker {thr : Int} {root : FileData} {p : ScanPool} {w : Nat}
    {old x : Worker} {a : Addr} {d : FileData} {G : List Addr}
    (hw : p.workers[w]? = some old) (hcr : created thr root a = some d)
    (hold : old.front.Perm (a :: G)) (hx : x.front.Perm (handoff thr a d ++ G))
    (hact : x.active = old.active +
      (match readDir d.info with
        | none => 0
        | some _ => 1)) :
    ((p.visit a d).setWorker w x).load thr root ≤ p.load thr root := by
  have h := load_setWorker thr root p (p.visit a d) w old x hw rfl
  have e : (p.visit a d).taskChan = p.taskChan := rfl
  rw [e] at h
  have h1 := (hold.map (addrDirs thr root)).sum_eq
  have h2 := (hx.map (addrDirs thr root)).sum_eq
  simp only [List.map_append, List.sum_append, List.map_cons, List.sum_cons] at h1 h2
  have h3 := sum_handoff_le thr root a d hcr
  omega

theorem Step.load_le {thr : Int} {root : FileData} {p p1 : ScanPool} {w : Nat}
    (h : Step thr root p w p1) : p1.load thr root ≤ p.load thr root := by
  cases h with
  | dequeue task rest hw ht =>
    apply load_set_worker hw (q := { p with taskChan := rest }) rfl
    · simp only [Worker.front, ht, List.nil_append]
      exact List.Perm.refl _
    · simp [Worker.active]
  | exit hw ht hc =>
    apply load_set_worker hw (q := p) rfl
    · simp [Worker.front]
    · simp [Worker.active]
  | body task d hw hcr =>
    apply load_visit_worker hw hcr (G := [])
    · simp [Worker.front]
    · cases hr : readDir d.info with
      | none => simp [Worker.front, handoff, hr]
      | some files => simp [Worker.front]
    · cases hr : readDir d.info with
      | none => simp [Worker.active]
      | some files => simp [Worker.active]
  | finish tries hw =>
    apply load_set_worker hw
      (q := { p with taskCount := wrap32 (p.taskCount - 1),
                     closed := if wrap32 (p.taskCount - 1) = 0 then true else p.closed })
      rfl
    · simp [Worker.front]
    · simp [Worker.active]
  | sendClosed child rest tries hw ht hc =>
    exact Nat.le_refl _
  | enqueue child rest tries hw ht hc hl =>
    apply load_set_worker hw (q := { p with taskChan := p.taskChan ++ [child] }) rfl
    · simp only [Worker.front, List.flatten_nil, List.append_nil]
      rw [List.cons_append]
      refine List.perm_middle.symm.trans ?_
      exact List.Perm.append_left _ (by
        have hsw : ([child] ++ p.taskChan).Perm (p.taskChan ++ [child]) :=
          List.perm_append_comm
        simpa using hsw)
    · simp [Worker.active]
  | retry child rest tries hw ht hc hl =>
    apply load_set_worker hw (q := p) rfl
    · simp [Worker.front]
    · simp [Worker.active]
  | inline child rest tries d hw ht hcr =>
    apply load_visit_worker hw hcr (G := rest)
    · simp [Worker.front]
    · cases hr : readDir d.info with
      | none => simp [Worker.front, handoff, hr]
      | some files =>
        simp only [Worker.front, List.flatten_cons, List.flatten_nil, List.append_nil]
        exact List.perm_append_comm
    · cases hr : readDir d.info with
      | none => simp [Worker.active]
      | some files => simp [Worker.active]
  | descend pending tries child more stack d hw hcr =>
    apply load_visit_worker hw hcr (G := pending ++ (more ++ stack.flatten))
    · simp only [Worker.front, List.flatten_cons, List.cons_append]
      exact List.perm_middle
    · cases hr : readDir d.info with
      | none => simp [Worker.front, handoff, hr]
      | some files =>
        simp only [Worker.front, List.flatten_cons, List.append_assoc]
        rw [← List.append_assoc, ← List.append_assoc (handoff thr child d)]
        exact List.Perm.append_right _ List.perm_append_comm
    · cases hr : readDir d.info with
      | none => simp [Worker.active]
      | some files =>
        simp [Worker.active]
        omega
  | ret pending tries stack hw =>
    apply load_set_worker hw (q := p.processDirReturn) rfl
    · simp [Worker.front, ScanPool.processDirReturn]
    · simp [Worker.active]

theorem counter_exact {thr : Int} {root : FileData} {p : ScanPool}
    (hb : objDirs root < 2147483648) (hinv : Inv thr root p)
    (hl : p.load thr root ≤ objDirs root) : p.taskCount = (p.outstanding : Int) := by
  have h1 := outstanding_le_load thr root p
  rw [hinv.counter]
  apply wrap32_of_range <;> omega

theorem worker_le_outstanding {p : ScanPool} {w : Nat} {old : Worker}
    (hw : p.workers[w]? = some old) :
    old.front.length + old.active ≤ p.outstanding := by
  obtain ⟨h1, _⟩ := frontier_setWorker p w old Worker.idle hw
  have ha := workersActive_set p.workers w old Worker.idle hw
  have l1 := h1.length_eq
  have hi : Worker.idle.active = 0 := rfl
  rw [hi] at ha
  simp only [List.length_append] at l1
  unfold ScanPool.outstanding
  omega

theorem queue_le_outstanding (p : ScanPool) : p.taskChan.length ≤ p.outstanding := by
  unfold ScanPool.outstanding ScanPool.frontier
  simp only [List.length_append]
  omega

theorem Step.safe {thr : Int} {root : FileData} (hroot : root.Parent = none)
    (hb : objDirs root < 2147483648)
    {p p1 : ScanPool} {w : Nat} (hs : Safe thr root p) (h : Step thr root p w p1) :
    Safe thr root p1 := by
  have hinv1 := h.inv hroot hs.inv
  have hl1 : p1.load thr root ≤ objDirs root := Nat.le_trans h.load_le hs.load_le
  have hx1 := counter_exact hb hinv1 hl1
  have hx := counter_exact hb hs.inv hs.load_le
  have hq := queue_le_outstanding p
  refine ⟨hinv1, hl1, ?_, ?_⟩
  · cases h with
    | dequeue task rest hw ht =>
      intro hc
      have := hs.closed_done hc
      rw [ht] at hq
      simp only [List.length_cons] at hq
      omega
    | exit hw ht hc =>
      intro _
      have h0 := hs.closed_done hc
      have e : (p.setWorker w Worker.exited).taskCount = p.taskCount := rfl
      rw [e, hx, h0] at hx1
      exact_mod_cast hx1.symm
    | body task d hw hcr =>
      intro hc
      have h0 := hs.closed_done hc
      have := worker_le_outstanding hw
      simp only [Worker.front, List.length_cons, List.length_append] at this
      omega
    | finish tries hw =>
      intro hc
      have e : (p.workerFinish w).closed =
          if wrap32 (p.taskCount - 1) = 0 then true else p.closed := rfl
      have e2 : (p.workerFinish w).taskCount = wrap32 (p.taskCount - 1) := rfl
      rw [e] at hc
      by_cases hz : wrap32 (p.taskCount - 1) = 0
      · rw [e2, hz] at hx1
        exact_mod_cast hx1.symm
      · rw [if_neg hz] at hc
        have h0 := hs.closed_done hc
        have := worker_le_outstanding hw
        simp only [Worker.active] at this
        omega
    | sendClosed child rest tries hw ht hc =>
      have h0 := hs.closed_done hc
      have := worker_le_outstanding hw
      simp only [Worker.front, List.length_cons, List.length_append] at this
      omega
    | enqueue child rest tries hw ht hc hl =>
      intro hc1
      have e : ({ p with taskChan := p.taskChan ++ [child] }.setWorker w
        (Worker.busy rest 0 [])).closed = p.closed := rfl
      rw [e, hc] at hc1
      exact absurd hc1 (by simp)
    | retry child rest tries hw ht hc hl =>
      intro hc1
      have e : (p.setWorker w (Worker.busy (child :: rest) (tries + 1) [])).closed =
        p.closed := rfl
      rw [e, hc] at hc1
      exact absurd hc1 (by simp)
    | inline child rest tries d hw ht hcr =>
      intro hc
      have h0 := hs.closed_done hc
      have := worker_le_outstanding hw
      simp only [Worker.active] at this
      omega
    | descend pending tries child more stack d hw hcr =>
      intro hc
      have h0 := hs.closed_done hc
      have := worker_le_outstanding hw
      simp only [Worker.active] at this
      omega
    | ret pending tries stack hw =>
      intro hc
      have h0 := hs.closed_done hc
      have := worker_le_outstanding hw
      simp only [Worker.active] at this
      omega
  · cases h with
    | sendClosed child rest tries hw ht hc =>
      have h0 := hs.closed_done hc
      have := worker_le_outstanding hw
      simp only [Worker.front, List.length_cons, List.length_append] at this
      omega
    | dequeue task rest hw ht => exact hs.no_panic
    | exit hw ht hc => exact hs.no_panic
    | body task d hw hcr => exact hs.no_panic
    | finish tries hw => exact hs.no_panic
    | enqueue child rest tries hw ht hc hl => exact hs.no_panic
    | retry child rest tries hw ht hc hl => exact hs.no_panic
    | inline child rest tries d hw ht hcr => exact hs.no_panic
    | descend pending tries child more stack d hw hcr => exact hs.no_panic
    | ret pending tries stack hw => exact hs.no_panic

theorem Safe.init (dir : String) (stat : Option FileInfo) (W : Nat) (thr : Int) :
    Safe thr (newRootFileData dir stat) (ScanDirConcurrent.start dir stat W thr) where
  inv := Inv.start dir stat W thr
  load_le := by
    have hf : (ScanDirConcurrent.start dir stat W thr).frontier = [[]] := by
      simp [ScanDirConcurrent.start, ScanPool.frontier, ScanPool.AddTask, ScanPool.Start,
        NewScanPool, workersFront_replicate_idle]
    have hw : (ScanDirConcurrent.start dir stat W thr).workers =
        List.replicate W Worker.idle := rfl
    unfold ScanPool.load
    rw [hf, hw, workersActive_replicate_idle]
    simp [addrDirs, created, descend]
  closed_done := by
    intro h
    simp [ScanDirConcurrent.start, ScanPool.AddTask, ScanPool.Start, NewScanPool] at h
  no_panic := rfl

theorem Safe.steps {thr : Int} {root : FileData} (hroot : root.Parent = none)
    (hb : objDirs root < 2147483648)
    (sched : List Nat) {p q : ScanPool} (hs : Safe thr root p)
    (h : ScanPool.run sched p = some q) : Safe thr root q := by
  induction sched generalizing p with
  | nil =>
    simp only [ScanPool.run, Option.some.injEq] at h
    subst h
    exact hs
  | cons w ws ih =>
    simp only [ScanPool.run] at h
    cases hw : p.worker w with
    | none => simp [hw] at h
    | some p1 =>
      simp only [hw] at h
      exact ih ((step_of_worker hs.inv hw).safe hroot hb hs) h

theorem Safe.reachable (dir : String) (stat : Option FileInfo) (W : Nat) (thr : Int)
    (hb : objDirs (newRootFileData dir stat) < 2147483648)
    (sched : List Nat) (q : ScanPool)
    (h : ScanPool.run sched (ScanDirConcurrent.start dir stat W thr) = some q) :
    Safe thr (newRootFileData dir stat) q :=
  Safe.steps (newRoot_parent dir stat) hb sched (Safe.init dir stat W thr) h

/-! ## The outstanding-work counter -/

theorem workers_outstanding (ws : List Worker) :
    (workersFront ws).length + workersActive ws = workersExpanding ws + workersAwaited ws := by
  induction ws with
  | nil => rfl
  | cons x xs ih =>
    simp only [workersFront, workersActive, workersExpanding, workersAwaited,
      List.length_append]
    have hx : x.front.length + x.active = x.expanding + x.awaited := by
      cases x <;> simp [Worker.front, Worker.active, Worker.expanding, Worker.awaited]
      omega
    omega

theorem outstanding_eq (p : ScanPool) : p.outstanding = p.unfinished + p.awaited := by
  unfold ScanPool.outstanding ScanPool.frontier ScanPool.unfinished ScanPool.awaited
  have := workers_outstanding p.workers
  simp only [List.length_append]
  omega

theorem exampleMid_run : ScanPool.run [0, 0] exampleStart = some exampleMid := by
  rfl

/-- C9 (as stated, refuted): in the scan of the example with one worker, after the
worker has received the root and expanded it, the counter is 2 while one
directory task (the root, being expanded) is in the queue or being expanded: the
subdirectory `sub` is counted before it is sent or processed. -/
theorem counter_exceeds_unfinished :
    ScanPool.run [0, 0] exampleStart = some exampleMid ∧
      exampleMid.taskCount = 2 ∧ exampleMid.unfinished = 1 ∧
      exampleMid.taskChan = [] ∧ exampleMid.workers = [Worker.busy [[1]] 0 []] := by
  refine ⟨rfl, ?_, ?_, ?_, ?_⟩ <;> decide

/-- C9 (amended): in every reachable state of the scan pool the counter is, as an
`int32`, the number of unfinished directory tasks (queued, being expanded by a
worker or inline) plus the number of subdirectories already counted and not yet
handed on.  When the tree has fewer than 2^31 directories the counter is exactly
that number, so it is not 0 while a task is unfinished; the channel is closed only
when no task is unfinished or awaited; a worker at the send statement finds the
channel open; and nothing panics. -/
theorem counter_invariant (dir : String) (stat : Option FileInfo) (W : Nat) (thr : Int)
    (sched : List Nat) (q : ScanPool)
    (hrun : ScanPool.run sched (ScanDirConcurrent.start dir stat W thr) = some q) :
    q.taskCount = wrap32 ((q.unfinished : Int) + (q.awaited : Int)) ∧
    (objDirs (newRootFileData dir stat) < 2147483648 →
      q.taskCount = (q.unfinished : Int) + (q.awaited : Int) ∧
      (0 < q.unfinished → q.taskCount ≠ 0) ∧
      (q.closed = true → q.unfinished = 0 ∧ q.awaited = 0) ∧
      (∀ (w : Nat) (child : Addr) (rest : List Addr) (tries : Nat),
        q.workers[w]? = some (Worker.busy (child :: rest) tries []) → q.closed = false) ∧
      q.panicked = false) := by
  have hinv := Inv.reach dir stat W thr sched q hrun
  have ho := outstanding_eq q
  constructor
  · rw [hinv.counter, ho]
    push_cast
    rfl
  · intro hb
    have hs := Safe.reachable dir stat W thr hb sched q hrun
    have hx := counter_exact hb hs.inv hs.load_le
    rw [ho] at hx
    refine ⟨by rw [hx]; push_cast; rfl, ?_, ?_, ?_, hs.no_panic⟩
    · intro hpos
      rw [hx]
      omega
    · intro hc
      have := hs.closed_done hc
      omega
    · intro w child rest tries hw
      cases hc : q.closed with
      | false => rfl
      | true =>
        have h0 := hs.closed_done hc
        have := worker_le_outstanding hw
        simp only [Worker.front, List.length_cons, List.length_append] at this
        omega

theorem counter_invariant_witness :
    exampleMid.taskCount = (exampleMid.unfinished : Int) + (exampleMid.awaited : Int) ∧
      exampleMid.awaited = 1 :=
  ⟨((counter_invariant "/data" (some exampleTree) 1 1048576 [0, 0] exampleMid
      exampleMid_run).2 (by decide)).1, by decide⟩

/-! ## Termination -/

theorem workersPotential_set (D : Addr → Nat) (ws : List Worker) (w : Nat) (old x : Worker)
    (h : ws[w]? = some old) :
    workersPotential D (ws.set w x) + old.potential D =
      workersPotential D ws + x.potential D := by
  induction ws generalizing w with
  | nil => simp at h
  | cons y ys ih =>
    cases w with
    | zero =>
      simp at h
      subst h
      simp [workersPotential]
      omega
    | succ w =>
      simp at h
      have := ih w h
      simp only [workersPotential, List.set_cons_succ]
      omega

theorem potential_setWorker (thr : Int) (root : FileData) (p q : ScanPool) (w : Nat)
    (old x : Worker) (hw : p.workers[w]? = some old) (hq : q.workers = p.workers)
    (hp : q.panicked = p.panicked) :
    (q.setWorker w x).potential thr root + old.potential (addrDirs thr root) +
        (p.taskChan.map fun a => 7 * addrDirs thr root a - 4).sum =
      p.potential thr root + x.potential (addrDirs thr root) +
        (q.taskChan.map fun a => 7 * addrDirs thr root a - 4).sum := by
  have h := workersPotential_set (addrDirs thr root) p.workers w old x hw
  unfold ScanPool.potential
  have e1 : (q.setWorker w x).workers = p.workers.set w x := by
    simp [ScanPool.setWorker, hq]
  have e2 : (q.setWorker w x).panicked = p.panicked := hp
  have e3 : (q.setWorker w x).taskChan = q.taskChan := rfl
  rw [e1, e2, e3]
  omega

theorem sum_map_mul (D : Addr → Nat) (l : List Addr) :
    (l.map fun c => 7 * D c).sum = 7 * (l.map D).sum := by
  induction l with
  | nil => rfl
  | cons a l ih =>
    simp only [List.map_cons, List.sum_cons, ih]
    omega

theorem sum_handoff_cost (thr : Int) (root : FileData) (a : Addr) (d : FileData)
    (hcr : created thr root a = some d) :
    ((handoff thr a d).map fun c => 7 * addrDirs thr root c).sum +
        (match readDir d.info with
          | none => 0
          | some _ => 7) ≤ 7 * addrDirs thr root a := by
  have h := sum_handoff_le thr root a d hcr
  rw [sum_map_mul]
  cases hr : readDir d.info with
  | none =>
    simp only [hr] at h ⊢
    omega
  | some files =>
    simp only [hr] at h ⊢
    omega

theorem Step.potential_lt {thr : Int} {root : FileData} {p p1 : ScanPool} {w : Nat}
    (hp : p.panicked = false) (h : Step thr root p w p1) :
    p1.potential thr root < p.potential thr root := by
  cases h with
  | dequeue task rest hw ht =>
    have h := potential_setWorker thr root p { p with taskChan := rest } w _
      (Worker.got task) hw rfl rfl
    have := addrDirs_pos thr root task
    simp only [ht, Worker.potential, List.map_cons, List.sum_cons] at h
    omega
  | exit hw ht hc =>
    have h := potential_setWorker thr root p p w _ Worker.exited hw rfl rfl
    simp only [Worker.potential] at h
    omega
  | body task d hw hcr =>
    have h := potential_setWorker thr root p (p.visit task d) w _
      (match readDir d.info with
        | none => Worker.idle
        | some _ => Worker.busy (handoff thr task d) 0 []) hw rfl rfl
    have h3 := sum_handoff_cost thr root task d hcr
    have e : (p.visit task d).taskChan = p.taskChan := rfl
    have := addrDirs_pos thr root task
    rw [e] at h
    cases hr : readDir d.info with
    | none =>
      simp only [hr] at h h3 ⊢
      simp only [Worker.potential] at h
      omega
    | some files =>
      simp only [hr] at h h3 ⊢
      simp only [Worker.potential, List.map_nil, List.sum_nil] at h
      omega
  | finish tries hw =>
    have h := potential_setWorker thr root p
      { p with taskCount := wrap32 (p.taskCount - 1),
               closed := if wrap32 (p.taskCount - 1) = 0 then true else p.closed }
      w _ Worker.idle hw rfl rfl
    simp only [Worker.potential, List.map_nil, List.sum_nil] at h
    have e : p.workerFinish w = ScanPool.setWorker
      { p with taskCount := wrap32 (p.taskCount - 1),
               closed := if wrap32 (p.taskCount - 1) = 0 then true else p.closed }
      w Worker.idle := rfl
    rw [e]
    omega
  | sendClosed child rest tries hw ht hc =>
    unfold ScanPool.potential
    simp only [hp]
    simp
  | enqueue child rest tries hw ht hc hl =>
    have h := potential_setWorker thr root p { p with taskChan := p.taskChan ++ [child] } w _
      (Worker.busy rest 0 []) hw rfl rfl
    have := addrDirs_pos thr root child
    simp only [Worker.potential, List.map_nil, List.sum_nil, List.map_cons, List.sum_cons,
      List.map_append, List.sum_append] at h
    omega
  | retry child rest tries hw ht hc hl =>
    have h := potential_setWorker thr root p p w _
      (Worker.busy (child :: rest) (tries + 1) []) hw rfl rfl
    have := addrDirs_pos thr root child
    simp only [Worker.potential, List.map_nil, List.sum_nil, List.map_cons, List.sum_cons] at h
    omega
  | inline child rest tries d hw ht hcr =>
    have h := potential_setWorker thr root p (p.visit child d) w _
      (Worker.busy rest 0
        (match readDir d.info with
          | none => []
          | some _ => [handoff thr child d])) hw rfl rfl
    have h3 := sum_handoff_cost thr root child d hcr
    have e : (p.visit child d).taskChan = p.taskChan := rfl
    have := addrDirs_pos thr root child
    rw [e] at h
    cases hr : readDir d.info with
    | none =>
      simp only [hr] at h h3 ⊢
      simp only [Worker.potential, List.map_nil, List.sum_nil, List.map_cons,
        List.sum_cons] at h
      omega
    | some files =>
      simp only [hr] at h h3 ⊢
      simp only [Worker.potential, List.map_nil, List.sum_nil, List.map_cons,
        List.sum_cons] at h
      omega
  | descend pending tries child more stack d hw hcr =>
    have h := potential_setWorker thr root p (p.visit child d) w _
      (Worker.busy pending tries
        (match readDir d.info with
          | none => more :: stack
          | some _ => handoff thr child d :: more :: stack)) hw rfl rfl
    have h3 := sum_handoff_cost thr root child d hcr
    have e : (p.visit child d).taskChan = p.taskChan := rfl
    have := addrDirs_pos thr root child
    rw [e] at h
    cases hr : readDir d.info with
    | none =>
      simp only [hr] at h h3 ⊢
      simp only [Worker.potential, List.map_cons, List.sum_cons] at h
      omega
    | some files =>
      simp only [hr] at h h3 ⊢
      simp only [Worker.potential, List.map_cons, List.sum_cons] at h
      omega
  | ret pending tries stack hw =>
    have h := potential_setWorker thr root p p.processDirReturn w _
      (Worker.busy pending tries stack) hw rfl rfl
    have e : p.processDirReturn.taskChan = p.taskChan := rfl
    rw [e] at h
    simp only [Worker.potential, List.map_nil, List.sum_nil, List.map_cons, List.sum_cons] at h
    omega

theorem worker_not_panicked {p p1 : ScanPool} {w : Nat} (h : p.worker w = some p1) :
    p.panicked = false := by
  unfold ScanPool.worker at h
  cases hp : p.panicked with
  | false => rfl
  | true => simp [hp] at h

theorem run_potential {thr : Int} {root : FileData} (hroot : root.Parent = none)
    (sched : List Nat) {p q : ScanPool} (hinv : Inv thr root p)
    (h : ScanPool.run sched p = some q) :
    sched.length + q.potential thr root ≤ p.potential thr root := by
  induction sched generalizing p with
  | nil =>
    simp only [ScanPool.run, Option.some.injEq] at h
    subst h
    simp
  | cons w ws ih =>
    simp only [ScanPool.run] at h
    cases hw : p.worker w with
    | none => simp [hw] at h
    | some p1 =>
      simp only [hw] at h
      have hs := step_of_worker hinv hw
      have h1 := ih (hs.inv hroot hinv) h
      have h2 := hs.potential_lt (worker_not_panicked hw)
      simp only [List.length_cons]
      omega

theorem start_potential (dir : String) (stat : Option FileInfo) (W : Nat) (thr : Int) :
    (ScanDirConcurrent.start dir stat W thr).potential thr (newRootFileData dir stat) =
      7 * objDirs (newRootFileData dir stat) - 3 + W := by
  have hw : ∀ n, workersPotential (addrDirs thr (newRootFileData dir stat))
      (List.replicate n Worker.idle) = n := by
    intro n
    induction n with
    | zero => rfl
    | succ n ih =>
      simp only [List.replicate_succ, workersPotential, Worker.potential, ih]
      omega
  have h1 : addrDirs thr (newRootFileData dir stat) [] = objDirs (newRootFileData dir stat) := by
    simp [addrDirs, created, descend]
  have h2 : 1 ≤ objDirs (newRootFileData dir stat) := Nat.le_add_right 1 _
  unfold ScanPool.potential
  simp only [ScanDirConcurrent.start, ScanPool.AddTask, ScanPool.Start, NewScanPool,
    List.nil_append, List.map_cons, List.map_nil, List.sum_cons, List.sum_nil, hw, h1]
  simp
  omega

/-! ## Scans that cannot hang -/

theorem readableList_mem {es : List FileInfo} (h : readableList es = true) {f : FileInfo}
    (hf : f ∈ es) : f.readable = true := by
  induction es with
  | nil => simp at hf
  | cons e es ih =>
    simp only [readableList, Bool.and_eq_true] at h
    rcases List.mem_cons.mp hf with rfl | hf
    · exact h.1
    · exact ih h.2 hf

theorem Sound.readDir {d : FileData} (hs : Sound d) (hd : d.IsDir = true) :
    ∃ files, readDir d.info = some files ∧ readableList files = true := by
  rcases hs with ⟨i, hi, hr, hk⟩ | ⟨_, hk⟩
  · have hd2 : i.IsDir = true := by rw [← hk]; exact hd
    cases i with
    | file n s => simp [FileInfo.IsDir] at hd2
    | dir n s es =>
      refine ⟨es, by rw [hi]; rfl, ?_⟩
      simpa [FileInfo.readable] using hr
    | noread n s => simp [FileInfo.readable] at hr
  · have : d.isDir = true := hd
    rw [hk] at this
    simp at this

theorem Sound.child {thr : Int} {a : Addr} {d c : FileData} {files : List FileInfo} {k : Nat}
    (hs : Sound d) (hr : Gncdu.readDir d.info = some files)
    (hk : (childObjs thr a files)[k]? = some c) : Sound c := by
  have hrl : readableList files = true := by
    rcases hs with ⟨i, hi, hri, _⟩ | ⟨hn, _⟩
    · rw [hi] at hr
      cases i with
      | file n s => simp [Gncdu.readDir] at hr
      | dir n s es =>
        simp only [Gncdu.readDir, Option.some.injEq] at hr
        subst hr
        simpa [FileInfo.readable] using hri
      | noread n s => simp [Gncdu.readDir] at hr
    · rw [hn] at hr
      simp [Gncdu.readDir] at hr
  rcases childObjs_cases thr a files k c hk with ⟨f, hf, _, rfl⟩ | ⟨rfl, _⟩
  · exact Or.inl ⟨f, rfl, readableList_mem hrl hf, rfl⟩
  · exact Or.inr ⟨rfl, rfl⟩

theorem descend_sound (thr : Int) (path : List Nat) (d : FileData) (a : Addr) (c : FileData)
    (hs : Sound d) (h : descend thr d a path = some c) : Sound c := by
  induction path generalizing d a with
  | nil =>
    simp only [descend, Option.some.injEq] at h
    subst h
    exact hs
  | cons k rest ih =>
    simp only [descend] at h
    cases hr : Gncdu.readDir d.info with
    | none => simp [hr] at h
    | some files =>
      simp only [hr] at h
      cases hk : (childObjs thr a files)[k]? with
      | none => simp [hk] at h
      | some c1 =>
        simp only [hk] at h
        exact ih c1 (a ++ [k]) (hs.child hr hk) h

theorem created_sound {thr : Int} {root : FileData} (hs : Sound root) {a : Addr}
    {d : FileData} (h : created thr root a = some d) : Sound d :=
  descend_sound thr a root [] d hs h

theorem newRoot_sound (dir : String) (tree : FileInfo) (hdir : tree.IsDir = true)
    (hread : tree.readable = true) : Sound (newRootFileData dir (some tree)) :=
  Or.inl ⟨tree, rfl, hread, hdir.symm⟩

theorem Elig_isDir {thr : Int} {root : FileData} (hroot : root.IsDir = true)
    {V : List Addr} {b : Addr} (h : Elig thr root V b) :
    ∃ d, created thr root b = some d ∧ d.IsDir = true := by
  rcases h with rfl | ⟨_, pd, hc, hm⟩
  · exact ⟨root, rfl, hroot⟩
  · obtain ⟨k, c, files, e, hr, hk, hcd⟩ := mem_handoff thr _ pd b hm
    refine ⟨c, ?_, hcd⟩
    rw [e, created_snoc, hc]
    simp only [Option.bind, hr]
    exact hk

theorem setWorker_get {p q : ScanPool} {w : Nat} {old : Worker} (x : Worker)
    (hw : p.workers[w]? = some old) (hq : q.workers = p.workers) :
    (q.setWorker w x).workers[w]? = some x := by
  have hlt : w < p.workers.length := by
    rcases Nat.lt_or_ge w p.workers.length with h | h
    · exact h
    · rw [List.getElem?_eq_none h] at hw
      simp at hw
  simp [ScanPool.setWorker, hq, List.getElem?_set, hlt]

theorem outstanding_pos_of_worker {p q : ScanPool} {w : Nat} {old : Worker} (x : Worker)
    (hw : p.workers[w]? = some old) (hq : q.workers = p.workers)
    (hx : 1 ≤ x.front.length + x.active) : (q.setWorker w x).outstanding ≠ 0 := by
  have := worker_le_outstanding (setWorker_get x hw hq)
  omega

theorem mem_setWorker {p q : ScanPool} {w : Nat} {x : Worker}
    (hq : q.workers = p.workers) (hx : x ≠ Worker.exited)
    (h : Worker.exited ∈ (q.setWorker w x).workers) : Worker.exited ∈ p.workers := by
  have h1 : Worker.exited ∈ p.workers.set w x := by
    simpa [ScanPool.setWorker, hq] using h
  rcases List.mem_or_eq_of_mem_set h1 with h2 | h2
  · exact h2
  · exact absurd h2.symm hx

theorem Step.live {thr : Int} {root : FileData} {p : ScanPool}
    (hread : ∀ a d, a ∈ p.frontier → created thr root a = some d →
      ∃ files, readDir d.info = some files)
    {p1 : ScanPool} {w : Nat} (hs1 : p1.taskCount = (p1.outstanding : Int))
    (hl : Live p) (h : Step thr root p w p1) : Live p1 := by
  cases h with
  | dequeue task rest hw ht =>
    refine ⟨?_, ?_, ?_⟩
    · simpa [ScanPool.setWorker] using hl.workers_len
    · intro h0
      exact absurd h0 (outstanding_pos_of_worker _ hw rfl (by simp [Worker.front]))
    · intro he
      exact hl.exited_closed (mem_setWorker rfl (by simp) he)
  | exit hw ht hc =>
    refine ⟨?_, fun _ => hc, fun _ => hc⟩
    simpa [ScanPool.setWorker] using hl.workers_len
  | body task d hw hcr =>
    obtain ⟨files, hr⟩ := hread task d
      (mem_frontier_of_worker hw (by simp [Worker.front])) hcr
    simp only [hr]
    refine ⟨?_, ?_, ?_⟩
    · simpa [ScanPool.setWorker, ScanPool.visit] using hl.workers_len
    · intro h0
      exact absurd h0 (outstanding_pos_of_worker _ hw rfl (by simp [Worker.active]))
    · intro he
      exact hl.exited_closed (mem_setWorker rfl (by simp) he)
  | finish tries hw =>
    refine ⟨?_, ?_, ?_⟩
    · simpa [ScanPool.setWorker, ScanPool.workerFinish] using hl.workers_len
    · intro h0
      rw [h0] at hs1
      have e : (p.workerFinish w).taskCount = wrap32 (p.taskCount - 1) := rfl
      have e2 : (p.workerFinish w).closed =
          if wrap32 (p.taskCount - 1) = 0 then true else p.closed := rfl
      rw [e] at hs1
      rw [e2, if_pos (by simpa using hs1)]
    · intro he
      have e2 : (p.workerFinish w).closed =
          if wrap32 (p.taskCount - 1) = 0 then true else p.closed := rfl
      have hc := hl.exited_closed (mem_setWorker
        (q := { p with taskCount := wrap32 (p.taskCount - 1),
                       closed := if wrap32 (p.taskCount - 1) = 0 then true else p.closed })
        rfl (by simp) he)
      rw [e2, hc]
      simp
  | sendClosed child rest tries hw ht hc =>
    exact ⟨hl.workers_len, fun _ => hc, fun _ => hc⟩
  | enqueue child rest tries hw ht hc hl2 =>
    refine ⟨?_, ?_, ?_⟩
    · simpa [ScanPool.setWorker] using hl.workers_len
    · intro h0
      exact absurd h0 (outstanding_pos_of_worker _ hw rfl (by simp [Worker.active]))
    · intro he
      exact hl.exited_closed (mem_setWorker rfl (by simp) he)
  | retry child rest tries hw ht hc hl2 =>
    refine ⟨?_, ?_, ?_⟩
    · simpa [ScanPool.setWorker] using hl.workers_len
    · intro h0
      exact absurd h0 (outstanding_pos_of_worker _ hw rfl (by simp [Worker.active]))
    · intro he
      exact hl.exited_closed (mem_setWorker rfl (by simp) he)
  | inline child rest tries d hw ht hcr =>
    refine ⟨?_, ?_, ?_⟩
    · simpa [ScanPool.setWorker, ScanPool.visit] using hl.workers_len
    · intro h0
      exact absurd h0 (outstanding_pos_of_worker _ hw rfl (by simp only [Worker.active]; omega))
    · intro he
      exact hl.exited_closed (mem_setWorker rfl (by simp) he)
  | descend pending tries child more stack d hw hcr =>
    refine ⟨?_, ?_, ?_⟩
    · simpa [ScanPool.setWorker, ScanPool.visit] using hl.workers_len
    · intro h0
      exact absurd h0 (outstanding_pos_of_worker _ hw rfl (by simp only [Worker.active]; omega))
    · intro he
      exact hl.exited_closed (mem_setWorker rfl (by simp) he)
  | ret pending tries stack hw =>
    refine ⟨?_, ?_, ?_⟩
    · simpa [ScanPool.setWorker, ScanPool.processDirReturn] using hl.workers_len
    · intro h0
      exact absurd h0 (outstanding_pos_of_worker _ hw rfl (by simp only [Worker.active]; omega))
    · intro he
      exact hl.exited_closed (mem_setWorker rfl (by simp) he)

theorem Live.atStart (dir : String) (stat : Option FileInfo) (W : Nat) (thr : Int) :
    Live (ScanDirConcurrent.start dir stat W thr) where
  workers_len := by
    simp [ScanDirConcurrent.start, ScanPool.AddTask, ScanPool.Start, NewScanPool]
  done_closed := by
    intro h
    have : (ScanDirConcurrent.start dir stat W thr).outstanding = 1 := by
      simp [ScanDirConcurrent.start, ScanPool.outstanding, ScanPool.frontier,
        ScanPool.AddTask, ScanPool.Start, NewScanPool, workersFront_replicate_idle,
        workersActive_replicate_idle]
    omega
  exited_closed := by
    intro h
    have hw : (ScanDirConcurrent.start dir stat W thr).workers =
        List.replicate W Worker.idle := rfl
    rw [hw] at h
    have := List.eq_of_mem_replicate h
    simp at this

theorem frontier_readable {thr : Int} {root : FileData} (hsound : Sound root)
    (hdir : root.IsDir = true) {p : ScanPool} (hinv : Inv thr root p) :
    ∀ a d, a ∈ p.frontier → created thr root a = some d →
      ∃ files, readDir d.info = some files := by
  intro a d ha hcr
  obtain ⟨d1, hc1, hd1⟩ := Elig_isDir hdir (hinv.core.front_elig a ha)
  rw [hcr] at hc1
  have e : d = d1 := Option.some.inj hc1
  subst e
  obtain ⟨files, hr, _⟩ := (created_sound hsound hcr).readDir hd1
  exact ⟨files, hr⟩

theorem Live.preserved {thr : Int} {root : FileData} (hroot : root.Parent = none)
    (hsound : Sound root) (hdir : root.IsDir = true) (hb : objDirs root < 2147483648)
    (sched : List Nat) {p q : ScanPool} (hs : Safe thr root p) (hl : Live p)
    (h : ScanPool.run sched p = some q) : Live q := by
  induction sched generalizing p with
  | nil =>
    simp only [ScanPool.run, Option.some.injEq] at h
    subst h
    exact hl
  | cons w ws ih =>
    simp only [ScanPool.run] at h
    cases hw : p.worker w with
    | none => simp [hw] at h
    | some p1 =>
      simp only [hw] at h
      have hstep := step_of_worker hs.inv hw
      have hs1 := hstep.safe hroot hb hs
      exact ih hs1 (hstep.live (frontier_readable hsound hdir hs.inv)
        (counter_exact hb hs1.inv hs1.load_le) hl) h

theorem worker_none_cases {p : ScanPool} {w : Nat} {x : Worker} (hp : p.panicked = false)
    (hw : p.workers[w]? = some x) (hn : p.worker w = none) :
    x = Worker.exited ∨ (x = Worker.idle ∧ p.taskChan = [] ∧ p.closed = false) := by
  unfold ScanPool.worker at hn
  simp only [hp, hw] at hn
  cases x with
  | idle =>
    right
    cases ht : p.taskChan with
    | nil =>
      simp only [ht] at hn
      cases hc : p.closed with
      | false => exact ⟨rfl, rfl, rfl⟩
      | true => simp [hc] at hn
    | cons t rest => simp [ht] at hn
  | exited => exact Or.inl rfl
  | got task => simp at hn
  | busy pending tries stack =>
    exfalso
    cases stack with
    | nil =>
      cases pending with
      | nil => simp at hn
      | cons c rest =>
        simp only at hn
        by_cases ht : tries < 3
        · rw [if_pos ht] at hn
          by_cases hc : p.closed = true
          · rw [if_pos hc] at hn
            simp at hn
          · rw [if_neg hc] at hn
            by_cases hl : p.taskChan.length < p.concurrency * 4
            · rw [if_pos hl] at hn
              simp at hn
            · rw [if_neg hl] at hn
              simp at hn
        · simp only [ht, if_false] at hn
          rcases hpd : p.processDir c with ⟨p1, o⟩
          rw [hpd] at hn
          cases o <;> simp at hn
    | cons frame stack =>
      cases frame with
      | nil => simp at hn
      | cons c more =>
        simp only at hn
        rcases hpd : p.processDir c with ⟨p1, o⟩
        rw [hpd] at hn
        cases o <;> simp at hn

theorem stuck_final {thr : Int} {root : FileData} {q : ScanPool} (hs : Safe thr root q)
    (hl : Live q) (hW : 1 ≤ q.concurrency) (hstuck : ∀ w, q.worker w = none) :
    q.closed = true ∧ q.outstanding = 0 ∧ (∀ x ∈ q.workers, x = Worker.exited) := by
  have hcases : ∀ x ∈ q.workers,
      x = Worker.exited ∨ (x = Worker.idle ∧ q.taskChan = [] ∧ q.closed = false) := by
    intro x hx
    obtain ⟨w, hlt, hw⟩ := List.getElem_of_mem hx
    exact worker_none_cases hs.no_panic
      (by rw [List.getElem?_eq_getElem hlt, hw]) (hstuck w)
  have hne : q.workers ≠ [] := by
    intro h
    have := hl.workers_len
    rw [h] at this
    simp at this
    omega
  have hclosed : q.closed = true := by
    cases hc : q.closed with
    | true => rfl
    | false =>
      exfalso
      have hidle : ∀ x ∈ q.workers, x = Worker.idle := by
        intro x hx
        rcases hcases x hx with h | ⟨h, _, _⟩
        · rw [h] at hx
          have := hl.exited_closed hx
          rw [hc] at this
          simp at this
        · exact h
      obtain ⟨x, hx⟩ := List.exists_mem_of_ne_nil _ hne
      obtain ⟨_, hq, _⟩ : x = Worker.idle ∧ q.taskChan = [] ∧ q.closed = false := by
        rcases hcases x hx with h | h
        · rw [hidle x hx] at h
          simp at h
        · exact h
      have hrep : q.workers = List.replicate q.workers.length Worker.idle :=
        List.eq_replicate_of_mem hidle
      have h0 : q.outstanding = 0 := by
        unfold ScanPool.outstanding ScanPool.frontier
        rw [hq, hrep, workersFront_replicate_idle, workersActive_replicate_idle]
        rfl
      have := hl.done_closed h0
      rw [hc] at this
      simp at this
  refine ⟨hclosed, hs.closed_done hclosed, ?_⟩
  intro x hx
  rcases hcases x hx with h | ⟨_, _, h⟩
  · exact h
  · rw [hclosed] at h
    simp at h

/-! ## Every directory is visited -/

mutual
theorem dirs_le_entries : (f : FileInfo) → f.dirs ≤ 1 + f.entries
  | FileInfo.file _ _ => by simp [FileInfo.dirs]
  | FileInfo.dir _ _ es => by
    have := dirsList_le_entriesList es
    simp only [FileInfo.dirs, FileInfo.entries]
    omega
  | FileInfo.noread _ _ => by simp [FileInfo.dirs]
theorem dirsList_le_entriesList : (es : List FileInfo) → dirsList es ≤ entriesList es
  | [] => by simp [dirsList, entriesList]
  | e :: es => by
    have h1 := dirs_le_entries e
    have h2 := dirsList_le_entriesList es
    simp only [dirsList, entriesList]
    omega
end

theorem objDirs_le_entries (d : FileData) : objDirs d ≤ 1 + objEntries d := by
  unfold objDirs objEntries
  cases readDir d.info with
  | none => simp
  | some es =>
    have := dirsList_le_entriesList es
    simp only
    omega

theorem length_le_entriesList (es : List FileInfo) : es.length ≤ entriesList es := by
  induction es with
  | nil => simp
  | cons e es ih =>
    simp only [List.length_cons, entriesList]
    omega

theorem entries_le_of_mem {es : List FileInfo} {f : FileInfo} (hf : f ∈ es) :
    1 + f.entries ≤ entriesList es := by
  induction es with
  | nil => simp at hf
  | cons e es ih =>
    simp only [entriesList]
    rcases List.mem_cons.mp hf with rfl | hf
    · omega
    · have := ih hf
      omega

theorem objEntries_mkChild (a : Addr) (f : FileInfo) : objEntries (mkChild a f) = f.entries := by
  cases f <;> simp [objEntries, mkChild, readDir, FileInfo.entries]

theorem objEntries_child {thr : Int} {a : Addr} {d c : FileData} {files : List FileInfo}
    {k : Nat} (hr : readDir d.info = some files)
    (hk : (childObjs thr a files)[k]? = some c) : objEntries c ≤ objEntries d := by
  have hd : objEntries d = entriesList files := by simp [objEntries, hr]
  rw [hd]
  rcases childObjs_cases thr a files k c hk with ⟨f, hf, _, rfl⟩ | ⟨rfl, _⟩
  · rw [objEntries_mkChild]
    have := entries_le_of_mem hf
    omega
  · simp [objEntries, virtualFile, readDir]

theorem descend_entries_le (thr : Int) (path : List Nat) (d : FileData) (a : Addr)
    (c : FileData) (h : descend thr d a path = some c) : objEntries c ≤ objEntries d := by
  induction path generalizing d a with
  | nil =>
    simp only [descend, Option.some.injEq] at h
    subst h
    exact Nat.le_refl _
  | cons k rest ih =>
    simp only [descend] at h
    cases hr : readDir d.info with
    | none => simp [hr] at h
    | some files =>
      simp only [hr] at h
      cases hk : (childObjs thr a files)[k]? with
      | none => simp [hk] at h
      | some c1 =>
        simp only [hk] at h
        exact Nat.le_trans (ih c1 (a ++ [k]) h) (objEntries_child hr hk)

theorem created_entries_le {thr : Int} {root : FileData} {a : Addr} {d : FileData}
    (h : created thr root a = some d) : objEntries d ≤ objEntries root :=
  descend_entries_le thr a root [] d h

theorem dirCountAcc_range (ks : List FileInfo) (acc : Int)
    (h : -2147483648 ≤ acc ∧ acc < 2147483648) :
    -2147483648 ≤ dirCountAcc ks acc ∧ dirCountAcc ks acc < 2147483648 := by
  induction ks generalizing acc with
  | nil => simpa [dirCountAcc] using h
  | cons f fs ih =>
    rw [dirCountAcc]
    split
    · apply ih
      unfold wrap32
      omega
    · exact ih acc h

theorem dirCountAcc_exact (ks : List FileInfo) (h : ks.countP FileInfo.IsDir < 2147483648) :
    dirCountAcc ks 0 = (ks.countP FileInfo.IsDir : Int) := by
  have h1 := dirCountAcc_range ks 0 (by omega)
  have h2 := dirCountAcc_wrap ks 0
  rw [wrap32_of_range _ h1.1 h1.2, Int.zero_add, wrap32_of_range _ (by omega) (by omega)] at h2
  exact h2

theorem mem_dirAddrs_of (b : Addr) (n : Nat) (objs : List FileData) (k : Nat) (c : FileData)
    (hk : objs[k]? = some c) (hc : c.IsDir = true) : b ++ [n + k] ∈ dirAddrs b n objs := by
  induction objs generalizing n k with
  | nil => simp at hk
  | cons o os ih =>
    rw [dirAddrs]
    cases k with
    | zero =>
      simp only [List.getElem?_cons_zero, Option.some.injEq] at hk
      subst hk
      simp [hc]
    | succ k =>
      simp only [List.getElem?_cons_succ] at hk
      have := ih (n + 1) k hk
      have e : n + 1 + k = n + (k + 1) := by omega
      rw [e] at this
      split
      · exact List.mem_cons_of_mem _ this
      · exact this

theorem mem_handoff_of {thr : Int} {a : Addr} {d c : FileData} {files : List FileInfo}
    {k : Nat} (hr : readDir d.info = some files)
    (hk : (childObjs thr a files)[k]? = some c) (hc : c.IsDir = true)
    (hb : files.length < 2147483648) : a ++ [k] ∈ handoff thr a d := by
  have hpos : 0 < (childObjs thr a files).countP FileData.IsDir :=
    List.countP_pos_iff.mpr ⟨c, List.getElem?_mem hk, hc⟩
  rw [childObjs_countP] at hpos
  have hle : (kept thr files).countP FileInfo.IsDir ≤ files.length :=
    Nat.le_trans (List.countP_le_length _) (List.length_filter_le _ _)
  have hx := dirCountAcc_exact (kept thr files) (by omega)
  unfold handoff
  simp only [hr]
  rw [if_pos (by rw [hx]; exact_mod_cast hpos)]
  have := mem_dirAddrs_of a 0 _ k c hk hc
  simpa using this

theorem Sound.isDir_of_readDir {d : FileData} (hs : Sound d) {files : List FileInfo}
    (hr : Gncdu.readDir d.info = some files) : d.IsDir = true := by
  rcases hs with ⟨i, hi, _, hk⟩ | ⟨hn, _⟩
  · rw [hi] at hr
    cases i with
    | file n s => simp [Gncdu.readDir] at hr
    | dir n s es =>
      show d.isDir = true
      rw [hk]
      rfl
    | noread n s => simp [Gncdu.readDir] at hr
  · rw [hn] at hr
    simp [Gncdu.readDir] at hr

theorem all_visited {thr : Int} {root : FileData} (hsound : Sound root)
    (hb : objEntries root < 2147483648) {h : Heap} {V : List Addr}
    (core : Core thr root h V []) :
    ∀ a d, created thr root a = some d → d.IsDir = true → a ∈ V := by
  intro a
  induction a using List.reverseRecOn with
  | nil =>
    intro d _ _
    rcases core.complete [] (Or.inl rfl) with h | h
    · simp at h
    · exact h
  | append_singleton a k ih =>
    intro c hc hcd
    obtain ⟨d, files, hd, hr, hk⟩ := created_snoc_some hc
    have hsd := created_sound hsound hd
    have hav : a ∈ V := ih d hd (hsd.isDir_of_readDir hr)
    have hlen : files.length < 2147483648 := by
      have h1 := length_le_entriesList files
      have h2 := created_entries_le hd
      have h3 : objEntries d = entriesList files := by simp [objEntries, hr]
      omega
    have hel : Elig thr root V (a ++ [k]) := by
      right
      rw [List.dropLast_concat]
      exact ⟨hav, d, hd, mem_handoff_of hr hk hcd hlen⟩
    rcases core.complete _ hel with h | h
    · simp at h
    · exact h

/-! ## The totals of a finished scan -/

mutual
theorem total_nonneg : (f : FileInfo) → f.nonneg = true → 0 ≤ f.total
  | FileInfo.file _ s, h => by simpa [FileInfo.nonneg, FileInfo.total] using h
  | FileInfo.dir _ _ es, h => by
    have := totalList_nonneg es (by simpa [FileInfo.nonneg] using h)
    simpa [FileInfo.total] using this
  | FileInfo.noread _ s, h => by simpa [FileInfo.nonneg, FileInfo.total] using h
theorem totalList_nonneg : (es : List FileInfo) → nonnegList es = true → 0 ≤ totalList es
  | [], _ => by simp [totalList]
  | e :: es, h => by
    simp only [nonnegList, Bool.and_eq_true] at h
    have h1 := total_nonneg e h.1
    have h2 := totalList_nonneg es h.2
    simp only [totalList]
    omega
end

theorem nonnegList_mem {es : List FileInfo} (h : nonnegList es = true) {f : FileInfo}
    (hf : f ∈ es) : f.nonneg = true := by
  induction es with
  | nil => simp at hf
  | cons e es ih =>
    simp only [nonnegList, Bool.and_eq_true] at h
    rcases List.mem_cons.mp hf with rfl | hf
    · exact h.1
    · exact ih h.2 hf

theorem total_le_of_mem {es : List FileInfo} (h : nonnegList es = true) {f : FileInfo}
    (hf : f ∈ es) : f.total ≤ totalList es := by
  induction es with
  | nil => simp at hf
  | cons e es ih =>
    simp only [nonnegList, Bool.and_eq_true] at h
    have h1 := total_nonneg e h.1
    have h2 := totalList_nonneg es h.2
    simp only [totalList]
    rcases List.mem_cons.mp hf with rfl | hf
    · omega
    · have := ih h.2 hf
      omega

theorem Tame.inner {files : List FileInfo} (ht : Tame files) {n : String} {s : Int}
    {es : List FileInfo} (hf : FileInfo.dir n s es ∈ files) : Tame es := by
  obtain ⟨h1, h2, h3, h4⟩ := ht
  have r := readableList_mem h1 hf
  have g := nonnegList_mem h2 hf
  have t := total_le_of_mem h2 hf
  have e := entries_le_of_mem hf
  simp only [FileInfo.readable, FileInfo.nonneg, FileInfo.total, FileInfo.entries] at r g t e
  exact ⟨r, g, by omega, by omega⟩

theorem isSmall_file {thr : Int} {f : FileInfo} (h : isSmall thr f = true) :
    ∃ n s, f = FileInfo.file n s := by
  cases f with
  | file n s => exact ⟨n, s, rfl⟩
  | dir n s es => simp [isSmall, FileInfo.IsDir] at h
  | noread n s => simp [isSmall, FileInfo.IsDir] at h

theorem totalList_split (thr : Int) (files : List FileInfo) :
    totalList files = ((kept thr files).map FileInfo.total).sum +
      ((smallFiles thr files).map FileInfo.Size).sum := by
  induction files with
  | nil => simp [totalList, kept, smallFiles]
  | cons f fs ih =>
    unfold kept smallFiles at ih ⊢
    rw [totalList, List.filter_cons, List.filter_cons, ih]
    by_cases hs : isSmall thr f = true
    · obtain ⟨n, s, rfl⟩ := isSmall_file hs
      simp only [hs, Bool.not_true, Bool.false_eq_true, if_false, if_true, List.map_cons,
        List.sum_cons, FileInfo.total, FileInfo.Size]
      omega
    · have hs2 : isSmall thr f = false := by simpa using hs
      simp only [hs2, Bool.not_false, Bool.false_eq_true, if_false, if_true, List.map_cons,
        List.sum_cons]
      omega

theorem entriesList_split (thr : Int) (files : List FileInfo) :
    (entriesList files : Int) =
      ((kept thr files).map fun f => 1 + (f.entries : Int)).sum +
        ((smallFiles thr files).length : Int) := by
  induction files with
  | nil => simp [entriesList, kept, smallFiles]
  | cons f fs ih =>
    unfold kept smallFiles at ih ⊢
    rw [entriesList, List.filter_cons, List.filter_cons]
    by_cases hs : isSmall thr f = true
    · obtain ⟨n, s, rfl⟩ := isSmall_file hs
      simp only [hs, Bool.not_true, Bool.false_eq_true, if_false, if_true, List.length_cons,
        FileInfo.entries]
      push_cast
      omega
    · have hs2 : isSmall thr f = false := by simpa using hs
      simp only [hs2, Bool.not_false, Bool.false_eq_true, if_false, if_true, List.map_cons,
        List.sum_cons]
      push_cast
      omega

theorem small_sizes_nonneg (thr : Int) (files : List FileInfo)
    (h : nonnegList files = true) :
    0 ≤ ((smallFiles thr files).map FileInfo.Size).sum ∧
      0 ≤ ((kept thr files).map FileInfo.total).sum := by
  induction files with
  | nil => simp [kept, smallFiles]
  | cons f fs ih =>
    simp only [nonnegList, Bool.and_eq_true] at h
    have h1 := total_nonneg f h.1
    obtain ⟨i1, i2⟩ := ih h.2
    unfold smallFiles at i1
    unfold kept at i2
    unfold kept smallFiles
    rw [List.filter_cons, List.filter_cons]
    by_cases hs : isSmall thr f = true
    · obtain ⟨n, s, rfl⟩ := isSmall_file hs
      simp only [hs, Bool.not_true, Bool.false_eq_true, if_false, if_true, List.map_cons,
        List.sum_cons, FileInfo.Size]
      simp only [FileInfo.total] at h1
      exact ⟨by omega, i2⟩
    · have hs2 : isSmall thr f = false := by simpa using hs
      simp only [hs2, Bool.not_false, Bool.false_eq_true, if_false, if_true, List.map_cons,
        List.sum_cons]
      exact ⟨i1, by omega⟩

theorem smallCountAcc_exact (thr : Int) (files : List FileInfo)
    (hb : files.length < 2147483648) :
    smallCountAcc thr files 0 = ((smallFiles thr files).length : Int) := by
  have hle : (smallFiles thr files).length ≤ files.length := List.length_filter_le _ _
  rw [smallCountAcc_eq]
  split
  · rename_i h0
    simp [h0]
  · rw [Int.zero_add]
    apply wrap32_of_range <;> omega

theorem smallSizeAcc_exact (thr : Int) (files : List FileInfo) (ht : Tame files) :
    smallSizeAcc thr files 0 = ((smallFiles thr files).map FileInfo.Size).sum := by
  obtain ⟨_, h2, h3, _⟩ := ht
  obtain ⟨i1, i2⟩ := small_sizes_nonneg thr files h2
  have hsp := totalList_split thr files
  rw [smallSizeAcc_eq]
  split
  · rename_i h0
    have : smallFiles thr files = [] := List.length_eq_zero.mp h0
    simp [this]
  · rw [Int.zero_add]
    apply wrap64_of_range <;> omega

theorem sum_objTotal (thr : Int) (a : Addr) (files : List FileInfo) (ht : Tame files) :
    ((childObjs thr a files).map objTotal).sum = totalList files := by
  have hlen : files.length < 2147483648 := by
    have := length_le_entriesList files
    have := ht.2.2.2
    omega
  have hc := smallCountAcc_exact thr files hlen
  have hsz := smallSizeAcc_exact thr files ht
  have hk : (((kept thr files).map (mkChild a)).map objTotal) =
      (kept thr files).map FileInfo.total := by
    rw [List.map_map]
    rfl
  unfold childObjs
  rw [List.map_append, List.sum_append, hk, totalList_split thr files, hc, hsz]
  congr 1
  split
  · simp [objTotal, virtualFile]
  · rename_i h0
    have : smallFiles thr files = [] := by
      apply List.length_eq_zero.mp
      omega
    simp [this]

theorem sum_objContribution (thr : Int) (a : Addr) (files : List FileInfo)
    (hlen : files.length < 2147483648) :
    ((childObjs thr a files).map objContribution).sum = (entriesList files : Int) := by
  have hc := smallCountAcc_exact thr files hlen
  have hk : (((kept thr files).map (mkChild a)).map objContribution) =
      (kept thr files).map fun f => 1 + (f.entries : Int) := by
    rw [List.map_map]
    rfl
  unfold childObjs
  rw [List.map_append, List.sum_append, hk, entriesList_split thr files, hc]
  congr 1
  split
  · simp [objContribution, virtualFile]
  · rename_i h0
    simp only [List.map_nil, List.sum_nil]
    omega

theorem forall₂_childAddrs {β : Type} (R : Addr → β → Prop) (a : Addr) (g : FileData → β)
    (objs : List FileData) (n0 : Nat)
    (h : ∀ k obj, objs[k]? = some obj → R (a ++ [n0 + k]) (g obj)) :
    List.Forall₂ R (childAddrs a n0 objs.length) (objs.map g) := by
  induction objs generalizing n0 with
  | nil => simp [childAddrs]
  | cons o os ih =>
    rw [List.length_cons, childAddrs_cons, List.map_cons]
    refine List.Forall₂.cons ?_ (ih (n0 + 1) ?_)
    · simpa using h 0 o (by simp)
    · intro k obj hk
      have := h (k + 1) obj (by simpa using hk)
      have e : n0 + (k + 1) = n0 + 1 + k := by omega
      rwa [e] at this

theorem SizeValue_cached {h : Heap} {c : Addr} {obj : FileData} (hc : h c = some obj)
    (hs : obj.size ≠ -1) (F : Nat) : SizeValue (F + 1) h c = some obj.size := by
  unfold SizeValue Size
  simp [hc, hs]

theorem totals_value (thr : Int) (root : FileData) (V : List Addr)
    (hrc : root.Children = [])
    (hall : ∀ a d, created thr root a = some d → d.IsDir = true → a ∈ V)
    (hdirs : ∀ v ∈ V, ∃ d, created thr root v = some d ∧ d.IsDir = true) :
    ∀ n a d files, created thr root a = some d → (a = [] ∨ a.dropLast ∈ V) →
      d.isVirtual = false → d.IsDir = true → readDir d.info = some files → Tame files →
      heightList files < n → ∀ F, n + 1 ≤ F →
      SizeValue F (expected thr root V) a = some (totalList files) ∧
        CountValue F (expected thr root V) a = some (entriesList files : Int) := by
  intro n
  induction n with
  | zero =>
    intro a d files _ _ _ _ _ _ hlt
    omega
  | succ n ih =>
    intro a d files hcr hal hvir hdir hr ht hlt F hF
    obtain ⟨F1, rfl⟩ : ∃ F1, F = F1 + 1 := ⟨F - 1, by omega⟩
    obtain ⟨F2, hF2⟩ : ∃ F2, F1 = F2 + 1 := ⟨F1 - 1, by omega⟩
    have haV : a ∈ V := hall a d hcr hdir
    have hha := expected_visited thr root V a d hcr hal haV
    rw [expandedObj_eq thr a d files hr] at hha
    have hd := expected_disc thr root hrc V
    have hap := expected_apart thr root hrc V a _ hha
    have hlen : files.length < 2147483648 := by
      have := length_le_entriesList files
      have := ht.2.2.2
      omega
    -- a child that is not a directory is as it was created
    have hleaf : ∀ k obj, (childObjs thr a files)[k]? = some obj → obj.IsDir = false →
        expected thr root V (a ++ [k]) = some obj := by
      intro k obj hk hnd
      have hcc : created thr root (a ++ [k]) = some obj := by
        rw [created_snoc, hcr]
        simp only [Option.bind, hr]
        exact hk
      apply expected_not_visited thr root V _ obj hcc
      · right
        rw [List.dropLast_concat]
        exact haV
      · intro hv
        obtain ⟨d1, h1, h2⟩ := hdirs _ hv
        rw [hcc] at h1
        have e : obj = d1 := Option.some.inj h1
        rw [← e, hnd] at h2
        simp at h2
    have hkey : ∀ k obj, (childObjs thr a files)[k]? = some obj →
        SizeValue F1 (expected thr root V) (a ++ [0 + k]) = some (objTotal obj) ∧
        countContribution F1 (expected thr root V) (a ++ [0 + k]) =
          some (objContribution obj) := by
      intro k obj hk
      rw [Nat.zero_add]
      have hcc : created thr root (a ++ [k]) = some obj := by
        rw [created_snoc, hcr]
        simp only [Option.bind, hr]
        exact hk
      rcases childObjs_cases thr a files k obj hk with ⟨f, hf, _, rfl⟩ | ⟨rfl, hpos⟩
      · cases f with
        | file nm s =>
          have hh := hleaf k _ hk rfl
          have hnn := nonnegList_mem ht.2.1 hf
          simp only [FileInfo.nonneg, decide_eq_true_eq] at hnn
          constructor
          · rw [hF2, SizeValue_cached hh (by
              show s ≠ -1
              omega)]
            rfl
          · unfold countContribution
            rw [hh]
            rfl
        | dir nm s es =>
          have hhe := height_le_heightList files _ hf
          simp only [FileInfo.height] at hhe
          obtain ⟨i1, i2⟩ := ih (a ++ [k]) (mkChild a (FileInfo.dir nm s es)) es hcc
            (by right; rw [List.dropLast_concat]; exact haV) rfl rfl rfl (ht.inner hf)
            (by omega) F1 (by omega)
          refine ⟨i1, ?_⟩
          have hcV : a ++ [k] ∈ V := hall _ _ hcc rfl
          have hhc := expected_visited thr root V (a ++ [k]) _ hcc
            (by right; rw [List.dropLast_concat]; exact haV) hcV
          rw [expandedObj_eq thr (a ++ [k]) (mkChild a (FileInfo.dir nm s es)) es rfl] at hhc
          unfold countContribution
          rw [hhc]
          simp only [mkChild, FileData.IsDir, Bool.false_eq_true, if_false, if_true]
          rw [i2]
          simp [objContribution, FileInfo.entries, FileInfo.IsDir, mkChild]
        | noread nm s =>
          have := readableList_mem ht.1 hf
          simp [FileInfo.readable] at this
      · have hh := hleaf k _ hk rfl
        have hsz := smallSizeAcc_exact thr files ht
        have hnn := (small_sizes_nonneg thr files ht.2.1).1
        constructor
        · rw [hF2, SizeValue_cached hh (by
            show smallSizeAcc thr files 0 ≠ -1
            omega)]
          rfl
        · unfold countContribution
          rw [hh]
          rfl
    have hvs := forall₂_childAddrs
      (fun c v => SizeValue F1 (expected thr root V) c = some v) a objTotal
      (childObjs thr a files) 0 (fun k obj hk => (hkey k obj hk).1)
    have hcs := forall₂_childAddrs
      (fun c v => countContribution F1 (expected thr root V) c = some v) a objContribution
      (childObjs thr a files) 0 (fun k obj hk => (hkey k obj hk).2)
    have hS := Size_dir_value F1 (expected thr root V) hd a _ hha rfl hdir hap _ hvs
    have hC := Count_dir_value F1 (expected thr root V) hd a _ hha rfl hvir hap _ hcs
    rw [sum_objTotal thr a files ht] at hS
    rw [sum_objContribution thr a files hlen] at hC
    have hn := totalList_nonneg files ht.2.1
    have hb := ht.2.2.1
    have he := ht.2.2.2
    rw [wrap64_of_range _ (by omega) (by omega)] at hS
    rw [wrap64_of_range _ (by omega) (by omega)] at hC
    exact ⟨hS, hC⟩

theorem frontier_nil_of_outstanding {p : ScanPool} (h : p.outstanding = 0) :
    p.frontier = [] := by
  unfold ScanPool.outstanding at h
  apply List.length_eq_zero.mp
  omega

theorem wait_of_exited {p : ScanPool} (hp : p.panicked = false)
    (h : ∀ x ∈ p.workers, x = Worker.exited) : p.Wait = true := by
  unfold ScanPool.Wait
  simp only [hp, Bool.not_false, Bool.true_and, List.all_eq_true, decide_eq_true_eq]
  exact h

theorem Step.concurrency {thr : Int} {root : FileData} {p p1 : ScanPool} {w : Nat}
    (h : Step thr root p w p1) : p1.concurrency = p.concurrency := by
  cases h <;> rfl

theorem run_concurrency {thr : Int} {root : FileData} (hroot : root.Parent = none)
    (sched : List Nat) {p q : ScanPool} (hinv : Inv thr root p)
    (h : ScanPool.run sched p = some q) : q.concurrency = p.concurrency := by
  induction sched generalizing p with
  | nil =>
    simp only [ScanPool.run, Option.some.injEq] at h
    rw [h]
  | cons w ws ih =>
    simp only [ScanPool.run] at h
    cases hw : p.worker w with
    | none => simp [hw] at h
    | some p1 =>
      simp only [hw] at h
      have hs := step_of_worker hinv hw
      rw [ih (hs.inv hroot hinv) h, hs.concurrency]

/-- C5 (amended): for a tree whose root and other directories can all be read, with
fewer than 2^31 - 1 entries, no negative size and sizes that add up to an `int64`,
and for every number `W` of workers from 1 to 2^31 - 1: every execution of the
pool has at most `7 * dirs + W` steps, where `dirs` is the number of directories
of the tree; and in every state in which no worker can move, the counter is 0,
the channel is closed, every worker has exited, the directories read are exactly
the directories of the tree, each read once, and `Size()` and `Count()` of the root
are the sum of the sizes of the files of the tree and the number of its entries. -/
theorem pool_terminates (dir : String) (tree : FileInfo) (W : Nat) (thr : Int)
    (hdir : tree.IsDir = true) (hread : tree.readable = true) (hnn : tree.nonneg = true)
    (htot : tree.total < 9223372036854775808) (hent : tree.entries < 2147483647)
    (hW : 1 ≤ W) (_hW32 : W < 2147483648)
    (sched : List Nat) (q : ScanPool)
    (hrun : ScanPool.run sched (ScanDirConcurrent.start dir (some tree) W thr) = some q) :
    sched.length ≤ 7 * tree.dirs + W ∧
    ((∀ w, q.worker w = none) →
      q.taskCount = 0 ∧ q.closed = true ∧ q.Wait = true ∧ q.taskChan = [] ∧
      q.visited.Nodup ∧
      (∀ a, a ∈ q.visited ↔
        ∃ d, created thr (newRootFileData dir (some tree)) a = some d ∧ d.IsDir = true) ∧
      ∀ F, tree.height + 1 ≤ F →
        SizeValue F q.heap [] = some tree.total ∧
        CountValue F q.heap [] = some (tree.entries : Int)) := by
  cases tree with
  | file nm s => simp [FileInfo.IsDir] at hdir
  | noread nm s => simp [FileInfo.readable] at hread
  | dir nm s files =>
    simp only [FileInfo.readable, FileInfo.nonneg, FileInfo.total, FileInfo.entries,
      FileInfo.dirs, FileInfo.height] at hread hnn htot hent ⊢
    have hT : Tame files := ⟨hread, hnn, htot, by omega⟩
    have hroot := newRoot_parent dir (some (FileInfo.dir nm s files))
    have hrc := newRoot_children dir (some (FileInfo.dir nm s files))
    have hsound : Sound (newRootFileData dir (some (FileInfo.dir nm s files))) :=
      newRoot_sound dir _ rfl hread
    have hrd : readDir (newRootFileData dir (some (FileInfo.dir nm s files))).info =
        some files := rfl
    have hrdir : (newRootFileData dir (some (FileInfo.dir nm s files))).IsDir = true := rfl
    have hoe : objEntries (newRootFileData dir (some (FileInfo.dir nm s files))) =
        entriesList files := rfl
    have hod : objDirs (newRootFileData dir (some (FileInfo.dir nm s files))) =
        1 + dirsList files := rfl
    have hb : objDirs (newRootFileData dir (some (FileInfo.dir nm s files))) < 2147483648 := by
      have := objDirs_le_entries (newRootFileData dir (some (FileInfo.dir nm s files)))
      omega
    have hs := Safe.reachable dir _ W thr hb sched q hrun
    have hl := Live.preserved hroot hsound rfl hb sched (Safe.init dir _ W thr)
      (Live.atStart dir _ W thr) hrun
    constructor
    · have h1 := run_potential hroot sched (Inv.start dir (some (FileInfo.dir nm s files)) W thr)
        hrun
      rw [start_potential, hod] at h1
      omega
    · intro hstuck
      have hconc : q.concurrency = W :=
        run_concurrency hroot sched (Inv.start dir (some (FileInfo.dir nm s files)) W thr) hrun
      obtain ⟨hclosed, hout, hex⟩ := stuck_final hs hl (by omega) hstuck
      have hcnt := counter_exact hb hs.inv hs.load_le
      have hfr := frontier_nil_of_outstanding hout
      have hcore := hs.inv.core
      rw [hfr] at hcore
      have hall := all_visited hsound (by rw [hoe]; omega) hcore
      have hdirs : ∀ v ∈ q.visited, ∃ d,
          created thr (newRootFileData dir (some (FileInfo.dir nm s files))) v = some d ∧
            d.IsDir = true :=
        fun v hv => Elig_isDir hrdir (hcore.vis_elig v hv)
      refine ⟨by rw [hcnt, hout]; rfl, hclosed, wait_of_exited hs.no_panic hex, ?_, ?_, ?_, ?_⟩
      · have : q.taskChan.length ≤ q.outstanding := queue_le_outstanding q
        apply List.length_eq_zero.mp
        omega
      · simpa using hcore.nodup
      · intro a
        exact ⟨hdirs a, fun ⟨d, h1, h2⟩ => hall a d h1 h2⟩
      · intro F hF
        have := totals_value thr _ q.visited hrc hall hdirs (heightList files + 1) []
          (newRootFileData dir (some (FileInfo.dir nm s files))) files rfl (Or.inl rfl)
          rfl rfl hrd hT (by omega) F (by omega)
        rw [hcore.heap_eq]
        exact this

theorem kept_replicate_dir (thr : Int) (n : Nat) (f : FileInfo) (hf : f.IsDir = true) :
    kept thr (List.replicate n f) = List.replicate n f := by
  unfold kept
  rw [List.filter_eq_self]
  intro a ha
  rw [List.eq_of_mem_replicate ha]
  simp [isSmall, hf]

theorem readableList_replicate (n : Nat) (f : FileInfo) (hf : f.readable = true) :
    readableList (List.replicate n f) = true := by
  induction n with
  | zero => rfl
  | succ n ih => simp [List.replicate_succ, readableList, hf, ih]

theorem dirCountAcc_wide (thr : Int) :
    dirCountAcc (kept thr (List.replicate 2147483648 (FileInfo.dir "d" 4096 []))) 0 =
      -2147483648 := by
  rw [kept_replicate_dir thr 2147483648 (FileInfo.dir "d" 4096 []) rfl]
  have h1 := dirCountAcc_range (List.replicate 2147483648 (FileInfo.dir "d" 4096 [])) 0
    (by omega)
  have h2 := dirCountAcc_wrap (List.replicate 2147483648 (FileInfo.dir "d" 4096 [])) 0
  rw [wrap32_of_range _ h1.1 h1.2, List.countP_replicate] at h2
  rw [h2]
  decide

theorem run_no_handoff (dir nm : String) (sz : Int) (files : List FileInfo) (thr : Int)
    (hno : ¬ dirCountAcc (kept thr files) 0 > 0) :
    ∃ q, ScanPool.run [0, 0, 0, 0]
        (ScanDirConcurrent.start dir (some (FileInfo.dir nm sz files)) 1 thr) = some q ∧
      q.workers = [Worker.exited] ∧ q.panicked = false ∧ q.closed = true ∧
      q.taskCount = 0 ∧ q.taskChan = [] ∧ q.visited = [[]] := by
  obtain ⟨p1, h1⟩ : ∃ p1, (ScanDirConcurrent.start dir
      (some (FileInfo.dir nm sz files)) 1 thr).worker 0 = some p1 := ⟨_, rfl⟩
  have hp1 : p1.workers = [Worker.got []] ∧ p1.taskChan = [] ∧ p1.closed = false ∧
      p1.panicked = false ∧ p1.taskCount = 1 ∧ p1.threshold = thr ∧ p1.visited = [] ∧
      p1.heap [] = some (newRootFileData dir (some (FileInfo.dir nm sz files))) := by
    have : some p1 = some _ := h1.symm.trans rfl
    rw [Option.some.injEq] at this
    subst this
    exact ⟨rfl, rfl, rfl, rfl, rfl, rfl, rfl, rfl⟩
  obtain ⟨hw1, hc1, hcl1, hpn1, hct1, hth1, hv1, hh1⟩ := hp1
  have hhand : handoff thr []
      (newRootFileData dir (some (FileInfo.dir nm sz files))) = [] := by
    unfold handoff
    simp only [newRootFileData, readDir]
    rw [if_neg hno]
  have hvc : visitCount thr (newRootFileData dir (some (FileInfo.dir nm sz files))) 1 = 1 := by
    unfold visitCount
    simp only [newRootFileData, readDir]
    rw [if_neg hno]
  have hb : p1.workerBody 0 [] =
      (p1.visit [] (newRootFileData dir (some (FileInfo.dir nm sz files)))).setWorker 0
        (Worker.busy [] 0 []) := by
    rw [workerBody_eq p1 0 [] _ hh1, hth1, hhand]
    rfl
  have h2 : p1.worker 0 = some (p1.workerBody 0 []) := by
    unfold ScanPool.worker
    simp only [hpn1, hw1]
    rfl
  have hp2 : (p1.workerBody 0 []).workers = [Worker.busy [] 0 []] ∧
      (p1.workerBody 0 []).taskChan = [] ∧ (p1.workerBody 0 []).closed = false ∧
      (p1.workerBody 0 []).panicked = false ∧ (p1.workerBody 0 []).taskCount = 1 ∧
      (p1.workerBody 0 []).visited = [[]] := by
    rw [hb]
    refine ⟨by simp [ScanPool.setWorker, ScanPool.visit, hw1], hc1, hcl1, hpn1, ?_, ?_⟩
    · show visitCount p1.threshold (newRootFileData dir (some (FileInfo.dir nm sz files)))
        p1.taskCount = 1
      rw [hth1, hct1, hvc]
    · show [] :: p1.visited = [[]]
      rw [hv1]
  obtain ⟨hw2, hc2, hcl2, hpn2, hct2, hv2⟩ := hp2
  have h3 : (p1.workerBody 0 []).worker 0 = some ((p1.workerBody 0 []).workerFinish 0) := by
    unfold ScanPool.worker
    simp only [hpn2, hw2]
    rfl
  have hp3 : ((p1.workerBody 0 []).workerFinish 0).workers = [Worker.idle] ∧
      ((p1.workerBody 0 []).workerFinish 0).taskChan = [] ∧
      ((p1.workerBody 0 []).workerFinish 0).closed = true ∧
      ((p1.workerBody 0 []).workerFinish 0).panicked = false ∧
      ((p1.workerBody 0 []).workerFinish 0).taskCount = 0 ∧
      ((p1.workerBody 0 []).workerFinish 0).visited = [[]] := by
    have e : wrap32 ((p1.workerBody 0 []).taskCount - 1) = 0 := by
      rw [hct2]
      decide
    refine ⟨by simp [ScanPool.workerFinish, ScanPool.setWorker, hw2], hc2, ?_, hpn2, e, hv2⟩
    show (if wrap32 ((p1.workerBody 0 []).taskCount - 1) = 0 then true
      else (p1.workerBody 0 []).closed) = true
    rw [if_pos e]
  obtain ⟨hw3, hc3, hcl3, hpn3, hct3, hv3⟩ := hp3
  have h4 : ((p1.workerBody 0 []).workerFinish 0).worker 0 =
      some (((p1.workerBody 0 []).workerFinish 0).setWorker 0 Worker.exited) := by
    unfold ScanPool.worker
    simp only [hpn3, hw3, hc3, hcl3]
    rfl
  refine ⟨((p1.workerBody 0 []).workerFinish 0).setWorker 0 Worker.exited, ?_, ?_, hpn3,
    hcl3, hct3, hc3, hv3⟩
  · simp only [ScanPool.run, h1, h2, h3, h4]
  · simp [ScanPool.setWorker, hw3]

theorem wideTree_readable : wideTree.readable = true := by
  unfold wideTree
  rw [FileInfo.readable]
  exact readableList_replicate _ _ rfl

theorem created_first_child (thr : Int) (dir nm : String) (sz : Int) (f : FileInfo)
    (rest : List FileInfo) (hf : f.IsDir = true) :
    created thr (newRootFileData dir (some (FileInfo.dir nm sz (f :: rest)))) [0] =
      some (mkChild [] f) := by
  have h := created_snoc thr (newRootFileData dir (some (FileInfo.dir nm sz (f :: rest)))) [] 0
  rw [List.nil_append] at h
  rw [h]
  have hk : kept thr (f :: rest) = f :: kept thr rest := by
    unfold kept
    rw [List.filter_cons]
    simp [isSmall, hf]
  simp only [created, descend, Option.bind, newRootFileData, readDir]
  unfold childObjs
  rw [hk]
  simp only [List.map_cons, List.cons_append, List.getElem?_cons_zero]

theorem wideTree_child :
    created 1048576 (newRootFileData "/wide" (some wideTree)) [0] =
      some (mkChild [] (FileInfo.dir "d" 4096 [])) := by
  have e : wideTree = FileInfo.dir "/wide" 4096
      (FileInfo.dir "d" 4096 [] :: List.replicate 2147483647 (FileInfo.dir "d" 4096 [])) := by
    unfold wideTree
    rw [List.replicate_succ (FileInfo.dir "d" 4096 []) 2147483647]
  rw [e]
  exact created_first_child 1048576 "/wide" "/wide" 4096 _ _ rfl

theorem wideTree_run :
    ∃ q, ScanPool.run [0, 0, 0, 0]
        (ScanDirConcurrent.start "/wide" (some wideTree) 1 1048576) = some q ∧
      q.workers = [Worker.exited] ∧ q.panicked = false ∧ q.closed = true ∧
      q.taskCount = 0 ∧ q.taskChan = [] ∧ q.visited = [[]] := by
  unfold wideTree
  exact run_no_handoff "/wide" "/wide" 4096
    (List.replicate 2147483648 (FileInfo.dir "d" 4096 [])) 1048576
    (by rw [dirCountAcc_wide]; decide)

/-- C5 (as stated, refuted): the tree `wideTree` has 2^31 subdirectories, all of
which can be read.  With one worker the execution of four steps ends the scan:
the counter is 0, the channel is closed and the worker has exited, so no worker
can move; but only the root has been read, and the subdirectory at `[0]` has not:
the `int32` count of subdirectories has wrapped to a negative value, so none was
handed on. -/
theorem wide_tree_not_expanded :
    wideTree.IsDir = true ∧ wideTree.readable = true ∧
    ∃ q, ScanPool.run [0, 0, 0, 0]
        (ScanDirConcurrent.start "/wide" (some wideTree) 1 1048576) = some q ∧
      (∀ w, q.worker w = none) ∧ q.Wait = true ∧ q.taskCount = 0 ∧ q.closed = true ∧
      q.visited = [[]] ∧
      (∃ d, created 1048576 (newRootFileData "/wide" (some wideTree)) [0] = some d ∧
        d.IsDir = true) ∧
      [0] ∉ q.visited := by
  refine ⟨rfl, wideTree_readable, ?_⟩
  obtain ⟨q, hrun, hw, hpn, hcl, hct, hq, hv⟩ := wideTree_run
  refine ⟨q, hrun, ?_, ?_, hct, hcl, hv, ⟨_, wideTree_child, rfl⟩, by rw [hv]; decide⟩
  · intro w
    cases w with
    | zero =>
      unfold ScanPool.worker
      simp [hpn, hw]
    | succ w =>
      apply worker_out_of_range
      simp [hw]
  · apply wait_of_exited hpn
    intro x hx
    rw [hw] at hx
    simpa using hx

theorem pool_terminates_witness :
    exampleScan.taskCount = 0 ∧ exampleScan.closed = true ∧ exampleScan.Wait = true ∧
      SizeValue 3 exampleScan.heap [] = some 13107200 ∧
      CountValue 3 exampleScan.heap [] = some 4 := by
  have h := (pool_terminates "/data" exampleTree 1 1048576 rfl (by decide) (by decide)
    (by decide) (by decide) (by decide) (by decide) [0, 0, 0, 0, 0, 0, 0, 0] exampleScan
    exampleScan_run).2 (by
      intro w
      cases w with
      | zero => rfl
      | succ w =>
        have hws : exampleScan.workers = [Worker.exited] := by decide
        exact worker_out_of_range _ _ (by rw [hws]; simp))
  exact ⟨h.1, h.2.1, h.2.2.1, (h.2.2.2.2.2.2 3 (by decide)).1,
    (h.2.2.2.2.2.2 3 (by decide)).2⟩

/-! ## The queue path and the inline path -/

theorem Step.quiet {thr : Int} {root : FileData} {p p1 : ScanPool} {w : Nat}
    (hq : Quiet p) (h : Step thr root p w p1) : Quiet p1 := by
  cases h with
  | dequeue task rest hw ht =>
    refine ⟨by simpa [ScanPool.setWorker] using hq.workers_len, ?_⟩
    intro he
    have := (hq.exited_done (mem_setWorker rfl (by simp) he)).2
    rw [ht] at this
    simp at this
  | exit hw ht hc =>
    exact ⟨by simpa [ScanPool.setWorker] using hq.workers_len, fun _ => ⟨hc, ht⟩⟩
  | body task d hw hcr =>
    refine ⟨by simpa [ScanPool.setWorker, ScanPool.visit] using hq.workers_len, ?_⟩
    intro he
    refine hq.exited_done (mem_setWorker rfl ?_ he)
    cases readDir d.info <;> simp
  | finish tries hw =>
    refine ⟨by simpa [ScanPool.setWorker, ScanPool.workerFinish] using hq.workers_len, ?_⟩
    intro he
    have e2 : (p.workerFinish w).closed =
        if wrap32 (p.taskCount - 1) = 0 then true else p.closed := rfl
    obtain ⟨hc, ht⟩ := hq.exited_done (mem_setWorker
      (q := { p with taskCount := wrap32 (p.taskCount - 1),
                     closed := if wrap32 (p.taskCount - 1) = 0 then true else p.closed })
      rfl (by simp) he)
    refine ⟨?_, ht⟩
    rw [e2, hc]
    simp
  | sendClosed child rest tries hw ht hc =>
    exact ⟨hq.workers_len, hq.exited_done⟩
  | enqueue child rest tries hw ht hc hl =>
    refine ⟨by simpa [ScanPool.setWorker] using hq.workers_len, ?_⟩
    intro he
    have := (hq.exited_done (mem_setWorker rfl (by simp) he)).1
    rw [hc] at this
    simp at this
  | retry child rest tries hw ht hc hl =>
    refine ⟨by simpa [ScanPool.setWorker] using hq.workers_len, ?_⟩
    intro he
    exact hq.exited_done (mem_setWorker rfl (by simp) he)
  | inline child rest tries d hw ht hcr =>
    refine ⟨by simpa [ScanPool.setWorker, ScanPool.visit] using hq.workers_len, ?_⟩
    intro he
    exact hq.exited_done (mem_setWorker rfl (by simp) he)
  | descend pending tries child more stack d hw hcr =>
    refine ⟨by simpa [ScanPool.setWorker, ScanPool.visit] using hq.workers_len, ?_⟩
    intro he
    exact hq.exited_done (mem_setWorker rfl (by simp) he)
  | ret pending tries stack hw =>
    refine ⟨by simpa [ScanPool.setWorker, ScanPool.processDirReturn] using hq.workers_len, ?_⟩
    intro he
    exact hq.exited_done (mem_setWorker rfl (by simp) he)

theorem Quiet.first (dir : String) (stat : Option FileInfo) (W : Nat) (thr : Int) :
    Quiet (ScanDirConcurrent.start dir stat W thr) where
  workers_len := by
    simp [ScanDirConcurrent.start, ScanPool.AddTask, ScanPool.Start, NewScanPool]
  exited_done := by
    intro h
    have hw : (ScanDirConcurrent.start dir stat W thr).workers =
        List.replicate W Worker.idle := rfl
    rw [hw] at h
    have := List.eq_of_mem_replicate h
    simp at this

theorem Quiet.invariant {thr : Int} {root : FileData} (hroot : root.Parent = none)
    (sched : List Nat) {p q : ScanPool} (hinv : Inv thr root p) (hq : Quiet p)
    (h : ScanPool.run sched p = some q) : Quiet q := by
  induction sched generalizing p with
  | nil =>
    simp only [ScanPool.run, Option.some.injEq] at h
    subst h
    exact hq
  | cons w ws ih =>
    simp only [ScanPool.run] at h
    cases hw : p.worker w with
    | none => simp [hw] at h
    | some p1 =>
      simp only [hw] at h
      have hs := step_of_worker hinv hw
      exact ih (hs.inv hroot hinv) (hs.quiet hq) h

theorem workersFront_exited (ws : List Worker) (h : ∀ x ∈ ws, x = Worker.exited) :
    workersFront ws = [] := by
  induction ws with
  | nil => rfl
  | cons x xs ih =>
    have hx : x = Worker.exited := h x (List.mem_cons_self _ _)
    have := ih (fun y hy => h y (List.mem_cons_of_mem _ hy))
    simp [workersFront, hx, Worker.front, this]

theorem returned_frontier {q : ScanPool} (hq : Quiet q) (hW : 1 ≤ q.concurrency)
    (hwait : q.Wait = true) : q.frontier = [] := by
  unfold ScanPool.Wait at hwait
  simp only [Bool.and_eq_true, List.all_eq_true, decide_eq_true_eq] at hwait
  have hex := hwait.2
  have hne : q.workers ≠ [] := by
    intro h
    have := hq.workers_len
    rw [h] at this
    simp at this
    omega
  obtain ⟨x, hx⟩ := List.exists_mem_of_ne_nil _ hne
  have hmem : Worker.exited ∈ q.workers := by
    rw [← hex x hx]
    exact hx
  unfold ScanPool.frontier
  rw [(hq.exited_done hmem).2, workersFront_exited _ hex]
  rfl

theorem visited_subset {thr : Int} {root : FileData} {h1 h2 : Heap} {V1 V2 : List Addr}
    (c1 : Core thr root h1 V1 []) (c2 : Core thr root h2 V2 []) :
    ∀ a, a ∈ V1 → a ∈ V2 := by
  intro a
  induction a using List.reverseRecOn with
  | nil =>
    intro _
    rcases c2.complete [] (Or.inl rfl) with h | h
    · simp at h
    · exact h
  | append_singleton b k ih =>
    intro hv
    rcases c1.vis_elig _ hv with h | ⟨hb, d, hd, hm⟩
    · simp at h
    · rw [List.dropLast_concat] at hb hd hm
      have hel : Elig thr root V2 (b ++ [k]) := by
        right
        rw [List.dropLast_concat]
        exact ⟨ih hb, d, hd, hm⟩
      rcases c2.complete _ hel with h | h
      · simp at h
      · exact h

theorem expected_congr (thr : Int) (root : FileData) (V1 V2 : List Addr)
    (h : ∀ a, a ∈ V1 ↔ a ∈ V2) : expected thr root V1 = expected thr root V2 := by
  funext b
  unfold expected
  cases created thr root b with
  | none => rfl
  | some d => simp only [h b, h b.dropLast]

theorem returned_heap {thr : Int} {root : FileData} {q1 q2 : ScanPool}
    (i1 : Inv thr root q1) (i2 : Inv thr root q2) (f1 : q1.frontier = [])
    (f2 : q2.frontier = []) : q1.heap = q2.heap := by
  have c1 := i1.core
  have c2 := i2.core
  rw [f1] at c1
  rw [f2] at c2
  rw [c1.heap_eq, c2.heap_eq]
  exact expected_congr thr root _ _ fun a => ⟨visited_subset c1 c2 a, visited_subset c2 c1 a⟩

theorem fiveScanOne_run :
    ScanPool.run (List.replicate 25 0)
      (ScanDirConcurrent.start "/five" (some fiveTree) 1 1048576) = some fiveScanOne := by
  rfl

theorem fiveScanTwo_run :
    ScanPool.run [0, 0, 0, 1, 1, 1, 0, 0, 0, 0, 0, 0, 0, 0, 1, 1, 1, 0, 0, 0, 1, 1, 1, 0, 1]
      (ScanDirConcurrent.start "/five" (some fiveTree) 2 1048576) = some fiveScanTwo := by
  rfl

/-- The queue path and the inline path, step by step.  For every directory,
listing and threshold, the expansion in `processDir` gives the same heap (the same
children in the same order, with the same names, kinds, sizes and virtual file),
the same list of children, the same progress totals and the same count of
subdirectories as the expansion in `worker`; on every state of the pool the two
paths leave the same heap, totals and counter, hand on the same subdirectories,
and end with the same decrement of the counter.  Two scans of the same tree with
the same threshold leave the same heap if both have returned, with any numbers of
workers and any schedules; whether a scan returns is not settled here. -/
theorem queue_inline_equivalent (dir : String) (stat : Option FileInfo) (thr : Int) :
    (∀ (task : Addr) (files : List FileInfo) (heap : Heap) (ts ti : Int),
      processDirExpand thr task files heap ts ti = workerExpand thr task files heap ts ti) ∧
    (∀ (p : ScanPool) (w : Nat) (task : Addr),
      (p.processDir task).1.heap = (p.workerBody w task).heap ∧
      (p.processDir task).1.TotalSize = (p.workerBody w task).TotalSize ∧
      (p.processDir task).1.TotalItems = (p.workerBody w task).TotalItems ∧
      (p.processDir task).1.taskCount = (p.workerBody w task).taskCount ∧
      (∀ subs, (p.processDir task).2 = some subs →
        (p.workerBody w task).workers = p.workers.set w (Worker.busy subs 0 [])) ∧
      p.processDirReturn.taskCount = (p.workerFinish w).taskCount) ∧
    (∀ (W1 W2 : Nat) (sched1 sched2 : List Nat) (q1 q2 : ScanPool),
      1 ≤ W1 → 1 ≤ W2 →
      ScanPool.run sched1 (ScanDirConcurrent.start dir stat W1 thr) = some q1 →
      ScanPool.run sched2 (ScanDirConcurrent.start dir stat W2 thr) = some q2 →
      q1.Wait = true → q2.Wait = true →
      q1.heap = q2.heap ∧
      ∀ (a : Addr) (F : Nat), SizeValue F q1.heap a = SizeValue F q2.heap a ∧
        CountValue F q1.heap a = CountValue F q2.heap a) := by
  refine ⟨processDirExpand_eq_worker thr, ?_, ?_⟩
  · intro p w task
    unfold ScanPool.processDir ScanPool.workerBody
    cases p.heap task with
    | none => exact ⟨rfl, rfl, rfl, rfl, fun subs h => by simp at h, rfl⟩
    | some d =>
      simp only
      cases readDir d.info with
      | none => exact ⟨rfl, rfl, rfl, rfl, fun subs h => by simp at h, rfl⟩
      | some files =>
        simp only [processDirExpand_eq_worker]
        split
        · refine ⟨rfl, rfl, rfl, rfl, ?_, rfl⟩
          intro subs h
          simp only [Option.some.injEq] at h
          rw [← h]
          rfl
        · refine ⟨rfl, rfl, rfl, rfl, ?_, rfl⟩
          intro subs h
          simp only [Option.some.injEq] at h
          rw [← h]
          rfl
  · intro W1 W2 sched1 sched2 q1 q2 hW1 hW2 h1 h2 hw1 hw2
    have hroot := newRoot_parent dir stat
    have i1 := Inv.reach dir stat W1 thr sched1 q1 h1
    have i2 := Inv.reach dir stat W2 thr sched2 q2 h2
    have u1 := Quiet.invariant hroot sched1 (Inv.start dir stat W1 thr) (Quiet.first dir stat W1 thr) h1
    have u2 := Quiet.invariant hroot sched2 (Inv.start dir stat W2 thr) (Quiet.first dir stat W2 thr) h2
    have c1 : q1.concurrency = W1 := run_concurrency hroot sched1 (Inv.start dir stat W1 thr) h1
    have c2 : q2.concurrency = W2 := run_concurrency hroot sched2 (Inv.start dir stat W2 thr) h2
    have hh := returned_heap i1 i2 (returned_frontier u1 (by omega) hw1)
      (returned_frontier u2 (by omega) hw2)
    refine ⟨hh, fun a F => ?_⟩
    rw [hh]
    exact ⟨rfl, rfl⟩

theorem queue_inline_equivalent_witness :
    fiveScanOne.visited = [[3], [2], [1], [0], [4], []] ∧
      fiveScanTwo.visited = [[4], [3], [2], [1], [0], []] ∧
      fiveScanOne.heap = fiveScanTwo.heap ∧
      SizeValue 3 fiveScanOne.heap [] = SizeValue 3 fiveScanTwo.heap [] ∧
      CountValue 3 fiveScanOne.heap [4] = CountValue 3 fiveScanTwo.heap [4] := by
  have h := (queue_inline_equivalent "/five" (some fiveTree) 1048576).2.2 1 2
    (List.replicate 25 0)
    [0, 0, 0, 1, 1, 1, 0, 0, 0, 0, 0, 0, 0, 0, 1, 1, 1, 0, 0, 0, 1, 1, 1, 0, 1]
    fiveScanOne fiveScanTwo (by decide) (by decide) fiveScanOne_run fiveScanTwo_run
    (by decide) (by decide)
  exact ⟨by decide, by decide, h.1, (h.2 [] 3).1, (h.2 [4] 3).2⟩

/-! ## The progress total `TotalItems` -/

theorem example_items : exampleScan.TotalItems = 4 ∧ exampleMid.TotalItems = 3 := by
  decide

theorem itemsAcc_wrap (files : List FileInfo) (x : Int) :
    itemsAcc files (wrap32 x) = wrap32 (x + files.length) := by
  induction files generalizing x with
  | nil => simp [itemsAcc]
  | cons f fs ih =>
    rw [itemsAcc, wrap32_add_left, ih]
    congr 1
    simp only [List.length_cons]
    push_cast
    omega

theorem entriesList_eq (files : List FileInfo) :
    entriesList files = files.length + innerEntries files := by
  induction files with
  | nil => rfl
  | cons f fs ih =>
    simp only [entriesList, innerEntries, List.length_cons, ih]
    omega

theorem entsOf_append (xs ys : List FileData) : entsOf (xs ++ ys) = entsOf xs + entsOf ys := by
  induction xs with
  | nil => simp [entsOf]
  | cons x xs ih =>
    show entsOf (x :: (xs ++ ys)) = entsOf (x :: xs) + entsOf ys
    simp only [entsOf, ih]
    omega

theorem entries_of_file (f : FileInfo) (hf : f.IsDir = false) : f.entries = 0 := by
  cases f with
  | file n s => rfl
  | dir n s es => simp [FileInfo.IsDir] at hf
  | noread n s => simp [FileInfo.IsDir] at hf

theorem entsOf_kept (thr : Int) (a : Addr) (files : List FileInfo) :
    entsOf ((kept thr files).map (mkChild a)) = innerEntries files := by
  induction files with
  | nil => simp [kept, entsOf, innerEntries]
  | cons f fs ih =>
    unfold kept at ih ⊢
    rw [List.filter_cons, innerEntries]
    by_cases hs : isSmall thr f = true
    · obtain ⟨n, s, rfl⟩ := isSmall_file hs
      simp only [hs, Bool.not_true, Bool.false_eq_true, if_false]
      rw [ih]
      simp [FileInfo.entries]
    · have hs2 : isSmall thr f = false := by simpa using hs
      simp only [hs2, Bool.not_false, if_true, List.map_cons, entsOf]
      rw [ih, objEntries_mkChild]
      by_cases hd : f.IsDir = true
      · have e : (mkChild a f).IsDir = true := hd
        rw [if_pos e]
      · have hd2 : f.IsDir = false := by simpa using hd
        have e : ¬ (mkChild a f).IsDir = true := hd
        rw [if_neg e, entries_of_file f hd2]

theorem entsOf_childObjs (thr : Int) (a : Addr) (files : List FileInfo) :
    entsOf (childObjs thr a files) = innerEntries files := by
  unfold childObjs
  rw [entsOf_append, entsOf_kept]
  split
  · simp [entsOf, virtualFile, FileData.IsDir]
  · simp [entsOf]

theorem sum_dirAddrs_entries (g : Addr → Nat) (b : Addr) (n : Nat) (objs : List FileData)
    (h : ∀ k o, objs[k]? = some o → g (b ++ [n + k]) = objEntries o) :
    ((dirAddrs b n objs).map g).sum = entsOf objs := by
  induction objs generalizing n with
  | nil => simp [dirAddrs, entsOf]
  | cons o os ih =>
    have h0 := h 0 o (by simp)
    have ht : ∀ k o1, os[k]? = some o1 → g (b ++ [n + 1 + k]) = objEntries o1 := by
      intro k o1 hk
      have := h (k + 1) o1 (by simpa using hk)
      rw [← this]
      congr 3
      omega
    rw [dirAddrs, entsOf]
    by_cases hd : o.IsDir = true
    · rw [if_pos hd, if_pos hd, List.map_cons, List.sum_cons, ih (n + 1) ht]
      simp only [Nat.add_zero] at h0
      rw [h0]
    · rw [if_neg hd, if_neg hd, ih (n + 1) ht]
      omega

theorem entsOf_no_dirs (objs : List FileData) (h : objs.countP FileData.IsDir = 0) :
    entsOf objs = 0 := by
  induction objs with
  | nil => rfl
  | cons o os ih =>
    rw [List.countP_cons] at h
    have hd : ¬ o.IsDir = true := by
      intro hd
      simp [hd] at h
    rw [entsOf, if_neg hd, ih (by omega)]

theorem sum_handoff_entries (thr : Int) (root : FileData) (a : Addr) (d : FileData)
    (hcr : created thr root a = some d) (hb : objEntries root < 2147483648) :
    ((handoff thr a d).map (addrEntries thr root)).sum + listed thr root a =
      addrEntries thr root a := by
  have hle := created_entries_le hcr
  have ha : addrEntries thr root a = objEntries d := by simp [addrEntries, hcr]
  have hl : listed thr root a =
      (match readDir d.info with
        | some files => files.length
        | none => 0) := by simp [listed, hcr]
  rw [ha, hl]
  cases hr : readDir d.info with
  | none => simp [handoff, objEntries, hr]
  | some files =>
    have hod : objEntries d = entriesList files := by simp [objEntries, hr]
    rw [hod] at hle ⊢
    unfold handoff
    simp only [hr]
    have hlen := length_le_entriesList files
    have hcount : (kept thr files).countP FileInfo.IsDir ≤ files.length :=
      Nat.le_trans (List.countP_le_length _) (List.length_filter_le _ _)
    have hx := dirCountAcc_exact (kept thr files) (by omega)
    have hsum : ((dirAddrs a 0 (childObjs thr a files)).map (addrEntries thr root)).sum =
        innerEntries files := by
      rw [sum_dirAddrs_entries (addrEntries thr root) a 0 _ (by
        intro k o hk
        unfold addrEntries
        rw [Nat.zero_add, created_snoc, hcr]
        simp only [Option.bind, hr, hk]), entsOf_childObjs]
    rw [entriesList_eq files]
    split
    · rw [hsum]
      omega
    · rename_i hno
      have h0 : (kept thr files).countP FileInfo.IsDir = 0 := by
        rw [hx] at hno
        omega
      have := entsOf_no_dirs (childObjs thr a files) (by rw [childObjs_countP, h0])
      rw [entsOf_childObjs] at this
      simp only [List.map_nil, List.sum_nil]
      omega

theorem frontier_move {p q : ScanPool} {w : Nat} {old x : Worker}
    (hw : p.workers[w]? = some old) (hq : q.workers = p.workers)
    (hperm : (old.front ++ p.taskChan).Perm (x.front ++ q.taskChan)) :
    p.frontier.Perm (q.setWorker w x).frontier := by
  have hwq : q.workers[w]? = some old := by rw [hq]; exact hw
  obtain ⟨h1, _⟩ := frontier_setWorker p w old x hw
  obtain ⟨_, h2⟩ := frontier_setWorker q w old x hwq
  refine h1.trans (List.Perm.trans ?_ h2.symm)
  rw [hq, ← List.append_assoc, ← List.append_assoc]
  exact List.Perm.append_right _ hperm

theorem frontier_visit (thr : Int) {p : ScanPool} {w : Nat} {old : Worker} (x : Worker)
    (a : Addr) (d : FileData) (G : List Addr) (hw : p.workers[w]? = some old)
    (hold : old.front.Perm (a :: G)) (hx : x.front.Perm (handoff thr a d ++ G)) :
    ∃ G1, p.frontier.Perm (a :: G1) ∧
      ((p.visit a d).setWorker w x).frontier.Perm (handoff thr a d ++ G1) := by
  obtain ⟨h1, _⟩ := frontier_setWorker p w old x hw
  obtain ⟨_, h2⟩ := frontier_setWorker (p.visit a d) w old x hw
  refine ⟨G ++ (p.taskChan ++ workersFront (p.workers.eraseIdx w)), ?_, ?_⟩
  · exact h1.trans (List.Perm.append_right _ hold)
  · refine h2.trans ?_
    show (x.front ++ (p.taskChan ++ workersFront (p.workers.eraseIdx w))).Perm _
    rw [← List.append_assoc (handoff thr a d)]
    exact List.Perm.append_right _ hx

theorem Step.shape {thr : Int} {root : FileData} {p p1 : ScanPool} {w : Nat}
    (h : Step thr root p w p1) :
    (p1.TotalItems = p.TotalItems ∧ p1.visited = p.visited ∧ p.frontier.Perm p1.frontier) ∨
    ∃ a d G, created thr root a = some d ∧ p.frontier.Perm (a :: G) ∧
      p1.frontier.Perm (handoff thr a d ++ G) ∧ p1.visited = a :: p.visited ∧
      p1.TotalItems = visitItems d p.TotalItems := by
  cases h with
  | dequeue task rest hw ht =>
    refine Or.inl ⟨rfl, rfl, frontier_move hw (q := { p with taskChan := rest }) rfl ?_⟩
    simp only [Worker.front, ht, List.nil_append]
    exact List.Perm.refl _
  | exit hw ht hc =>
    exact Or.inl ⟨rfl, rfl, frontier_move hw (q := p) rfl (by simp [Worker.front])⟩
  | body task d hw hcr =>
    obtain ⟨G1, g1, g2⟩ := frontier_visit thr
      (match readDir d.info with
        | none => Worker.idle
        | some _ => Worker.busy (handoff thr task d) 0 []) task d [] hw
      (by simp [Worker.front])
      (by
        cases hr : readDir d.info with
        | none => simp [Worker.front, handoff, hr]
        | some files => simp [Worker.front])
    exact Or.inr ⟨task, d, G1, hcr, g1, g2, rfl, rfl⟩
  | finish tries hw =>
    refine Or.inl ⟨rfl, rfl, frontier_move hw
      (q := { p with taskCount := wrap32 (p.taskCount - 1),
                     closed := if wrap32 (p.taskCount - 1) = 0 then true else p.closed })
      rfl (by simp [Worker.front])⟩
  | sendClosed child rest tries hw ht hc =>
    exact Or.inl ⟨rfl, rfl, List.Perm.refl _⟩
  | enqueue child rest tries hw ht hc hl =>
    refine Or.inl ⟨rfl, rfl,
      frontier_move hw (q := { p with taskChan := p.taskChan ++ [child] }) rfl ?_⟩
    simp only [Worker.front, List.flatten_nil, List.append_nil]
    rw [List.cons_append]
    refine List.perm_middle.symm.trans ?_
    exact List.Perm.append_left _ (by
      have hsw : ([child] ++ p.taskChan).Perm (p.taskChan ++ [child]) :=
        List.perm_append_comm
      simpa using hsw)
  | retry child rest tries hw ht hc hl =>
    exact Or.inl ⟨rfl, rfl, frontier_move hw (q := p) rfl (by simp [Worker.front])⟩
  | inline child rest tries d hw ht hcr =>
    obtain ⟨G1, g1, g2⟩ := frontier_visit thr
      (Worker.busy rest 0
        (match readDir d.info with
          | none => []
          | some _ => [handoff thr child d])) child d rest hw
      (by simp [Worker.front])
      (by
        cases hr : readDir d.info with
        | none => simp [Worker.front, handoff, hr]
        | some files =>
          simp only [Worker.front, List.flatten_cons, List.flatten_nil, List.append_nil]
          exact List.perm_append_comm)
    exact Or.inr ⟨child, d, G1, hcr, g1, g2, rfl, rfl⟩
  | descend pending tries child more stack d hw hcr =>
    obtain ⟨G1, g1, g2⟩ := frontier_visit thr
      (Worker.busy pending tries
        (match readDir d.info with
          | none => more :: stack
          | some _ => handoff thr child d :: more :: stack)) child d
      (pending ++ (more ++ stack.flatten)) hw
      (by
        simp only [Worker.front, List.flatten_cons, List.cons_append]
        exact List.perm_middle)
      (by
        cases hr : readDir d.info with
        | none => simp [Worker.front, handoff, hr]
        | some files =>
          simp only [Worker.front, List.flatten_cons, List.append_assoc]
          rw [← List.append_assoc, ← List.append_assoc (handoff thr child d)]
          exact List.Perm.append_right _ List.perm_append_comm)
    exact Or.inr ⟨child, d, G1, hcr, g1, g2, rfl, rfl⟩
  | ret pending tries stack hw =>
    exact Or.inl ⟨rfl, rfl, frontier_move hw (q := p.processDirReturn) rfl
      (by simp [Worker.front, ScanPool.processDirReturn])⟩

theorem Step.tally {thr : Int} {root : FileData} (hb : objEntries root < 2147483648)
    {p p1 : ScanPool} {w : Nat} (ht : Tally thr root p) (h : Step thr root p w p1) :
    Tally thr root p1 := by
  rcases h.shape with ⟨hi, hv, hf⟩ | ⟨a, d, G, hcr, hf, hf1, hv, hi⟩
  · refine ⟨by rw [hi, hv]; exact ht.items, ?_⟩
    rw [hv, ← (hf.map (addrEntries thr root)).sum_eq]
    exact ht.balance
  · have hl : listedSum thr root (a :: p.visited) =
        listed thr root a + listedSum thr root p.visited := by
      simp [listedSum]
    have hs := sum_handoff_entries thr root a d hcr hb
    constructor
    · rw [hi, hv, hl, ht.items]
      unfold visitItems
      have hla : listed thr root a =
          (match readDir d.info with
            | some files => files.length
            | none => 0) := by simp [listed, hcr]
      rw [hla]
      cases hr : readDir d.info with
      | none => simp
      | some files =>
        simp only
        rw [itemsAcc_wrap]
        have e : ((listedSum thr root p.visited : Nat) : Int) + (files.length : Int) =
            ((files.length + listedSum thr root p.visited : Nat) : Int) := by omega
        rw [e]
    · have b := ht.balance
      have e1 := (hf.map (addrEntries thr root)).sum_eq
      have e2 := (hf1.map (addrEntries thr root)).sum_eq
      simp only [List.map_cons, List.sum_cons, List.map_append, List.sum_append] at e1 e2
      rw [hv, hl, e2]
      omega

theorem Tally.atFirst (dir : String) (stat : Option FileInfo) (W : Nat) (thr : Int) :
    Tally thr (newRootFileData dir stat) (ScanDirConcurrent.start dir stat W thr) where
  items := by
    have hv : (ScanDirConcurrent.start dir stat W thr).visited = [] := rfl
    have ht : (ScanDirConcurrent.start dir stat W thr).TotalItems = 0 := rfl
    rw [hv, ht]
    unfold listedSum wrap32
    simp
  balance := by
    have hf : (ScanDirConcurrent.start dir stat W thr).frontier = [[]] := by
      simp [ScanDirConcurrent.start, ScanPool.frontier, ScanPool.AddTask, ScanPool.Start,
        NewScanPool, workersFront_replicate_idle]
    have hv : (ScanDirConcurrent.start dir stat W thr).visited = [] := rfl
    rw [hf, hv]
    simp [listedSum, addrEntries, created, descend]

theorem Tally.along {thr : Int} {root : FileData} (hroot : root.Parent = none)
    (hb : objEntries root < 2147483648) (sched : List Nat) {p q : ScanPool}
    (hinv : Inv thr root p) (ht : Tally thr root p)
    (h : ScanPool.run sched p = some q) : Tally thr root q := by
  induction sched generalizing p with
  | nil =>
    simp only [ScanPool.run, Option.some.injEq] at h
    subst h
    exact ht
  | cons w ws ih =>
    simp only [ScanPool.run] at h
    cases hw : p.worker w with
    | none => simp [hw] at h
    | some p1 =>
      simp only [hw] at h
      have hs := step_of_worker hinv hw
      exact ih (hs.inv hroot hinv) (hs.tally hb ht) h

theorem count_value (thr : Int) (root : FileData) (V : List Addr)
    (hrc : root.Children = [])
    (hall : ∀ a d, created thr root a = some d → d.IsDir = true → a ∈ V)
    (hdirs : ∀ v ∈ V, ∃ d, created thr root v = some d ∧ d.IsDir = true) :
    ∀ n a d files, created thr root a = some d → (a = [] ∨ a.dropLast ∈ V) →
      d.isVirtual = false → d.IsDir = true → readDir d.info = some files →
      readableList files = true → entriesList files < 2147483648 →
      heightList files < n → ∀ F, n + 1 ≤ F →
        CountValue F (expected thr root V) a = some (entriesList files : Int) := by
  intro n
  induction n with
  | zero =>
    intro a d files _ _ _ _ _ _ _ hlt
    omega
  | succ n ih =>
    intro a d files hcr hal hvir hdir hr hrd hent hlt F hF
    obtain ⟨F1, rfl⟩ : ∃ F1, F = F1 + 1 := ⟨F - 1, by omega⟩
    have haV : a ∈ V := hall a d hcr hdir
    have hha := expected_visited thr root V a d hcr hal haV
    rw [expandedObj_eq thr a d files hr] at hha
    have hd := expected_disc thr root hrc V
    have hap := expected_apart thr root hrc V a _ hha
    have hlen : files.length < 2147483648 := by
      have := length_le_entriesList files
      omega
    have hkey : ∀ k obj, (childObjs thr a files)[k]? = some obj →
        countContribution F1 (expected thr root V) (a ++ [0 + k]) =
          some (objContribution obj) := by
      intro k obj hk
      rw [Nat.zero_add]
      have hcc : created thr root (a ++ [k]) = some obj := by
        rw [created_snoc, hcr]
        simp only [Option.bind, hr]
        exact hk
      have hleaf : obj.IsDir = false → expected thr root V (a ++ [k]) = some obj := by
        intro hnd
        apply expected_not_visited thr root V _ obj hcc
        · right
          rw [List.dropLast_concat]
          exact haV
        · intro hv
          obtain ⟨d1, h1, h2⟩ := hdirs _ hv
          rw [hcc] at h1
          have e : obj = d1 := Option.some.inj h1
          rw [← e, hnd] at h2
          simp at h2
      rcases childObjs_cases thr a files k obj hk with ⟨f, hf, _, rfl⟩ | ⟨rfl, hpos⟩
      · cases f with
        | file nm s =>
          unfold countContribution
          rw [hleaf rfl]
          rfl
        | dir nm s es =>
          have hhe := height_le_heightList files _ hf
          have hee := entries_le_of_mem hf
          have hre := readableList_mem hrd hf
          simp only [FileInfo.height, FileInfo.entries, FileInfo.readable] at hhe hee hre
          have i2 := ih (a ++ [k]) (mkChild a (FileInfo.dir nm s es)) es hcc
            (by right; rw [List.dropLast_concat]; exact haV) rfl rfl rfl hre
            (by omega) (by omega) F1 (by omega)
          have hcV : a ++ [k] ∈ V := hall _ _ hcc rfl
          have hhc := expected_visited thr root V (a ++ [k]) _ hcc
            (by right; rw [List.dropLast_concat]; exact haV) hcV
          rw [expandedObj_eq thr (a ++ [k]) (mkChild a (FileInfo.dir nm s es)) es rfl] at hhc
          unfold countContribution
          rw [hhc]
          simp only [mkChild, FileData.IsDir, Bool.false_eq_true, if_false, if_true]
          rw [i2]
          simp [objContribution, FileInfo.entries, FileInfo.IsDir, mkChild]
        | noread nm s =>
          have := readableList_mem hrd hf
          simp [FileInfo.readable] at this
      · unfold countContribution
        rw [hleaf rfl]
        rfl
    have hcs := forall₂_childAddrs
      (fun c v => countContribution F1 (expected thr root V) c = some v) a objContribution
      (childObjs thr a files) 0 hkey
    have hC := Count_dir_value F1 (expected thr root V) hd a _ hha rfl hvir hap _ hcs
    rw [sum_objContribution thr a files hlen] at hC
    rw [wrap64_of_range _ (by omega) (by omega)] at hC
    exact hC

theorem kept_add_small (thr : Int) (files : List FileInfo) :
    (kept thr files).length + (smallFiles thr files).length = files.length := by
  induction files with
  | nil => rfl
  | cons f fs ih =>
    unfold kept smallFiles at ih ⊢
    rw [List.filter_cons, List.filter_cons]
    by_cases hs : isSmall thr f = true
    · simp only [hs, Bool.not_true, Bool.false_eq_true, if_false, if_true, List.length_cons]
      omega
    · have hs2 : isSmall thr f = false := by simpa using hs
      simp only [hs2, Bool.not_false, Bool.false_eq_true, if_false, if_true, List.length_cons]
      omega

/-- C11: after a complete scan (every worker has exited) of a tree whose
directories can all be read and which has fewer than 2^31 entries, with at least
one worker, `TotalItems` is the number of raw entries listed over the directories
read, which is the number of entries of the tree; `Count()` of the root returns
`TotalItems`; and this holds for every threshold, because in every listing the
children kept and the count of the virtual entity add up to the number of raw
entries. -/
theorem items_agree (dir : String) (tree : FileInfo) (W : Nat) (thr : Int)
    (hdir : tree.IsDir = true) (hread : tree.readable = true)
    (hent : tree.entries < 2147483648) (hW : 1 ≤ W)
    (sched : List Nat) (q : ScanPool)
    (hrun : ScanPool.run sched (ScanDirConcurrent.start dir (some tree) W thr) = some q)
    (hwait : q.Wait = true) :
    q.TotalItems = (listedSum thr (newRootFileData dir (some tree)) q.visited : Int) ∧
    q.TotalItems = (tree.entries : Int) ∧
    (∀ F, tree.height + 1 ≤ F → CountValue F q.heap [] = some q.TotalItems) ∧
    (∀ files : List FileInfo, files.length < 2147483648 →
      ((kept thr files).length : Int) + smallCountAcc thr files 0 = (files.length : Int)) := by
  cases tree with
  | file nm s => simp [FileInfo.IsDir] at hdir
  | noread nm s => simp [FileInfo.readable] at hread
  | dir nm s files =>
    simp only [FileInfo.readable, FileInfo.entries, FileInfo.height] at hread hent ⊢
    have hroot := newRoot_parent dir (some (FileInfo.dir nm s files))
    have hrc := newRoot_children dir (some (FileInfo.dir nm s files))
    have hsound : Sound (newRootFileData dir (some (FileInfo.dir nm s files))) :=
      newRoot_sound dir _ rfl hread
    have hrd : readDir (newRootFileData dir (some (FileInfo.dir nm s files))).info =
        some files := rfl
    have hrdir : (newRootFileData dir (some (FileInfo.dir nm s files))).IsDir = true := rfl
    have hoe : objEntries (newRootFileData dir (some (FileInfo.dir nm s files))) =
        entriesList files := rfl
    have hb : objEntries (newRootFileData dir (some (FileInfo.dir nm s files))) <
        2147483648 := by rw [hoe]; exact hent
    have hinv0 := Inv.start dir (some (FileInfo.dir nm s files)) W thr
    have hinv := Inv.reach dir (some (FileInfo.dir nm s files)) W thr sched q hrun
    have hq := Quiet.invariant hroot sched hinv0 (Quiet.first dir _ W thr) hrun
    have hconc : q.concurrency = W := run_concurrency hroot sched hinv0 hrun
    have hfr := returned_frontier hq (by omega) hwait
    have ht := Tally.along hroot hb sched hinv0 (Tally.atFirst dir _ W thr) hrun
    have hbal := ht.balance
    rw [hfr, hoe] at hbal
    simp only [List.map_nil, List.sum_nil, Nat.add_zero] at hbal
    have hitems : q.TotalItems =
        (listedSum thr (newRootFileData dir (some (FileInfo.dir nm s files))) q.visited : Int) := by
      rw [ht.items]
      apply wrap32_of_range <;> omega
    have hcore := hinv.core
    rw [hfr] at hcore
    have hall := all_visited hsound hb hcore
    have hdirs : ∀ v ∈ q.visited, ∃ d,
        created thr (newRootFileData dir (some (FileInfo.dir nm s files))) v = some d ∧
          d.IsDir = true :=
      fun v hv => Elig_isDir hrdir (hcore.vis_elig v hv)
    refine ⟨hitems, by rw [hitems, hbal], ?_, ?_⟩
    · intro F hF
      have := count_value thr _ q.visited hrc hall hdirs (heightList files + 1) []
        (newRootFileData dir (some (FileInfo.dir nm s files))) files rfl (Or.inl rfl)
        rfl rfl hrd hread hent (by omega) F (by omega)
      rw [hcore.heap_eq, hitems, hbal]
      exact this
    · intro fs hfs
      rw [smallCountAcc_exact thr fs hfs]
      have := kept_add_small thr fs
      omega

theorem items_agree_witness :
    exampleScan.TotalItems = 4 ∧ CountValue 3 exampleScan.heap [] = some 4 ∧
      listedSum 1048576 (newRootFileData "/data" (some exampleTree)) exampleScan.visited = 4 := by
  have h := items_agree "/data" exampleTree 1 1048576 rfl (by decide) (by decide) (by decide)
    [0, 0, 0, 0, 0, 0, 0, 0] exampleScan exampleScan_run (by decide)
  have h4 : exampleScan.TotalItems = 4 := h.2.1
  refine ⟨h4, ?_, ?_⟩
  · have := h.2.2.1 3 (by decide)
    rw [h4] at this
    exact this
  · have := h.1
    rw [h4] at this
    exact_mod_cast this.symm

/-! ## A scan that returns with one worker and hangs with two -/

theorem blockedScanOne_run :
    ScanPool.run (List.replicate 24 0) (blockedStart 1) = some blockedScanOne := by
  rfl

theorem blockedScanTwo_run :
    ScanPool.run [0, 0, 0, 1, 1, 1, 0, 0, 0, 0, 0, 0, 0, 0, 0, 0, 0, 0, 0, 0, 0, 0]
      (blockedStart 2) = some blockedScanTwo := by
  rfl

theorem run_of_stuck {q : ScanPool} (hstuck : ∀ w, q.worker w = none) (sched : List Nat)
    (q1 : ScanPool) (h : ScanPool.run sched q = some q1) : q1 = q := by
  cases sched with
  | nil =>
    simp only [ScanPool.run, Option.some.injEq] at h
    exact h.symm
  | cons w ws =>
    simp [ScanPool.run, hstuck w] at h

/-- Scans of a tree whose directories can all be read, with fewer than 2^31 - 1
entries: with any numbers of workers and any schedules, the states in which no
worker can move are states in which `pool.Wait()` returns, and they have the same
heap. -/
theorem readable_scans_agree (dir : String) (tree : FileInfo) (thr : Int) (W1 W2 : Nat)
    (hdir : tree.IsDir = true) (hread : tree.readable = true)
    (hent : tree.entries < 2147483647) (hW1 : 1 ≤ W1) (hW2 : 1 ≤ W2)
    (sched1 sched2 : List Nat) (q1 q2 : ScanPool)
    (h1 : ScanPool.run sched1 (ScanDirConcurrent.start dir (some tree) W1 thr) = some q1)
    (h2 : ScanPool.run sched2 (ScanDirConcurrent.start dir (some tree) W2 thr) = some q2)
    (s1 : ∀ w, q1.worker w = none) (s2 : ∀ w, q2.worker w = none) :
    q1.Wait = true ∧ q2.Wait = true ∧ q1.heap = q2.heap := by
  have hroot := newRoot_parent dir (some tree)
  have hsound : Sound (newRootFileData dir (some tree)) := newRoot_sound dir tree hdir hread
  have hrdir : (newRootFileData dir (some tree)).IsDir = true := rfl
  have hb : objDirs (newRootFileData dir (some tree)) < 2147483648 := by
    have h := objDirs_le_entries (newRootFileData dir (some tree))
    have e : objEntries (newRootFileData dir (some tree)) = tree.entries := by
      cases tree with
      | file nm s => simp [FileInfo.IsDir] at hdir
      | noread nm s => simp [FileInfo.readable] at hread
      | dir nm s files => rfl
    omega
  have a1 := Safe.reachable dir _ W1 thr hb sched1 q1 h1
  have a2 := Safe.reachable dir _ W2 thr hb sched2 q2 h2
  have l1 := Live.preserved hroot hsound hrdir hb sched1 (Safe.init dir _ W1 thr)
    (Live.atStart dir _ W1 thr) h1
  have l2 := Live.preserved hroot hsound hrdir hb sched2 (Safe.init dir _ W2 thr)
    (Live.atStart dir _ W2 thr) h2
  have c1 : q1.concurrency = W1 :=
    run_concurrency hroot sched1 (Inv.start dir (some tree) W1 thr) h1
  have c2 : q2.concurrency = W2 :=
    run_concurrency hroot sched2 (Inv.start dir (some tree) W2 thr) h2
  obtain ⟨_, o1, e1⟩ := stuck_final a1 l1 (by omega) s1
  obtain ⟨_, o2, e2⟩ := stuck_final a2 l2 (by omega) s2
  exact ⟨wait_of_exited a1.no_panic e1, wait_of_exited a2.no_panic e2,
    returned_heap a1.inv a2.inv (frontier_nil_of_outstanding o1)
      (frontier_nil_of_outstanding o2)⟩

/-- C10 (code at the failing input): on `blockedTree`, whose subdirectory `d4`
cannot be read, the scan with one worker returns: `d4` is passed to `processDir`
while the channel is full, and the worker's own decrement closes the channel.
The scan with two workers can send `d4` on the channel; when `d4` is the last
directory read, the failed read in `worker` brings the counter to 0 without
closing the channel.  Both scans have built the same heap, but in the second no
worker can move, both wait on the open channel, and `ScanDirConcurrent` never
returns: there are no final values for concurrency 2. -/
theorem queue_inline_diverge :
    (ScanPool.run (List.replicate 24 0) (blockedStart 1) = some blockedScanOne ∧
      (ScanPool.run (List.replicate 10 0) (blockedStart 1)).map
          (fun q => (q.taskChan, q.visited)) =
        some ([[0], [1], [2], [3]], [[4], []]) ∧
      blockedScanOne.Wait = true ∧
      ScanDirConcurrent.result blockedScanOne = some ([[0], [1], [2], [3], [4]], false)) ∧
    (ScanPool.run [0, 0, 0, 1, 1, 1, 0, 0, 0, 0, 0, 0, 0, 0, 0, 0, 0, 0, 0, 0, 0, 0]
        (blockedStart 2) = some blockedScanTwo ∧
      (ScanPool.run [0, 0, 0, 1, 1, 1, 0, 0, 0, 0] (blockedStart 2)).map
          (fun q => q.taskChan) = some [[1], [2], [3], [4]] ∧
      blockedScanTwo.heap = blockedScanOne.heap ∧
      blockedScanTwo.taskCount = 0 ∧ blockedScanTwo.closed = false ∧
      blockedScanTwo.taskChan = [] ∧
      blockedScanTwo.workers = [Worker.idle, Worker.idle] ∧
      blockedScanTwo.visited = [[4], [3], [2], [1], [0], []] ∧
      (∀ w, blockedScanTwo.worker w = none) ∧
      ∀ sched q, ScanPool.run sched blockedScanTwo = some q →
        q.Wait = false ∧ ScanDirConcurrent.result q = none) := by
  have hstuck : ∀ w, blockedScanTwo.worker w = none := by
    intro w
    rcases w with _ | _ | w
    · rfl
    · rfl
    · have hws : blockedScanTwo.workers = [Worker.idle, Worker.idle] := by decide
      exact worker_out_of_range _ _ (by rw [hws]; simp)
  have i1 := Inv.reach "/five" (some blockedTree) 1 1048576 _ _ blockedScanOne_run
  have i2 := Inv.reach "/five" (some blockedTree) 2 1048576 _ _ blockedScanTwo_run
  refine ⟨⟨rfl, by decide, by decide, by decide⟩, rfl, by decide,
    returned_heap i2 i1 (by decide) (by decide), by decide, by decide, by decide,
    by decide, by decide, hstuck, ?_⟩
  intro sched q hq
  rw [run_of_stuck hstuck sched q hq]
  exact ⟨by decide, by decide⟩

end Gncdu
